import Mathlib

/-!
Verification of the incremental linear-algebra core of the harmonic-modules
repository: the on-the-fly coordinate ranker, the row store
(`MatrixOfVectors`), the row-echelon store (`EchelonMatrixOfVectors`), the
annihilator computation (`annihilator_basis`) and the graded subspace-closure
engine (`Subspace`) from `code.py`.

Rows of matrices over the exact field ℚ are modelled as `List ℚ`, read as
finitely supported functions `ℕ → ℚ` (zero beyond the end of the list), so
that row spans and linear independence live in the ℚ-module `ℕ → ℚ`.
Sage's `Matrix.echelonize` is modelled by a verified Gaussian elimination
`echelonize`; the repository only relies on the row count, the row span, the
trailing position of zero rows and the independence of the nonzero rows of
the echelonized matrix, and these are proved below.
-/

namespace Harmonic

/-- Semantics of a dense row: the function sending a column index to the
stored coefficient, with zero beyond the end of the list. -/
def toFun (r : List ℚ) : ℕ → ℚ := fun j => r.getD j 0

/-- Multiply every entry of a row by a scalar (used with the inverse of the
pivot entry when normalizing a pivot row). -/
def scaleRow (c : ℚ) (r : List ℚ) : List ℚ := r.map (fun x => c * x)

/-- Add `c` times the row `r` to the row `s`, entrywise. -/
def addMulRow (s : List ℚ) (c : ℚ) (r : List ℚ) : List ℚ :=
  List.zipWith (fun a b => a + c * b) s r

/-- Pad a row with zero entries on the right up to width `w`. -/
def padTo (w : ℕ) (r : List ℚ) : List ℚ := r ++ List.replicate (w - r.length) 0

/-- Whether a row has some nonzero entry; `m[-1]` is truthy in the source
exactly when the trailing row is nonzero. -/
def isNZRow (r : List ℚ) : Bool := r.any (fun x => decide (x ≠ 0))

/-- Index of the leading (first) nonzero entry of a row, if any. -/
def pivotP : List ℚ → Option ℕ
  | [] => none
  | a :: t => if a = 0 then (pivotP t).map (fun j => j + 1) else some 0

/-- Minimal pivot column over a list of rows, if some row is nonzero. -/
def minPivot : List (List ℚ) → Option ℕ
  | [] => none
  | r :: rs =>
    match pivotP r, minPivot rs with
    | none, m => m
    | some p, none => some p
    | some p, some q => some (min p q)

/-- Index of the first row whose pivot is at column `p`. -/
def findPivRow (p : ℕ) : List (List ℚ) → ℕ
  | [] => 0
  | r :: t => if pivotP r = some p then 0 else findPivRow p t + 1

/-- Fuel-indexed Gaussian elimination: select a row with the leftmost pivot,
normalize it, eliminate its pivot column from all remaining rows and recurse
on those rows.  With enough fuel (the row count suffices) the result is a
row echelon form with the zero rows at the bottom. -/
def gaussF : ℕ → List (List ℚ) → List (List ℚ)
  | 0, rows => rows
  | fuel + 1, rows =>
    match minPivot rows with
    | none => rows
    | some p =>
      let i := findPivRow p rows
      let r := rows.getD i []
      let c := r.getD p 0
      let r1 := scaleRow c⁻¹ r
      let rest := (rows.eraseIdx i).map (fun s => addMulRow s (-(s.getD p 0)) r1)
      r1 :: gaussF fuel rest

/-- Model of Sage's `Matrix.echelonize` as used by the repository: row
reduction to an echelon form with unchanged row count.  (Sage additionally
back-substitutes to the reduced echelon form; the code under verification
only relies on the row count, the row span, the zero rows being at the
bottom and the nonzero rows being independent, all of which agree.) -/
def echelonize (rows : List (List ℚ)) : List (List ℚ) := gaussF rows.length rows

/-- The trailing row of a matrix (`m[-1]` in the source). -/
def lastRow (rows : List (List ℚ)) : List ℚ := rows.getLastD []

/-- The set of row semantics of a matrix. -/
def rowSet (rows : List (List ℚ)) : Set (ℕ → ℚ) :=
  toFun '' { r | r ∈ rows }

/-- The row span of a matrix, as a submodule of `ℕ → ℚ`. -/
def rowSpan (rows : List (List ℚ)) : Submodule ℚ (ℕ → ℚ) :=
  Submodule.span ℚ (rowSet rows)

/-- The rows of a matrix as a finitely indexed family of functions. -/
def famOf (rows : List (List ℚ)) : Fin rows.length → (ℕ → ℚ) :=
  fun i => toFun (rows.get i)

/-- Linear independence of the rows of a matrix, with multiplicity. -/
def LinIndepL (rows : List (List ℚ)) : Prop :=
  LinearIndependent ℚ (famOf rows)

/-- Uniform width of a matrix: every row has length `w`. -/
def UW (w : ℕ) (rows : List (List ℚ)) : Prop := ∀ r ∈ rows, r.length = w

/-- Echelon output shape produced by `gaussF`: either all rows are zero, or
the head row has a pivot `p` and every later row vanishes on all columns up
to `p`. -/
inductive GOut : List (List ℚ) → Prop
  | zeros {rows : List (List ℚ)} (h : ∀ r ∈ rows, toFun r = 0) : GOut rows
  | step {r : List ℚ} {p : ℕ} {rows : List (List ℚ)}
      (hp : pivotP r = some p)
      (hz : ∀ s ∈ rows, ∀ j, j ≤ p → toFun s j = 0)
      (ht : GOut rows) : GOut (r :: rows)

/-- The submodule of functions vanishing on all columns up to `p`. -/
def vanishUpTo (p : ℕ) : Submodule ℚ (ℕ → ℚ) where
  carrier := { f | ∀ j, j ≤ p → f j = 0 }
  add_mem' := by
    intro f g hf hg j hj
    simp [hf j hj, hg j hj]
  zero_mem' := by
    intro j hj
    rfl
  smul_mem' := by
    intro c f hf j hj
    simp [hf j hj]

/-- Collaborator capabilities of an ambient space: the membership test used
by `plain_vector` (Sage's `is_parent_of`) and the structural decomposition of
a vector into (basis key, coefficient) pairs (`items_of_vector`). -/
structure Ambient (V κ : Type) where
  isParentOf : V → Bool
  items : V → List (κ × ℚ)

/-- Wellformedness of the decomposition capability: on ambient members the
decomposition lists pairwise distinct keys with nonzero coefficients, as
`items_of_vector` does (it enumerates the support of the vector). -/
def AmbWF {V κ : Type} (A : Ambient V κ) : Prop :=
  ∀ v : V, A.isParentOf v = true →
    ((A.items v).map Prod.fst).Nodup ∧ ∀ p ∈ A.items v, p.2 ≠ 0

/-- Coefficient of a vector on a basis key, read off from its decomposition. -/
def coordFn {V κ : Type} [DecidableEq κ] (A : Ambient V κ) (v : V) : κ → ℚ :=
  fun k => ((A.items v).map (fun p => if p.1 = k then p.2 else 0)).sum

/-- Position of the first occurrence of a key in the ranker cache. -/
def idxOfKey {κ : Type} [DecidableEq κ] : List κ → κ → ℕ
  | [], _ => 0
  | a :: t, k => if a = k then 0 else idxOfKey t k + 1

/-- On-the-fly ranker (`sage.combinat.ranker.on_fly`): return the existing
index of a key, or assign the next integer and record the key. -/
def rank1 {κ : Type} [DecidableEq κ] (keys : List κ) (k : κ) : ℕ × List κ :=
  if k ∈ keys then (idxOfKey keys k, keys) else (keys.length, keys ++ [k])

/-- Rank every key of a decomposition in order, threading the ranker state. -/
def rankItems {κ : Type} [DecidableEq κ] : List κ → List (κ × ℚ) → List (ℕ × ℚ) × List κ
  | keys, [] => ([], keys)
  | keys, p :: rest =>
    let jk := rank1 keys p.1
    let pr := rankItems jk.2 rest
    ((jk.1, p.2) :: pr.1, pr.2)

/-- Value of the Python dict `{rank(key): coeff}` at index `j` (the last
write wins, as in a dict comprehension). -/
def dictGet (ps : List (ℕ × ℚ)) (j : ℕ) : ℚ :=
  match ps.reverse.find? (fun p => decide (p.1 = j)) with
  | some p => p.2
  | none => 0

/-- Dense row of length `n` built from the ranked pairs. -/
def rowOfPairs (ps : List (ℕ × ℚ)) (n : ℕ) : List ℚ :=
  (List.range n).map (fun j => dictGet ps j)

/-- The shared statistics dictionary threaded through the stores. -/
structure Stats where
  add_vector : ℕ
  extend : ℕ
  dimension : ℕ

/-- Python-level failures of the core: `ValueError` from `plain_vector`
(ambient mismatch), `AssertionError` from `extend`'s echelon-form
precondition, and `ValueError` from the degree combination (the
invalid-degree pruning signal, caught inside the closure engine). -/
inductive PyErr
  | ambientMismatch
  | notEchelon
  | invalidDegree
deriving DecidableEq

/-- Mutable state of a `MatrixOfVectors` (and of its `EchelonMatrixOfVectors`
refinement): the ranker cache in rank order, the matrix, its column count,
the accepted-basis list, and the echelon flag. -/
structure MatrixOfVectors (V κ : Type) where
  keys : List κ
  mat : List (List ℚ)
  ncols : ℕ
  basis : List V
  isEchelon : Bool

/-- A freshly constructed store with no initial vectors: a 0×0 matrix, an
empty ranker, an empty basis, and the echelon flag set. -/
def MatrixOfVectors.empty (V κ : Type) : MatrixOfVectors V κ :=
  ⟨[], [], 0, [], true⟩

/-- Model of `MatrixOfVectors.plain_vector`: require the vector to belong to
the declared ambient space (else `ValueError`), rank every key of the
decomposition, and return the dense row of length equal to the number of
ranked keys, together with the updated ranker cache. -/
def plain_vector {V κ : Type} [DecidableEq κ] (A : Ambient V κ) (keys : List κ) (v : V) :
    Except PyErr (List ℚ × List κ) :=
  if A.isParentOf v = false then .error .ambientMismatch
  else
    let pr := rankItems keys (A.items v)
    .ok (rowOfPairs pr.1 pr.2.length, pr.2)

/-- Model of `MatrixOfVectors._add_vector_to_matrix`: augment the matrix with
zero columns when the new row is wider, then stack the row. -/
def addVectorToMatrix (mat : List (List ℚ)) (ncols : ℕ) (r : List ℚ) :
    List (List ℚ) × ℕ :=
  if ncols < r.length then (mat.map (padTo r.length) ++ [r], r.length)
  else (mat ++ [r], ncols)

/-- Model of `MatrixOfVectors.add_vector`: bump the statistics, clear the
echelon flag, then stack the plain vector (a raised `ValueError` leaves the
matrix untouched but the flag already cleared). -/
def add_vector {V κ : Type} [DecidableEq κ] (A : Ambient V κ)
    (s : MatrixOfVectors V κ) (v : V) (st : Stats) :
    Except PyErr Unit × MatrixOfVectors V κ × Stats :=
  let st1 := { st with add_vector := st.add_vector + 1 }
  let s1 := { s with isEchelon := false }
  match plain_vector A s1.keys v with
  | .error e => (.error e, s1, st1)
  | .ok rk =>
    let mc := addVectorToMatrix s1.mat s1.ncols rk.1
    (.ok (), { s1 with keys := rk.2, mat := mc.1, ncols := mc.2 }, st1)

/-- Model of `EchelonMatrixOfVectors.extend`: bump the statistics, assert the
echelon-form precondition, build the candidate matrix from the plain vector,
echelonize it, and commit (appending `v` to the accepted basis) exactly when
the trailing row of the reduced candidate is nonzero. -/
def extend {V κ : Type} [DecidableEq κ] (A : Ambient V κ)
    (s : MatrixOfVectors V κ) (v : V) (st : Stats) :
    Except PyErr Bool × MatrixOfVectors V κ × Stats :=
  let st1 := { st with extend := st.extend + 1 }
  if s.isEchelon = false then (.error .notEchelon, s, st1)
  else
    match plain_vector A s.keys v with
    | .error e => (.error e, s, st1)
    | .ok rk =>
      let s1 := { s with keys := rk.2 }
      let mc := addVectorToMatrix s1.mat s1.ncols rk.1
      let m := echelonize mc.1
      if isNZRow (lastRow m) then
        (.ok true,
          { s1 with mat := m, ncols := mc.2, basis := s1.basis ++ [v] },
          { st1 with dimension := st1.dimension + 1 })
      else (.ok false, s1, st1)

/-- Model of `EchelonMatrixOfVectors.cardinality`: the row count. -/
def cardinality {V κ : Type} (s : MatrixOfVectors V κ) : ℕ := s.mat.length

/-- Model of the `MatrixOfVectors` constructor with an initial vector list:
start from the empty store and feed every vector through `add_vector`
(a raised exception aborts the loop). -/
def mkMatrixOfVectors {V κ : Type} [DecidableEq κ] (A : Ambient V κ)
    (vectors : List V) (st : Stats) :
    Except PyErr Unit × MatrixOfVectors V κ × Stats :=
  vectors.foldl
    (fun acc v =>
      match acc.1 with
      | .error _ => acc
      | .ok _ => add_vector A acc.2.1 v acc.2.2)
    (.ok (), MatrixOfVectors.empty V κ, st)

/-- Feed a list of vectors through `extend` on an echelon store in order,
collecting the accepted ones (the `[v for v in gens if basis.extend(v)]`
filter of `Subspace.__init__`); a raised exception aborts the loop. -/
def extendList {V κ : Type} [DecidableEq κ] (A : Ambient V κ)
    (s : MatrixOfVectors V κ) :
    List V → Stats → Except PyErr (List V) × MatrixOfVectors V κ × Stats
  | [], st => (.ok [], s, st)
  | v :: rest, st =>
    match extend A s v st with
    | (.error e, s2, st2) => (.error e, s2, st2)
    | (.ok b, s2, st2) =>
      match extendList A s2 rest st2 with
      | (.error e, s3, st3) => (.error e, s3, st3)
      | (.ok acc, s3, st3) => (.ok (if b then v :: acc else acc), s3, st3)

/-- Transport along the ranker: read a coefficient function on keys as a
dense column function, column `j` holding the coefficient of the `j`-th
ranked key. -/
def TkF {κ : Type} (keys : List κ) (f : κ → ℚ) : ℕ → ℚ :=
  fun j => if h : j < keys.length then f (keys.get ⟨j, h⟩) else 0

/-- The ranker transport as a linear map. -/
def TkL {κ : Type} (keys : List κ) : (κ → ℚ) →ₗ[ℚ] (ℕ → ℚ) where
  toFun := TkF keys
  map_add' := by
    intro f g
    funext j
    unfold TkF
    by_cases h : j < keys.length <;> simp [h]
  map_smul' := by
    intro c f
    funext j
    unfold TkF
    by_cases h : j < keys.length <;> simp [h]

/-- Span of the coordinate functions of a list of vectors, inside `κ → ℚ`. -/
def ambSpan {V κ : Type} [DecidableEq κ] (A : Ambient V κ) (bs : List V) :
    Submodule ℚ (κ → ℚ) :=
  Submodule.span ℚ { f | ∃ v ∈ bs, coordFn A v = f }

/-- The submodule of coefficient functions supported inside a key list. -/
def suppIn {κ : Type} (keys : List κ) : Submodule ℚ (κ → ℚ) where
  carrier := { f | ∀ k, f k ≠ 0 → k ∈ keys }
  add_mem' := by
    intro f g hf hg k hk
    by_cases h1 : f k = 0
    · exact hg k (by simpa [h1] using hk)
    · exact hf k h1
  zero_mem' := by
    intro k hk
    exact absurd rfl hk
  smul_mem' := by
    intro c f hf k hk
    apply hf k
    intro h0
    apply hk
    simp [h0]

/-- Invariant of a well-formed echelon store, as established by the
vector-free constructor and maintained by `extend`. -/
structure EchWF {V κ : Type} [DecidableEq κ] (A : Ambient V κ)
    (s : MatrixOfVectors V κ) : Prop where
  keysNodup : s.keys.Nodup
  matUW : UW s.ncols s.mat
  ncolsLe : s.ncols ≤ s.keys.length
  matBasisLen : s.mat.length = s.basis.length
  basisParent : ∀ v ∈ s.basis, A.isParentOf v = true
  basisSupp : ∀ v ∈ s.basis, ∀ k, coordFn A v k ≠ 0 → k ∈ s.keys
  basisNZ : ∀ v ∈ s.basis, coordFn A v ≠ 0
  matIndep : LinIndepL s.mat
  matSpan : rowSpan s.mat = Submodule.map (TkL s.keys) (ambSpan A s.basis)
  ech : s.isEchelon = true

/-- A concrete ambient space used to exercise the theorems: vectors are
finitely supported coefficient lists over ℕ with duplicate-free keys and
nonzero coefficients, and the decomposition is the list itself. -/
def witAmb : Ambient (List (ℕ × ℚ)) ℕ where
  isParentOf := fun v =>
    decide ((v.map Prod.fst).Nodup) && v.all (fun p => decide (p.2 ≠ 0))
  items := fun v => v

/-- Association-list lookup, first match (Python dict access). -/
def lookupD {D β : Type} [DecidableEq D] : List (D × β) → D → Option β
  | [], _ => none
  | p :: t, d => if p.1 = d then some p.2 else lookupD t d

/-- Association-list update; a missing key is inserted at the end, matching
the insertion-order semantics of a Python dict. -/
def updateD {D β : Type} [DecidableEq D] : List (D × β) → D → β → List (D × β)
  | [], d, b => [(d, b)]
  | p :: t, d, b => if p.1 = d then (d, b) :: t else p :: updateD t d b

/-- Mutable state of a `Subspace`: the per-degree echelon stores (a dict in
insertion order), the worklist, the memoization flag of `finalize`, and the
statistics dictionary shared by all the stores. -/
structure SubState (V κ D : Type) where
  bases : List (D × MatrixOfVectors V κ)
  todo : List (V × D × (V → V))
  finalized : Bool
  stats : Stats

/-- Model of `Subspace.todo`: for every operator-table entry `(d2, ops)`
compute `d3 = add_degrees(d1, d2)`; a `ValueError` raised by the degree
combination is caught and skips the whole entry, otherwise one worklist item
per vector and operator is appended. -/
def todoFn {V D : Type} (ops : List (D × List (V → V)))
    (addDeg : D → D → Except PyErr D) (todo : List (V × D × (V → V)))
    (d1 : D) (vs : List V) : List (V × D × (V → V)) :=
  ops.foldl
    (fun td p =>
      match addDeg d1 p.1 with
      | .error _ => td
      | .ok d3 => td ++ vs.flatMap (fun v => p.2.map (fun op => (v, d3, op))))
    todo

/-- The worklist items a `Subspace.todo` call appends for a source degree
and vector list: one item per valid shift, vector and operator. -/
def validItems {V D : Type} (ops : List (D × List (V → V)))
    (addDeg : D → D → Except PyErr D) (d1 : D) (vs : List V) :
    List (V × D × (V → V)) :=
  ops.flatMap (fun p =>
    match addDeg d1 p.1 with
    | .error _ => []
    | .ok d3 => vs.flatMap (fun v => p.2.map (fun op => (v, d3, op))))

/-- Model of `Subspace.__init__` over the normalized degree-keyed generator
table: create one echelon store per degree, feed the generators through
`extend` keeping the accepted ones, and enqueue their worklist items; a
raised exception propagates, discarding the store under construction. -/
def initBuckets {V κ D : Type} [DecidableEq κ] [DecidableEq D] (A : Ambient V κ)
    (ops : List (D × List (V → V))) (addDeg : D → D → Except PyErr D) :
    List (D × List V) → SubState V κ D → Except PyErr Unit × SubState V κ D
  | [], st => (.ok (), st)
  | (d, gs) :: rest, st =>
    match extendList A (MatrixOfVectors.empty V κ) gs st.stats with
    | (.error e, _, st2) => (.error e, { st with stats := st2 })
    | (.ok accepted, basis, st2) =>
      initBuckets A ops addDeg rest
        { st with
          bases := st.bases ++ [(d, basis)]
          todo := todoFn ops addDeg st.todo d accepted
          stats := st2 }

/-- The freshly initialized `Subspace` state. -/
def subspaceInit {V κ D : Type} [DecidableEq κ] [DecidableEq D] (A : Ambient V κ)
    (gens : List (D × List V)) (ops : List (D × List (V → V)))
    (addDeg : D → D → Except PyErr D) : Except PyErr Unit × SubState V κ D :=
  initBuckets A ops addDeg gens ⟨[], [], false, ⟨0, 0, 0⟩⟩

/-- Result of draining the worklist: normal completion, a raised exception
(with the mutated state), or fuel exhaustion (modelling non-termination). -/
inductive DrainRes (V κ D : Type) where
  | ok (st : SubState V κ D)
  | err (e : PyErr) (st : SubState V κ D)
  | noFuel (st : SubState V κ D)

/-- The worklist loop of `Subspace.finalize`, generalized over the policy
`pick` choosing which pending item to process (clamped into range): remove
the picked item `(v, d, op)`, compute `w = op v`, lazily create bucket `d`,
call `extend` on it, and on acceptance enqueue the successors of `w`.  The
source's `todo.pop()` is the last-index policy. -/
def drainWith {V κ D : Type} [DecidableEq κ] [DecidableEq D] (A : Ambient V κ)
    (ops : List (D × List (V → V))) (addDeg : D → D → Except PyErr D)
    (pick : List (V × D × (V → V)) → ℕ) :
    ℕ → SubState V κ D → DrainRes V κ D
  | 0, st => if st.todo.isEmpty then .ok st else .noFuel st
  | fuel + 1, st =>
    match st.todo with
    | [] => .ok st
    | x :: xs =>
      let i := min (pick (x :: xs)) xs.length
      let item := (x :: xs).getD i x
      let rest := (x :: xs).eraseIdx i
      let w := item.2.2 item.1
      let bucket :=
        match lookupD st.bases item.2.1 with
        | some bk => bk
        | none => MatrixOfVectors.empty V κ
      match extend A bucket w st.stats with
      | (.error e, bk2, st2) =>
        .err e { st with
          bases := updateD st.bases item.2.1 bk2
          todo := rest
          stats := st2 }
      | (.ok b, bk2, st2) =>
        let st3 : SubState V κ D := { st with
          bases := updateD st.bases item.2.1 bk2
          todo := rest
          stats := st2 }
        drainWith A ops addDeg pick fuel
          (if b then { st3 with todo := todoFn ops addDeg st3.todo item.2.1 [w] }
            else st3)

/-- The LIFO policy of the source (`todo.pop()` removes the last item). -/
def lifoPick {V D : Type} (l : List (V × D × (V → V))) : ℕ := l.length - 1

/-- A FIFO policy (queue order), for the order-invariance property. -/
def fifoPick {V D : Type} (_ : List (V × D × (V → V))) : ℕ := 0

/-- Model of `Subspace.finalize`, a `cached_method`: return at once when
memoized, otherwise drain the worklist LIFO and memoize on success (an
exception is not cached). -/
def finalize {V κ D : Type} [DecidableEq κ] [DecidableEq D] (A : Ambient V κ)
    (ops : List (D × List (V → V))) (addDeg : D → D → Except PyErr D)
    (fuel : ℕ) (st : SubState V κ D) : DrainRes V κ D :=
  if st.finalized then .ok st
  else
    match drainWith A ops addDeg lifoPick fuel st with
    | .ok st2 => .ok { st2 with finalized := true }
    | r => r

/-- Model of `Subspace.dimension`: finalize, then sum the cardinalities of
the per-degree stores; `none` models non-termination. -/
def dimension {V κ D : Type} [DecidableEq κ] [DecidableEq D] (A : Ambient V κ)
    (ops : List (D × List (V → V))) (addDeg : D → D → Except PyErr D)
    (fuel : ℕ) (st : SubState V κ D) :
    Option (Except PyErr ℕ × SubState V κ D) :=
  match finalize A ops addDeg fuel st with
  | .ok st2 => some (.ok ((st2.bases.map (fun p => cardinality p.2)).sum), st2)
  | .err e st2 => some (.error e, st2)
  | .noFuel _ => none

/-- Model of `Subspace.dimensions`: finalize, then return the
degree-to-cardinality mapping. -/
def dimensions {V κ D : Type} [DecidableEq κ] [DecidableEq D] (A : Ambient V κ)
    (ops : List (D × List (V → V))) (addDeg : D → D → Except PyErr D)
    (fuel : ℕ) (st : SubState V κ D) :
    Option (Except PyErr (List (D × ℕ)) × SubState V κ D) :=
  match finalize A ops addDeg fuel st with
  | .ok st2 => some (.ok (st2.bases.map (fun p => (p.1, cardinality p.2))), st2)
  | .err e st2 => some (.error e, st2)
  | .noFuel _ => none

/-- Reachable coordinate functions of the graded closure: coordinates of the
generators at their degrees, closed under the coordinate actions of the
operators along valid degree shifts. -/
inductive Reach {V κ D : Type} [DecidableEq κ] (A : Ambient V κ)
    (gens : List (D × List V)) (ops : List (D × List (V → V)))
    (addDeg : D → D → Except PyErr D)
    (Lop : (V → V) → ((κ → ℚ) →ₗ[ℚ] (κ → ℚ))) : D → (κ → ℚ) → Prop
  | gen {d : D} {gs : List V} {v : V} (hd : (d, gs) ∈ gens) (hv : v ∈ gs) :
      Reach A gens ops addDeg Lop d (coordFn A v)
  | step {d1 : D} {x : κ → ℚ} {d2 : D} {opsl : List (V → V)} {op : V → V} {d3 : D}
      (hx : Reach A gens ops addDeg Lop d1 x) (hops : (d2, opsl) ∈ ops)
      (hop : op ∈ opsl) (hd3 : addDeg d1 d2 = .ok d3) :
      Reach A gens ops addDeg Lop d3 (Lop op x)

/-- The per-degree component of the smallest graded family of subspaces that
contains the generators and is stable under the operators along the valid
degree shifts. -/
def gradedClosure {V κ D : Type} [DecidableEq κ] (A : Ambient V κ)
    (gens : List (D × List V)) (ops : List (D × List (V → V)))
    (addDeg : D → D → Except PyErr D)
    (Lop : (V → V) → ((κ → ℚ) →ₗ[ℚ] (κ → ℚ))) (d : D) : Submodule ℚ (κ → ℚ) :=
  Submodule.span ℚ { x | Reach A gens ops addDeg Lop d x }

/-- Coordinate span of the bucket at a degree (bottom when absent). -/
def bucketSpan {V κ D : Type} [DecidableEq κ] [DecidableEq D] (A : Ambient V κ)
    (st : SubState V κ D) (d : D) : Submodule ℚ (κ → ℚ) :=
  match lookupD st.bases d with
  | some bk => ambSpan A bk.basis
  | none => ⊥

/-- Wellformedness of the operator table relative to a family of linear
coordinate actions: operators preserve ambient membership and act linearly
on coordinates (the documented contract of `Subspace`). -/
def OpsWF {V κ D : Type} [DecidableEq κ] (A : Ambient V κ)
    (ops : List (D × List (V → V)))
    (Lop : (V → V) → ((κ → ℚ) →ₗ[ℚ] (κ → ℚ))) : Prop :=
  ∀ p ∈ ops, ∀ op ∈ p.2, ∀ v : V, A.isParentOf v = true →
    A.isParentOf (op v) = true ∧ coordFn A (op v) = Lop op (coordFn A v)

/-- A degree that the run must populate with a bucket: a generator degree,
or the valid target of a shift with a nonempty operator list from a degree
whose closure component is nonzero. -/
def TargetDeg {V κ D : Type} [DecidableEq κ] (A : Ambient V κ)
    (gens : List (D × List V)) (ops : List (D × List (V → V)))
    (addDeg : D → D → Except PyErr D)
    (Lop : (V → V) → ((κ → ℚ) →ₗ[ℚ] (κ → ℚ))) (d : D) : Prop :=
  d ∈ gens.map Prod.fst ∨
    ∃ d1 d2 opsl, (d2, opsl) ∈ ops ∧ opsl ≠ [] ∧ addDeg d1 d2 = .ok d ∧
      gradedClosure A gens ops addDeg Lop d1 ≠ ⊥

/-- The drain-loop invariant of the closure engine. -/
structure SubInv {V κ D : Type} [DecidableEq κ] [DecidableEq D] (A : Ambient V κ)
    (gens : List (D × List V)) (ops : List (D × List (V → V)))
    (addDeg : D → D → Except PyErr D)
    (Lop : (V → V) → ((κ → ℚ) →ₗ[ℚ] (κ → ℚ))) (st : SubState V κ D) : Prop where
  basesWF : ∀ p ∈ st.bases, EchWF A p.2
  basesNodup : (st.bases.map Prod.fst).Nodup
  gensBuckets : ∀ p ∈ gens, p.1 ∈ st.bases.map Prod.fst
  gensCovered : ∀ p ∈ gens, ∀ v ∈ p.2, coordFn A v ∈ bucketSpan A st p.1
  basesSound : ∀ p ∈ st.bases, ∀ v ∈ p.2.basis,
      Reach A gens ops addDeg Lop p.1 (coordFn A v)
  todoParent : ∀ it ∈ st.todo, A.isParentOf it.1 = true
  todoJustified : ∀ it ∈ st.todo, ∃ d1 d2 opsl,
      (d2, opsl) ∈ ops ∧ it.2.2 ∈ opsl ∧ addDeg d1 d2 = .ok it.2.1 ∧
      Reach A gens ops addDeg Lop d1 (coordFn A it.1) ∧ coordFn A it.1 ≠ 0
  obligations : ∀ p ∈ st.bases, ∀ v ∈ p.2.basis, ∀ q ∈ ops, ∀ op ∈ q.2, ∀ d3,
      addDeg p.1 q.1 = .ok d3 →
      (v, d3, op) ∈ st.todo ∨
        (∃ bk, lookupD st.bases d3 = some bk ∧
          coordFn A (op v) ∈ ambSpan A bk.basis)
  bucketJust : ∀ p ∈ st.bases, p.1 ∈ gens.map Prod.fst ∨
      ∃ d1 d2 opsl, (d2, opsl) ∈ ops ∧ opsl ≠ [] ∧ addDeg d1 d2 = .ok p.1 ∧
        gradedClosure A gens ops addDeg Lop d1 ≠ ⊥

/-- A unit row of length `n`: zero everywhere except a single 1 in column
`i` (one row of an identity block). -/
def unitRow (n i : ℕ) : List ℚ :=
  List.replicate i 0 ++ 1 :: List.replicate (n - i - 1) 0

/-- Whether the first `w` entries of a row vanish (the matrix part of an
augmented row has been eliminated). -/
def leftZero (w : ℕ) (r : List ℚ) : Bool :=
  (r.take w).all (fun x => decide (x = 0))

/-- Basis of the left kernel of a matrix of rows of width `w` (Sage's
`left_kernel().basis()` as used by `annihilator_basis`): augment the matrix
on the right with an identity block, row-reduce, and return the identity
parts of the rows whose matrix part was eliminated to zero; each returned
row lists the coefficients of one vanishing combination of the input
rows. -/
def leftKernelBasis (w : ℕ) (m : List (List ℚ)) : List (List ℚ) :=
  ((echelonize ((List.range m.length).map
      (fun i => padTo w (m.getD i []) ++ unitRow m.length i))).filter
    (fun r => leftZero w r)).map (fun r => r.drop w)

/-- One actor of the augmentation loop of `annihilator_basis` (source lines
394–399): build the `MatrixOfVectors` of the images `action s b` for `b ∈ B`
with its own on-the-fly ranker, and augment the accumulated matrix with its
rows (padded to its column count), tracking the total width. -/
def blocksStep {V κ α : Type} [DecidableEq κ] (A : Ambient V κ) (B : List V)
    (action : α → V → V) (acc : Except PyErr (List (List ℚ) × ℕ)) (s : α) :
    Except PyErr (List (List ℚ) × ℕ) :=
  match acc with
  | .error e => .error e
  | .ok (rows, w) =>
    match mkMatrixOfVectors A (B.map (action s)) ⟨0, 0, 0⟩ with
    | (.error e, _, _) => .error e
    | (.ok _, M, _) =>
      .ok (List.zipWith (fun r b => r ++ padTo M.ncols b) rows M.mat,
        w + M.ncols)

/-- The stacked action-image matrix of `annihilator_basis` (source lines
394–399): one block per actor, augmented horizontally, starting from the
`B.length × 0` matrix; the accumulated total width is returned alongside.
The `side` normalization of the source has already been applied, so `action`
takes the actor first. -/
def annihilator_blocks {V κ α : Type} [DecidableEq κ] (A : Ambient V κ)
    (B : List V) (S : List α) (action : α → V → V) :
    Except PyErr (List (List ℚ) × ℕ) :=
  S.foldl (blocksStep A B action) (.ok (List.replicate B.length [], 0))

/-- Model of `annihilator_basis` (source lines 389–402): the basis of the
left kernel of the stacked action-image matrix.  Each returned row is the
coefficient vector of one combination `∑ i, c i • B[i]` returned by the
source; the ambient vectors of the embedding carry no intrinsic module
operations, so the combinations are read through their coefficient rows and
their coordinate functions. -/
def annihilator_basis {V κ α : Type} [DecidableEq κ] (A : Ambient V κ)
    (B : List V) (S : List α) (action : α → V → V) :
    Except PyErr (List (List ℚ)) :=
  match annihilator_blocks A B S action with
  | .error e => .error e
  | .ok (rows, w) => .ok (leftKernelBasis w rows)

/-- The submodule of functions vanishing on the first `w` columns. -/
def vanishLt (w : ℕ) : Submodule ℚ (ℕ → ℚ) where
  carrier := { f | ∀ j, j < w → f j = 0 }
  add_mem' := by
    intro f g hf hg j hj
    simp [hf j hj, hg j hj]
  zero_mem' := by
    intro j hj
    rfl
  smul_mem' := by
    intro c f hf j hj
    simp [hf j hj]

/-- Truncation to the first `w` columns, as a linear map. -/
def truncL (w : ℕ) : (ℕ → ℚ) →ₗ[ℚ] (ℕ → ℚ) where
  toFun := fun f j => if j < w then f j else 0
  map_add' := by
    intro f g
    funext j
    by_cases h : j < w <;> simp [h]
  map_smul' := by
    intro c f
    funext j
    by_cases h : j < w <;> simp [h]

/-- Left shift by `w` columns, as a linear map. -/
def shiftL (w : ℕ) : (ℕ → ℚ) →ₗ[ℚ] (ℕ → ℚ) where
  toFun := fun f j => f (w + j)
  map_add' := by
    intro f g
    funext j
    simp
  map_smul' := by
    intro c f
    funext j
    simp

/-- Invariant of a store built through `add_vector` from the vector list
`vs`: a duplicate-free ranker, one matrix row per vector holding its dense
coordinates under the store's ranker, and all supports ranked. -/
structure RawWF {V κ : Type} [DecidableEq κ] (A : Ambient V κ)
    (s : MatrixOfVectors V κ) (vs : List V) : Prop where
  keysNodup : s.keys.Nodup
  matLen : s.mat.length = vs.length
  matUW : UW s.ncols s.mat
  ncolsLe : s.ncols ≤ s.keys.length
  rowsSem : ∀ i : Fin vs.length,
    toFun (s.mat.getD i []) = TkF s.keys (coordFn A (vs.get i))
  vsSupp : ∀ v ∈ vs, ∀ k, coordFn A v k ≠ 0 → k ∈ s.keys

/-! Basic facts about row semantics. -/

theorem toFun_nil : toFun ([] : List ℚ) = 0 := by
  funext j; simp [toFun]

theorem toFun_cons_zero (a : ℚ) (t : List ℚ) : toFun (a :: t) 0 = a := rfl

theorem toFun_cons_succ (a : ℚ) (t : List ℚ) (j : ℕ) :
    toFun (a :: t) (j + 1) = toFun t j := rfl

theorem toFun_getD_eq (r : List ℚ) (j : ℕ) : toFun r j = r.getD j 0 := rfl

theorem toFun_cons_eq_zero {a : ℚ} {t : List ℚ} :
    toFun (a :: t) = 0 ↔ a = 0 ∧ toFun t = 0 := by
  constructor
  · intro h
    refine ⟨congrFun h 0, ?_⟩
    funext j
    exact congrFun h (j + 1)
  · rintro ⟨h1, h2⟩
    funext j
    cases j with
    | zero => exact h1
    | succ j => exact congrFun h2 j

theorem toFun_eq_zero_iff {r : List ℚ} : toFun r = 0 ↔ ∀ x ∈ r, x = 0 := by
  induction r with
  | nil => simpa using toFun_nil
  | cons a t ih => rw [toFun_cons_eq_zero]; simp [ih]

theorem toFun_eq_zero_of_ge {r : List ℚ} {j : ℕ} (h : r.length ≤ j) : toFun r j = 0 := by
  simp [toFun, List.getD_eq_getElem?_getD, List.getElem?_eq_none h]

theorem isNZRow_iff {r : List ℚ} : isNZRow r = true ↔ toFun r ≠ 0 := by
  unfold isNZRow
  rw [List.any_eq_true]
  rw [Ne, toFun_eq_zero_iff]
  push_neg
  constructor
  · rintro ⟨x, hx, hx2⟩; exact ⟨x, hx, by simpa using hx2⟩
  · rintro ⟨x, hx, hx2⟩; exact ⟨x, hx, by simpa using hx2⟩

theorem toFun_replicate_zero (k : ℕ) : toFun (List.replicate k (0 : ℚ)) = 0 := by
  rw [toFun_eq_zero_iff]
  intro x hx
  exact (List.eq_of_mem_replicate hx)

theorem toFun_append (r s : List ℚ) (j : ℕ) :
    toFun (r ++ s) j = if j < r.length then toFun r j else toFun s (j - r.length) := by
  induction r generalizing j with
  | nil => simp [toFun]
  | cons a t ih =>
    cases j with
    | zero => simp [toFun]
    | succ j =>
      rw [List.cons_append, toFun_cons_succ, ih j, toFun_cons_succ]
      simp [Nat.succ_lt_succ_iff, Nat.succ_sub_succ]

theorem toFun_padTo (w : ℕ) (r : List ℚ) : toFun (padTo w r) = toFun r := by
  funext j
  unfold padTo
  rw [toFun_append]
  by_cases h : j < r.length
  · simp [h]
  · simp only [h, if_false]
    rw [congrFun (toFun_replicate_zero _) _]
    exact (toFun_eq_zero_of_ge (Nat.le_of_not_lt h)).symm

theorem length_padTo (w : ℕ) (r : List ℚ) :
    (padTo w r).length = max w r.length := by
  simp [padTo]
  omega

theorem length_scaleRow (c : ℚ) (r : List ℚ) : (scaleRow c r).length = r.length := by
  simp [scaleRow]

theorem toFun_scaleRow (c : ℚ) (r : List ℚ) : toFun (scaleRow c r) = c • toFun r := by
  funext j
  induction r generalizing j with
  | nil => simp [toFun, scaleRow]
  | cons a t ih =>
    cases j with
    | zero => simp [toFun, scaleRow]
    | succ j =>
      have := ih j
      simpa [scaleRow, toFun_cons_succ] using this

theorem length_addMulRow (s : List ℚ) (c : ℚ) (r : List ℚ) :
    (addMulRow s c r).length = min s.length r.length := by
  simp [addMulRow]

theorem toFun_addMulRow {s r : List ℚ} (h : s.length = r.length) (c : ℚ) :
    toFun (addMulRow s c r) = toFun s + c • toFun r := by
  funext j
  induction s generalizing r j with
  | nil =>
    cases r with
    | nil => simp [toFun, addMulRow]
    | cons b u => simp at h
  | cons a t ih =>
    cases r with
    | nil => simp at h
    | cons b u =>
      cases j with
      | zero => simp [toFun, addMulRow]
      | succ j =>
        have hl : t.length = u.length := by simpa using h
        have := ih hl j
        simpa [addMulRow, toFun_cons_succ] using this

/-! Pivot facts. -/

theorem pivotP_eq_some_iff {r : List ℚ} {p : ℕ} :
    pivotP r = some p ↔ toFun r p ≠ 0 ∧ ∀ j, j < p → toFun r j = 0 := by
  induction r generalizing p with
  | nil => simp [pivotP, toFun]
  | cons a t ih =>
    by_cases ha : a = 0
    · subst ha
      cases p with
      | zero => simp [pivotP, toFun]
      | succ p =>
        rw [show pivotP (0 :: t) = (pivotP t).map (fun j => j + 1) from by simp [pivotP]]
        constructor
        · intro h
          obtain ⟨q, hq, hq2⟩ := Option.map_eq_some'.1 h
          have hq3 : q = p := by omega
          subst hq3
          obtain ⟨h1, h2⟩ := ih.1 hq
          refine ⟨h1, ?_⟩
          intro j hj
          cases j with
          | zero => rfl
          | succ j => exact h2 j (by omega)
        · rintro ⟨h1, h2⟩
          have : pivotP t = some p := ih.2 ⟨h1, fun j hj => h2 (j + 1) (by omega)⟩
          simp [this]
    · rw [show pivotP (a :: t) = some 0 from by simp [pivotP, ha]]
      cases p with
      | zero => simp [toFun_cons_zero, ha]
      | succ p =>
        constructor
        · intro h; simp at h
        · rintro ⟨h1, h2⟩
          exact absurd (h2 0 (by omega)) ha

theorem pivotP_none_iff {r : List ℚ} : pivotP r = none ↔ toFun r = 0 := by
  induction r with
  | nil => simp [pivotP, toFun_nil]
  | cons a t ih =>
    by_cases ha : a = 0
    · subst ha
      rw [show pivotP (0 :: t) = (pivotP t).map (fun j => j + 1) from by simp [pivotP]]
      simp [toFun_cons_eq_zero, ih]
    · rw [show pivotP (a :: t) = some 0 from by simp [pivotP, ha]]
      simp [toFun_cons_eq_zero, ha]

theorem pivotP_lt_length {r : List ℚ} {p : ℕ} (h : pivotP r = some p) : p < r.length := by
  have := (pivotP_eq_some_iff.1 h).1
  by_contra hge
  exact this (toFun_eq_zero_of_ge (by omega))

theorem minPivot_none_iff {rows : List (List ℚ)} :
    minPivot rows = none ↔ ∀ r ∈ rows, pivotP r = none := by
  induction rows with
  | nil => simp [minPivot]
  | cons r rs ih =>
    cases hpr : pivotP r with
    | none => simp [minPivot, hpr, ih]
    | some p =>
      cases hm : minPivot rs with
      | none => simp [minPivot, hpr, hm]
      | some q => simp [minPivot, hpr, hm]

theorem minPivot_mem {rows : List (List ℚ)} {p : ℕ} (h : minPivot rows = some p) :
    ∃ r ∈ rows, pivotP r = some p := by
  induction rows generalizing p with
  | nil => simp [minPivot] at h
  | cons r rs ih =>
    cases hpr : pivotP r with
    | none =>
      rw [show minPivot (r :: rs) = minPivot rs from by simp [minPivot, hpr]] at h
      obtain ⟨s, hs, hs2⟩ := ih h
      exact ⟨s, List.mem_cons_of_mem _ hs, hs2⟩
    | some q =>
      cases hm : minPivot rs with
      | none =>
        rw [show minPivot (r :: rs) = some q from by simp [minPivot, hpr, hm]] at h
        exact ⟨r, List.mem_cons_self _ _, by rw [hpr]; exact h⟩
      | some m =>
        rw [show minPivot (r :: rs) = some (min q m) from by simp [minPivot, hpr, hm]] at h
        have hp : p = min q m := by simpa using h.symm
        by_cases hqm : q ≤ m
        · exact ⟨r, List.mem_cons_self _ _, by rw [hpr, hp]; simp [Nat.min_eq_left hqm]⟩
        · obtain ⟨s, hs, hs2⟩ := ih (show minPivot rs = some p from by
            rw [hm, hp, Nat.min_eq_right (by omega)])
          exact ⟨s, List.mem_cons_of_mem _ hs, hs2⟩

theorem minPivot_le {rows : List (List ℚ)} {p : ℕ} (h : minPivot rows = some p) :
    ∀ r ∈ rows, ∀ q, pivotP r = some q → p ≤ q := by
  induction rows generalizing p with
  | nil => simp
  | cons r rs ih =>
    intro s hs q hq
    cases hpr : pivotP r with
    | none =>
      rw [show minPivot (r :: rs) = minPivot rs from by simp [minPivot, hpr]] at h
      rcases List.mem_cons.1 hs with hsr | hst
      · subst hsr; rw [hpr] at hq; exact absurd hq (by simp)
      · exact ih h s hst q hq
    | some a =>
      cases hm : minPivot rs with
      | none =>
        rw [show minPivot (r :: rs) = some a from by simp [minPivot, hpr, hm]] at h
        have hap : a = p := by simpa using h
        rcases List.mem_cons.1 hs with hsr | hst
        · subst hsr; rw [hpr] at hq
          have : a = q := by simpa using hq
          omega
        · rw [minPivot_none_iff] at hm
          rw [hm s hst] at hq; exact absurd hq (by simp)
      | some m =>
        rw [show minPivot (r :: rs) = some (min a m) from by simp [minPivot, hpr, hm]] at h
        have hp : min a m = p := by simpa using h
        rcases List.mem_cons.1 hs with hsr | hst
        · subst hsr; rw [hpr] at hq
          have : a = q := by simpa using hq
          omega
        · have := ih hm s hst q hq
          omega

theorem findPivRow_spec {p : ℕ} {rows : List (List ℚ)}
    (h : ∃ r ∈ rows, pivotP r = some p) :
    findPivRow p rows < rows.length ∧
      pivotP (rows.getD (findPivRow p rows) []) = some p := by
  induction rows with
  | nil => simp at h
  | cons r rs ih =>
    by_cases hr : pivotP r = some p
    · rw [show findPivRow p (r :: rs) = 0 from by simp [findPivRow, hr]]
      exact ⟨by simp, hr⟩
    · rw [show findPivRow p (r :: rs) = findPivRow p rs + 1 from by simp [findPivRow, hr]]
      obtain ⟨s, hs, hs2⟩ := h
      rcases List.mem_cons.1 hs with hsr | hst
      · subst hsr; exact absurd hs2 hr
      · obtain ⟨h1, h2⟩ := ih ⟨s, hst, hs2⟩
        exact ⟨by simpa using h1, by simpa using h2⟩

theorem getD_mem {α : Type _} {l : List α} {i : ℕ} (hi : i < l.length) (d : α) :
    l.getD i d ∈ l := by
  induction l generalizing i with
  | nil => simp at hi
  | cons a t ih =>
    cases i with
    | zero => simp
    | succ i => exact List.mem_cons_of_mem _ (ih (by simpa using hi))

theorem mem_cons_getD_eraseIdx {α : Type _} {l : List α} {i : ℕ} (hi : i < l.length)
    (d : α) : ∀ x ∈ l, x = l.getD i d ∨ x ∈ l.eraseIdx i := by
  induction l generalizing i with
  | nil => simp
  | cons a t ih =>
    intro x hx
    cases i with
    | zero =>
      rcases List.mem_cons.1 hx with h | h
      · exact Or.inl h
      · exact Or.inr (by simpa [List.eraseIdx] using h)
    | succ i =>
      rcases List.mem_cons.1 hx with h | h
      · subst h; exact Or.inr (by simp [List.eraseIdx])
      · rcases ih (by simpa using hi) x h with h2 | h2
        · exact Or.inl (by simpa using h2)
        · refine Or.inr ?_
          rw [List.eraseIdx]
          exact List.mem_cons_of_mem _ h2

/-! Facts about row sets and row spans. -/

theorem rowSet_nil : rowSet [] = (∅ : Set (ℕ → ℚ)) := by
  simp [rowSet]

theorem rowSet_cons (a : List ℚ) (l : List (List ℚ)) :
    rowSet (a :: l) = insert (toFun a) (rowSet l) := by
  unfold rowSet
  ext f
  constructor
  · rintro ⟨r, hr, rfl⟩
    rcases List.mem_cons.1 hr with h | h
    · subst h; exact Set.mem_insert _ _
    · exact Set.mem_insert_of_mem _ ⟨r, h, rfl⟩
  · intro hf
    rcases Set.mem_insert_iff.1 hf with h | hmem
    · exact ⟨a, List.mem_cons_self _ _, h.symm⟩
    · obtain ⟨r, hr, rfl⟩ := hmem
      exact ⟨r, List.mem_cons_of_mem _ hr, rfl⟩

theorem rowSet_append (l1 l2 : List (List ℚ)) :
    rowSet (l1 ++ l2) = rowSet l1 ∪ rowSet l2 := by
  unfold rowSet
  ext f
  constructor
  · rintro ⟨r, hr, rfl⟩
    rcases List.mem_append.1 hr with h | h
    · exact Set.mem_union_left _ ⟨r, h, rfl⟩
    · exact Set.mem_union_right _ ⟨r, h, rfl⟩
  · intro hf
    rcases (Set.mem_union f _ _).1 hf with hmem | hmem
    · obtain ⟨r, hr, rfl⟩ := hmem
      exact ⟨r, List.mem_append_left _ hr, rfl⟩
    · obtain ⟨r, hr, rfl⟩ := hmem
      exact ⟨r, List.mem_append_right _ hr, rfl⟩

theorem mem_rowSet_of_mem {r : List ℚ} {l : List (List ℚ)} (h : r ∈ l) :
    toFun r ∈ rowSet l := ⟨r, h, rfl⟩

theorem rowSpan_nil : rowSpan [] = (⊥ : Submodule ℚ (ℕ → ℚ)) := by
  rw [rowSpan, rowSet_nil, Submodule.span_empty]

theorem rowSpan_cons (a : List ℚ) (l : List (List ℚ)) :
    rowSpan (a :: l) = Submodule.span ℚ {toFun a} ⊔ rowSpan l := by
  rw [rowSpan, rowSet_cons, Submodule.span_insert]
  rfl

theorem rowSpan_append (l1 l2 : List (List ℚ)) :
    rowSpan (l1 ++ l2) = rowSpan l1 ⊔ rowSpan l2 := by
  rw [rowSpan, rowSet_append, Submodule.span_union]
  rfl

theorem mem_rowSpan_of_mem {r : List ℚ} {l : List (List ℚ)} (h : r ∈ l) :
    toFun r ∈ rowSpan l :=
  Submodule.subset_span (mem_rowSet_of_mem h)

theorem rowSpan_le_of_forall_mem {l : List (List ℚ)} {q : Submodule ℚ (ℕ → ℚ)}
    (h : ∀ r ∈ l, toFun r ∈ q) : rowSpan l ≤ q := by
  rw [rowSpan]
  apply Submodule.span_le.2
  rintro f ⟨r, hr, rfl⟩
  exact h r hr

theorem rowSpan_zero_rows {l : List (List ℚ)} (h : ∀ r ∈ l, toFun r = 0) :
    rowSpan l = ⊥ := by
  apply le_antisymm
  · exact rowSpan_le_of_forall_mem (fun r hr => by rw [h r hr]; exact Submodule.zero_mem ⊥)
  · exact bot_le

theorem rowSet_subset_of_subset {l1 l2 : List (List ℚ)} (h : ∀ r ∈ l1, r ∈ l2) :
    rowSet l1 ⊆ rowSet l2 := by
  rintro f ⟨r, hr, rfl⟩
  exact ⟨r, h r hr, rfl⟩

theorem rowSpan_select {rows : List (List ℚ)} {i : ℕ} (hi : i < rows.length) :
    rowSpan (rows.getD i [] :: rows.eraseIdx i) = rowSpan rows := by
  unfold rowSpan
  apply le_antisymm
  · apply Submodule.span_mono
    apply rowSet_subset_of_subset
    intro r hr
    rcases List.mem_cons.1 hr with h | h
    · subst h; exact getD_mem hi []
    · exact List.mem_of_mem_eraseIdx h
  · apply Submodule.span_mono
    apply rowSet_subset_of_subset
    intro r hr
    rcases mem_cons_getD_eraseIdx hi [] r hr with h | h
    · rw [h]; exact List.mem_cons_self _ _
    · exact List.mem_cons_of_mem _ h

theorem span_singleton_scale {c : ℚ} (hc : c ≠ 0) (x : ℕ → ℚ) :
    Submodule.span ℚ {c • x} = Submodule.span ℚ {x} := by
  apply le_antisymm
  · rw [Submodule.span_singleton_le_iff_mem]
    exact Submodule.smul_mem _ c (Submodule.mem_span_singleton_self x)
  · rw [Submodule.span_singleton_le_iff_mem]
    rw [Submodule.mem_span_singleton]
    exact ⟨c⁻¹, by rw [smul_smul, inv_mul_cancel₀ hc, one_smul]⟩

theorem rowSpan_scale_head {c : ℚ} (hc : c ≠ 0) (r : List ℚ) (l : List (List ℚ)) :
    rowSpan (scaleRow c r :: l) = rowSpan (r :: l) := by
  rw [rowSpan_cons, rowSpan_cons, toFun_scaleRow, span_singleton_scale hc]

theorem rowSpan_addMul_head {w : ℕ} {r1 : List ℚ} (hr1 : r1.length = w)
    {l : List (List ℚ)} (hUW : UW w l) (f : List ℚ → ℚ) :
    rowSpan (r1 :: l.map (fun s => addMulRow s (f s) r1)) = rowSpan (r1 :: l) := by
  have hr1mem : toFun r1 ∈ rowSpan (r1 :: l) := mem_rowSpan_of_mem (List.mem_cons_self _ _)
  have hr1mem2 : toFun r1 ∈ rowSpan (r1 :: l.map (fun s => addMulRow s (f s) r1)) :=
    mem_rowSpan_of_mem (List.mem_cons_self _ _)
  apply le_antisymm
  · apply rowSpan_le_of_forall_mem
    intro r hr
    rcases List.mem_cons.1 hr with h | h
    · subst h; exact hr1mem
    · obtain ⟨s, hs, rfl⟩ := List.mem_map.1 h
      rw [toFun_addMulRow (by rw [hUW s hs, hr1]) (f s)]
      exact Submodule.add_mem _
        (mem_rowSpan_of_mem (List.mem_cons_of_mem _ hs))
        (Submodule.smul_mem _ _ hr1mem)
  · apply rowSpan_le_of_forall_mem
    intro r hr
    rcases List.mem_cons.1 hr with h | h
    · subst h; exact hr1mem2
    · have key : toFun (addMulRow r (f r) r1) ∈
          rowSpan (r1 :: l.map (fun s => addMulRow s (f s) r1)) :=
        mem_rowSpan_of_mem (List.mem_cons_of_mem _ (List.mem_map_of_mem _ h))
      have hlen : r.length = r1.length := by rw [hUW r h, hr1]
      have expand := toFun_addMulRow hlen (f r)
      have : toFun r = toFun (addMulRow r (f r) r1) - (f r) • toFun r1 := by
        rw [expand]; abel
      rw [this]
      exact Submodule.sub_mem _ key (Submodule.smul_mem _ _ hr1mem2)

/-! Linear independence of rows. -/

theorem rowSet_eq_range (rows : List (List ℚ)) :
    rowSet rows = Set.range (famOf rows) := by
  ext f
  constructor
  · rintro ⟨r, hr, rfl⟩
    obtain ⟨n, hn⟩ := List.mem_iff_get.1 hr
    exact ⟨n, by rw [famOf, hn]⟩
  · rintro ⟨i, rfl⟩
    exact ⟨rows.get i, rows.get_mem _ _, rfl⟩

theorem rowSpan_eq_span_range (rows : List (List ℚ)) :
    rowSpan rows = Submodule.span ℚ (Set.range (famOf rows)) := by
  rw [rowSpan, rowSet_eq_range]

theorem linIndepL_nil : LinIndepL [] := by
  unfold LinIndepL
  haveI : IsEmpty (Fin ([] : List (List ℚ)).length) := ⟨fun i => absurd i.2 (by simp)⟩
  exact linearIndependent_empty_type

theorem famOf_cons (a : List ℚ) (l : List (List ℚ)) :
    famOf (a :: l) = Fin.cons (toFun a) (famOf l) := by
  funext i
  refine Fin.cases ?_ ?_ i
  · rfl
  · intro j
    simp [famOf, Fin.cons_succ]

theorem linIndepL_cons_iff {a : List ℚ} {l : List (List ℚ)} :
    LinIndepL (a :: l) ↔ LinIndepL l ∧ toFun a ∉ rowSpan l := by
  unfold LinIndepL
  rw [famOf_cons, linearIndependent_fin_cons, rowSpan_eq_span_range]

theorem linIndepL_cons {a : List ℚ} {l : List (List ℚ)}
    (hl : LinIndepL l) (ha : toFun a ∉ rowSpan l) : LinIndepL (a :: l) :=
  linIndepL_cons_iff.2 ⟨hl, ha⟩

theorem linIndepL_append_single {l : List (List ℚ)} {r : List ℚ}
    (hl : LinIndepL l) (hr : toFun r ∉ rowSpan l) : LinIndepL (l ++ [r]) := by
  induction l with
  | nil =>
    refine linIndepL_cons linIndepL_nil ?_
    rw [rowSpan_nil]
    intro hmem
    apply hr
    rw [rowSpan_nil]
    exact hmem
  | cons a t ih =>
    obtain ⟨ht, ha⟩ := linIndepL_cons_iff.1 hl
    have hrt : toFun r ∉ rowSpan t := by
      intro hmem
      exact hr (by rw [rowSpan_cons]; exact Submodule.mem_sup_right hmem)
    refine linIndepL_cons (ih ht hrt) ?_
    intro hmem
    change toFun a ∈ rowSpan (t ++ [r]) at hmem
    rw [rowSpan_append, rowSpan_cons, rowSpan_nil, sup_bot_eq] at hmem
    obtain ⟨y, hy, z, hz, hyz⟩ := Submodule.mem_sup.1 hmem
    obtain ⟨c, rfl⟩ := Submodule.mem_span_singleton.1 hz
    by_cases hc : c = 0
    · subst hc
      rw [zero_smul, add_zero] at hyz
      rw [hyz] at hy
      exact ha hy
    · apply hr
      rw [rowSpan_cons]
      have : toFun r = c⁻¹ • (toFun a - y) := by
        rw [← hyz]; rw [add_sub_cancel_left, smul_smul, inv_mul_cancel₀ hc, one_smul]
      rw [this]
      refine Submodule.smul_mem _ _ (Submodule.sub_mem _ ?_ ?_)
      · exact Submodule.mem_sup_left (Submodule.mem_span_singleton_self _)
      · exact Submodule.mem_sup_right hy

theorem linIndepL_finrank {rows : List (List ℚ)} (h : LinIndepL rows) :
    Module.finrank ℚ (rowSpan rows) = rows.length := by
  rw [rowSpan_eq_span_range]
  rw [finrank_span_eq_card h]
  exact Fintype.card_fin _

theorem finrank_rowSpan_le (rows : List (List ℚ)) :
    Module.finrank ℚ (rowSpan rows) ≤ rows.length := by
  rw [rowSpan_eq_span_range]
  have := finrank_range_le_card (R := ℚ) (famOf rows)
  rw [Set.finrank] at this
  simpa using this

theorem mem_vanishUpTo {p : ℕ} {f : ℕ → ℚ} :
    f ∈ vanishUpTo p ↔ ∀ j, j ≤ p → f j = 0 := Iff.rfl

theorem rowSpan_le_vanishUpTo {l : List (List ℚ)} {p : ℕ}
    (h : ∀ r ∈ l, ∀ j, j ≤ p → toFun r j = 0) : rowSpan l ≤ vanishUpTo p :=
  rowSpan_le_of_forall_mem (fun r hr => mem_vanishUpTo.2 (h r hr))

/-- Master correctness lemma for the Gaussian elimination `gaussF`: given
uniform row width and enough fuel, elimination preserves the row count, the
uniform width and the row span, and produces the echelon output shape. -/
theorem gaussF_master {w : ℕ} :
    ∀ (fuel : ℕ) (rows : List (List ℚ)), UW w rows → rows.length ≤ fuel →
    (gaussF fuel rows).length = rows.length ∧ UW w (gaussF fuel rows) ∧
      rowSpan (gaussF fuel rows) = rowSpan rows ∧ GOut (gaussF fuel rows) := by
  intro fuel
  induction fuel with
  | zero =>
    intro rows hUW hlen
    have hnil : rows = [] := List.length_eq_zero.1 (by omega)
    subst hnil
    exact ⟨rfl, hUW, rfl, GOut.zeros (fun r hr => absurd hr (List.not_mem_nil r))⟩
  | succ fuel ih =>
    intro rows hUW hlen
    cases hm : minPivot rows with
    | none =>
      have heq : gaussF (fuel + 1) rows = rows := by
        unfold gaussF; rw [hm]
      rw [heq]
      refine ⟨rfl, hUW, rfl, GOut.zeros ?_⟩
      intro r hr
      exact pivotP_none_iff.1 (minPivot_none_iff.1 hm r hr)
    | some p =>
      obtain ⟨hlt, hpiv⟩ := findPivRow_spec (minPivot_mem hm)
      set i := findPivRow p rows with hidef
      set r := rows.getD i [] with hrdef
      set c := r.getD p 0 with hcdef
      set r1 := scaleRow c⁻¹ r with hr1def
      set rest := (rows.eraseIdx i).map (fun s => addMulRow s (-(s.getD p 0)) r1)
        with hrestdef
      have heq : gaussF (fuel + 1) rows = r1 :: gaussF fuel rest := by
        conv_lhs => rw [gaussF]
        rw [hm]
      have hrmem : r ∈ rows := getD_mem hlt []
      have hrw : r.length = w := hUW r hrmem
      have hc : c ≠ 0 := (pivotP_eq_some_iff.1 hpiv).1
      have hcinv : c⁻¹ ≠ 0 := inv_ne_zero hc
      have hr1len : r1.length = w := by rw [hr1def, length_scaleRow, hrw]
      have hr1fun : toFun r1 = c⁻¹ • toFun r := by rw [hr1def, toFun_scaleRow]
      have hr1p : toFun r1 p = 1 := by
        rw [hr1fun]
        simp only [Pi.smul_apply, smul_eq_mul]
        rw [show toFun r p = c from rfl]
        exact inv_mul_cancel₀ hc
      have hr1below : ∀ j, j < p → toFun r1 j = 0 := by
        intro j hj
        rw [hr1fun]
        simp only [Pi.smul_apply, smul_eq_mul]
        rw [(pivotP_eq_some_iff.1 hpiv).2 j hj, mul_zero]
      have hpivr1 : pivotP r1 = some p :=
        pivotP_eq_some_iff.2 ⟨by rw [hr1p]; exact one_ne_zero, hr1below⟩
      have heraseUW : UW w (rows.eraseIdx i) := by
        intro s hs
        exact hUW s (List.mem_of_mem_eraseIdx hs)
      have hrestUW : UW w rest := by
        intro s hs
        rw [hrestdef] at hs
        obtain ⟨t, ht, rfl⟩ := List.mem_map.1 hs
        rw [length_addMulRow, heraseUW t ht, hr1len]
        exact Nat.min_self w
      have heraselen : (rows.eraseIdx i).length = rows.length - 1 := by
        rw [List.length_eraseIdx]
        simp [hlt]
      have hrestlen : rest.length = rows.length - 1 := by
        rw [hrestdef, List.length_map, heraselen]
      have hrowspos : 0 < rows.length := by omega
      have hfuel2 : rest.length ≤ fuel := by omega
      obtain ⟨ihlen, ihUW, ihspan, ihGOut⟩ := ih rest hrestUW hfuel2
      have hrestvanish : ∀ s ∈ rest, ∀ j, j ≤ p → toFun s j = 0 := by
        intro s hs j hj
        rw [hrestdef] at hs
        obtain ⟨t, ht, rfl⟩ := List.mem_map.1 hs
        have htw : t.length = r1.length := by rw [heraseUW t ht, hr1len]
        rw [toFun_addMulRow htw]
        simp only [Pi.add_apply, Pi.smul_apply, smul_eq_mul]
        have htvanish : ∀ k, k < p → toFun t k = 0 := by
          intro k hk
          have htmem : t ∈ rows := List.mem_of_mem_eraseIdx ht
          cases hpt : pivotP t with
          | none => rw [congrFun (pivotP_none_iff.1 hpt) k]; rfl
          | some q =>
            have hpq : p ≤ q := minPivot_le hm t htmem q hpt
            exact (pivotP_eq_some_iff.1 hpt).2 k (by omega)
        rcases Nat.lt_or_ge j p with hjp | hjp
        · rw [htvanish j hjp, hr1below j hjp, mul_zero, add_zero]
        · have hjeq : j = p := by omega
          subst hjeq
          rw [hr1p, mul_one]
          rw [show t.getD j 0 = toFun t j from rfl]
          ring
      refine ⟨?_, ?_, ?_, ?_⟩
      · rw [heq]
        simp only [List.length_cons, ihlen, hrestlen]
        omega
      · rw [heq]
        intro s hs
        rcases List.mem_cons.1 hs with h | h
        · subst h; exact hr1len
        · exact ihUW s h
      · rw [heq, rowSpan_cons, ihspan, ← rowSpan_cons]
        rw [hrestdef]
        rw [rowSpan_addMul_head hr1len heraseUW (fun s => -(s.getD p 0))]
        rw [hr1def, rowSpan_scale_head hcinv]
        exact rowSpan_select hlt
      · rw [heq]
        refine GOut.step hpivr1 ?_ ihGOut
        intro s hs j hj
        have hsmem : toFun s ∈ rowSpan rest := by
          rw [← ihspan]
          exact mem_rowSpan_of_mem hs
        exact mem_vanishUpTo.1 (rowSpan_le_vanishUpTo hrestvanish hsmem) j hj

/-- Structure of an echelon-shaped matrix: an independent prefix of nonzero
rows followed by the zero rows, with the same row span. -/
theorem gOut_split {rows : List (List ℚ)} (h : GOut rows) :
    ∃ P Z, rows = P ++ Z ∧ (∀ r ∈ Z, toFun r = 0) ∧ (∀ r ∈ P, toFun r ≠ 0) ∧
      LinIndepL P ∧ rowSpan P = rowSpan rows := by
  induction h with
  | zeros hz =>
    refine ⟨[], _, by simp, hz, by simp, linIndepL_nil, ?_⟩
    rw [rowSpan_nil, rowSpan_zero_rows hz]
  | @step r p rows hp hz ht ih =>
    obtain ⟨P, Z, hsplit, hZ, hP, hind, hspan⟩ := ih
    have hrnz : toFun r ≠ 0 := by
      intro h0
      exact (pivotP_eq_some_iff.1 hp).1 (congrFun h0 p)
    have hrnotin : toFun r ∉ rowSpan P := by
      intro hmem
      rw [hspan] at hmem
      have := mem_vanishUpTo.1 (rowSpan_le_vanishUpTo hz hmem) p le_rfl
      exact (pivotP_eq_some_iff.1 hp).1 this
    refine ⟨r :: P, Z, ?_, hZ, ?_, linIndepL_cons hind hrnotin, ?_⟩
    · rw [hsplit, List.cons_append]
    · intro s hs
      rcases List.mem_cons.1 hs with h | h
      · subst h; exact hrnz
      · exact hP s h
    · rw [rowSpan_cons, hspan, ← rowSpan_cons]

theorem lastRow_mem : ∀ {A : List (List ℚ)}, A ≠ [] → lastRow A ∈ A := by
  intro A
  induction A with
  | nil => intro h; exact absurd rfl h
  | cons a t ih =>
    intro
    cases ht : t with
    | nil => subst ht; exact List.mem_cons_self _ _
    | cons b u =>
      subst ht
      have : lastRow (a :: b :: u) = lastRow (b :: u) := rfl
      rw [this]
      exact List.mem_cons_of_mem _ (ih (by simp))

theorem lastRow_append_right {A B : List (List ℚ)} (h : B ≠ []) :
    lastRow (A ++ B) = lastRow B := by
  induction A with
  | nil => rfl
  | cons a t ih =>
    cases hb : B with
    | nil => exact absurd hb h
    | cons b u =>
      subst hb
      have h2 : lastRow ((a :: t) ++ (b :: u)) = lastRow (t ++ (b :: u)) := by
        cases t with
        | nil => rfl
        | cons c v => rfl
      rw [h2, ih]

/-- The trailing row of the echelonized matrix is nonzero exactly when the
rows of the input matrix have full rank. -/
theorem last_nonzero_iff_full_rank {w : ℕ} {rows : List (List ℚ)}
    (hUW : UW w rows) (hne : rows ≠ []) :
    isNZRow (lastRow (echelonize rows)) = true ↔
      Module.finrank ℚ (rowSpan rows) = rows.length := by
  obtain ⟨hlen, hGUW, hspan, hGOut⟩ :=
    gaussF_master (w := w) rows.length rows hUW le_rfl
  obtain ⟨P, Z, hsplit, hZ, hP, hind, hPspan⟩ := gOut_split hGOut
  rw [show gaussF rows.length rows = echelonize rows from rfl] at hlen hspan hsplit hPspan
  constructor
  · intro hNZ
    cases hzcase : Z with
    | cons z zs =>
      have : lastRow (echelonize rows) ∈ Z := by
        rw [hsplit, lastRow_append_right (by rw [hzcase]; simp)]
        exact lastRow_mem (by rw [hzcase]; simp)
      have h0 : toFun (lastRow (echelonize rows)) = 0 := hZ _ this
      rw [isNZRow_iff] at hNZ
      exact absurd h0 hNZ
    | nil =>
      subst hzcase
      rw [List.append_nil] at hsplit
      have hPfin : Module.finrank ℚ (rowSpan P) = P.length := linIndepL_finrank hind
      rw [← hspan, hsplit, hPfin, ← hsplit, hlen]
  · intro hfin
    have hPfin : Module.finrank ℚ (rowSpan P) = rows.length := by
      rw [hPspan, hspan, hfin]
    have hPle : Module.finrank ℚ (rowSpan P) ≤ P.length := finrank_rowSpan_le P
    have hlen2 : P.length + Z.length = rows.length := by
      rw [← hlen, hsplit]
      simp
    have hZnil : Z = [] := by
      cases Z with
      | nil => rfl
      | cons z zs => simp at hlen2; omega
    subst hZnil
    rw [List.append_nil] at hsplit
    have hGne : echelonize rows ≠ [] := by
      intro h0
      rw [h0] at hlen
      simp at hlen
      exact hne (List.length_eq_zero.1 hlen.symm)
    have hmem : lastRow (echelonize rows) ∈ P := by
      rw [← hsplit]
      exact lastRow_mem hGne
    rw [isNZRow_iff]
    exact hP _ hmem

/-- If the trailing row of the echelonized matrix is nonzero, the committed
echelonized matrix has independent rows, the same span as the candidate, the
same row count and the same uniform width. -/
theorem echelonize_commit {w : ℕ} {rows : List (List ℚ)}
    (hUW : UW w rows) (hne : rows ≠ [])
    (hNZ : isNZRow (lastRow (echelonize rows)) = true) :
    LinIndepL (echelonize rows) ∧ rowSpan (echelonize rows) = rowSpan rows ∧
      (echelonize rows).length = rows.length ∧ UW w (echelonize rows) := by
  obtain ⟨hlen, hGUW, hspan, hGOut⟩ :=
    gaussF_master (w := w) rows.length rows hUW le_rfl
  obtain ⟨P, Z, hsplit, hZ, hP, hind, hPspan⟩ := gOut_split hGOut
  rw [show gaussF rows.length rows = echelonize rows from rfl] at hlen hspan hsplit hPspan
  have hfull := (last_nonzero_iff_full_rank hUW hne).1 hNZ
  have hPfin : Module.finrank ℚ (rowSpan P) = rows.length := by
    rw [hPspan, hspan, hfull]
  have hPle : Module.finrank ℚ (rowSpan P) ≤ P.length := finrank_rowSpan_le P
  have hlen2 : P.length + Z.length = rows.length := by
    rw [← hlen, hsplit]
    simp
  have hZnil : Z = [] := by
    cases Z with
    | nil => rfl
    | cons z zs => simp at hlen2; omega
  subst hZnil
  rw [List.append_nil] at hsplit
  rw [hsplit]
  refine ⟨hind, ?_, ?_, ?_⟩
  · rw [← hsplit]; exact hspan
  · rw [← hsplit]; exact hlen
  · intro s hs
    have hs2 : s ∈ echelonize rows := by rw [hsplit]; exact hs
    exact hGUW s hs2

/-- Acceptance test of `extend`: appending a fresh row to a committed matrix
with independent rows and echelonizing yields a nonzero trailing row exactly
when the new row lies outside the committed row span. -/
theorem accept_iff_new_row {w : ℕ} {M : List (List ℚ)} {r : List ℚ}
    (hUW : UW w M) (hr : r.length = w) (hM : LinIndepL M) :
    isNZRow (lastRow (echelonize (M ++ [r]))) = true ↔ toFun r ∉ rowSpan M := by
  have hUW2 : UW w (M ++ [r]) := by
    intro s hs
    rcases List.mem_append.1 hs with h | h
    · exact hUW s h
    · rw [List.mem_singleton.1 h]; exact hr
  have hne : M ++ [r] ≠ [] := by simp
  rw [last_nonzero_iff_full_rank hUW2 hne]
  have hlen : (M ++ [r]).length = M.length + 1 := by simp
  constructor
  · intro hfin hmem
    have habsorb : rowSpan (M ++ [r]) = rowSpan M := by
      rw [rowSpan_append, rowSpan_cons, rowSpan_nil, sup_bot_eq]
      exact sup_eq_left.2 ((Submodule.span_singleton_le_iff_mem _ _).2 hmem)
    rw [habsorb, hlen] at hfin
    have := finrank_rowSpan_le M
    omega
  · intro hnot
    have h2 := linIndepL_finrank (linIndepL_append_single hM hnot)
    exact h2

/-! Facts about the on-the-fly ranker. -/

theorem idxOfKey_lt {κ : Type} [DecidableEq κ] {keys : List κ} {k : κ} (h : k ∈ keys) :
    idxOfKey keys k < keys.length := by
  induction keys with
  | nil => simp at h
  | cons a t ih =>
    by_cases hak : a = k
    · simp [idxOfKey, hak]
    · rcases List.mem_cons.1 h with h2 | h2
      · exact absurd h2.symm hak
      · simp only [idxOfKey, hak, if_false, List.length_cons]
        exact Nat.succ_lt_succ (ih h2)

theorem idxOfKey_getD {κ : Type} [DecidableEq κ] {keys : List κ} {k : κ} (h : k ∈ keys)
    (d : κ) : keys.getD (idxOfKey keys k) d = k := by
  induction keys with
  | nil => simp at h
  | cons a t ih =>
    by_cases hak : a = k
    · simp [idxOfKey, hak]
    · rcases List.mem_cons.1 h with h2 | h2
      · exact absurd h2.symm hak
      · simp only [idxOfKey, hak, if_false, List.getD_cons_succ]
        exact ih h2

theorem idxOfKey_of_getD {κ : Type} [DecidableEq κ] {keys : List κ} (hnd : keys.Nodup)
    {j : ℕ} (hj : j < keys.length) (d : κ) :
    idxOfKey keys (keys.getD j d) = j := by
  induction keys generalizing j with
  | nil => simp at hj
  | cons a t ih =>
    cases j with
    | zero => simp [idxOfKey]
    | succ j =>
      have hjt : j < t.length := by simpa using hj
      have hmem : t.getD j d ∈ t := getD_mem hjt d
      have hat : a ∉ t := (List.nodup_cons.1 hnd).1
      have hane : ¬ a = t.getD j d := fun h => hat (h ▸ hmem)
      simp only [List.getD_cons_succ, idxOfKey, hane, if_false]
      rw [ih (List.nodup_cons.1 hnd).2 hjt]

theorem idxOfKey_append_of_mem {κ : Type} [DecidableEq κ] {keys : List κ} {k : κ}
    (h : k ∈ keys) (ext : List κ) : idxOfKey (keys ++ ext) k = idxOfKey keys k := by
  induction keys with
  | nil => simp at h
  | cons a t ih =>
    by_cases hak : a = k
    · simp [idxOfKey, hak]
    · rcases List.mem_cons.1 h with h2 | h2
      · exact absurd h2.symm hak
      · simp only [List.cons_append, idxOfKey, hak, if_false]
        exact congrArg (fun x => x + 1) (ih h2)

theorem idxOfKey_append_self {κ : Type} [DecidableEq κ] {keys : List κ} {k : κ}
    (h : k ∉ keys) : idxOfKey (keys ++ [k]) k = keys.length := by
  induction keys with
  | nil => simp [idxOfKey]
  | cons a t ih =>
    have hak : ¬ a = k := fun h2 => h (by rw [h2]; exact List.mem_cons_self _ _)
    simp only [List.cons_append, idxOfKey, hak, if_false, List.length_cons]
    exact congrArg (fun x => x + 1) (ih (fun h2 => h (List.mem_cons_of_mem _ h2)))

theorem rankItems_spec {κ : Type} [DecidableEq κ] (items : List (κ × ℚ)) :
    ∀ keys : List κ, keys.Nodup →
    ∃ ext, (rankItems keys items).2 = keys ++ ext ∧ (keys ++ ext).Nodup ∧
      (∀ k ∈ ext, ∃ c, (k, c) ∈ items) ∧
      (∀ p ∈ items, p.1 ∈ keys ++ ext) ∧
      (rankItems keys items).1 =
        items.map (fun p => (idxOfKey ((rankItems keys items).2) p.1, p.2)) := by
  induction items with
  | nil =>
    intro keys hnd
    exact ⟨[], by simp [rankItems], by simpa using hnd, by simp, by simp, by simp [rankItems]⟩
  | cons p rest ih =>
    intro keys hnd
    by_cases hmem : p.1 ∈ keys
    · have hr1 : rank1 keys p.1 = (idxOfKey keys p.1, keys) := by simp [rank1, hmem]
      obtain ⟨ext, h1, h2, h3, h4, h5⟩ := ih keys hnd
      have hstep : rankItems keys (p :: rest) =
          ((idxOfKey keys p.1, p.2) :: (rankItems keys rest).1, (rankItems keys rest).2) := by
        simp only [rankItems, hr1]
      refine ⟨ext, by rw [hstep]; exact h1, h2, ?_, ?_, ?_⟩
      · intro k hk
        obtain ⟨c, hc⟩ := h3 k hk
        exact ⟨c, List.mem_cons_of_mem _ hc⟩
      · intro q hq
        rcases List.mem_cons.1 hq with h | h
        · subst h; exact List.mem_append_left _ hmem
        · exact h4 q h
      · rw [hstep]
        simp only [List.map_cons]
        refine List.cons_eq_cons.2 ⟨?_, ?_⟩
        · rw [h1, idxOfKey_append_of_mem hmem]
        · exact h5
    · have hr1 : rank1 keys p.1 = (keys.length, keys ++ [p.1]) := by simp [rank1, hmem]
      have hnd1 : (keys ++ [p.1]).Nodup := by
        refine List.Nodup.append hnd (by simp) ?_
        rw [List.disjoint_left]
        intro a ha ha2
        rw [List.mem_singleton.1 ha2] at ha
        exact hmem ha
      obtain ⟨ext, h1, h2, h3, h4, h5⟩ := ih (keys ++ [p.1]) hnd1
      have hstep : rankItems keys (p :: rest) =
          ((keys.length, p.2) :: (rankItems (keys ++ [p.1]) rest).1,
            (rankItems (keys ++ [p.1]) rest).2) := by
        simp only [rankItems, hr1]
      have hke : (rankItems keys (p :: rest)).2 = keys ++ ([p.1] ++ ext) := by
        rw [hstep]
        simp only [h1, List.append_assoc]
      refine ⟨[p.1] ++ ext, hke, by rw [← List.append_assoc]; exact h2, ?_, ?_, ?_⟩
      · intro k hk
        rcases List.mem_append.1 hk with h | h
        · exact ⟨p.2, by rw [List.mem_singleton.1 h]; exact List.mem_cons_self _ _⟩
        · obtain ⟨c, hc⟩ := h3 k h
          exact ⟨c, List.mem_cons_of_mem _ hc⟩
      · intro q hq
        rcases List.mem_cons.1 hq with h | h
        · subst h
          rw [← List.append_assoc]
          exact List.mem_append_left _ (List.mem_append_right _ (by simp))
        · rw [← List.append_assoc]
          exact h4 q h
      · rw [hstep]
        simp only [List.map_cons]
        refine List.cons_eq_cons.2 ⟨?_, ?_⟩
        · rw [h1, idxOfKey_append_of_mem (List.mem_append_right _ (by simp)) ext,
            idxOfKey_append_self hmem]
        · exact h5

/-! Facts about the dict row and coordinates. -/

theorem dictGet_eq_sum {ps : List (ℕ × ℚ)} (hnd : (ps.map Prod.fst).Nodup) (j : ℕ) :
    dictGet ps j = (ps.map (fun p => if p.1 = j then p.2 else 0)).sum := by
  induction ps with
  | nil => rfl
  | cons p t ih =>
    have hnd2 : (t.map Prod.fst).Nodup := (List.nodup_cons.1 hnd).2
    have hpnot : p.1 ∉ t.map Prod.fst := (List.nodup_cons.1 hnd).1
    unfold dictGet
    rw [List.reverse_cons, List.find?_append]
    by_cases hpj : p.1 = j
    · have hnone : t.reverse.find? (fun q => decide (q.1 = j)) = none := by
        rw [List.find?_eq_none]
        intro x hx
        simp only [decide_eq_true_eq]
        intro hxj
        apply hpnot
        rw [hpj, ← hxj]
        exact List.mem_map_of_mem Prod.fst (List.mem_reverse.1 hx)
      rw [hnone]
      simp only [Option.none_or]
      rw [show List.find? (fun q => decide (q.1 = j)) [p] = some p from by
        simp [List.find?, hpj]]
      have hzero : ((t.map (fun q => if q.1 = j then q.2 else 0))).sum = 0 := by
        apply List.sum_eq_zero
        intro x hx
        obtain ⟨q, hq, rfl⟩ := List.mem_map.1 hx
        have : ¬ q.1 = j := by
          intro h
          apply hpnot
          rw [hpj, ← h]
          exact List.mem_map_of_mem Prod.fst hq
        simp [this]
      simp [hpj, hzero]
    · have hcase : List.find? (fun q => decide (q.1 = j)) [p] = none := by
        simp [List.find?, hpj]
      rw [hcase, Option.or_none]
      simp only [List.map_cons, List.sum_cons, hpj, if_false, zero_add]
      exact ih hnd2

theorem length_rowOfPairs (ps : List (ℕ × ℚ)) (n : ℕ) : (rowOfPairs ps n).length = n := by
  simp [rowOfPairs]

theorem toFun_rowOfPairs_lt {ps : List (ℕ × ℚ)} {n j : ℕ} (h : j < n) :
    toFun (rowOfPairs ps n) j = dictGet ps j := by
  rw [toFun_getD_eq, rowOfPairs]
  rw [List.getD_eq_getElem _ _ (by simpa using h)]
  rw [List.getElem_map]
  rw [List.getElem_range]

theorem coordFn_supp {V κ : Type} [DecidableEq κ] (A : Ambient V κ) (v : V) (k : κ)
    (h : coordFn A v k ≠ 0) : k ∈ (A.items v).map Prod.fst := by
  by_contra hnot
  apply h
  unfold coordFn
  apply List.sum_eq_zero
  intro x hx
  obtain ⟨q, hq, rfl⟩ := List.mem_map.1 hx
  have : ¬ q.1 = k := fun h2 => hnot (h2 ▸ List.mem_map_of_mem Prod.fst hq)
  simp [this]

theorem coordFn_item {V κ : Type} [DecidableEq κ] {A : Ambient V κ} {v : V}
    (hnd : ((A.items v).map Prod.fst).Nodup) {k : κ} {c : ℚ}
    (h : (k, c) ∈ A.items v) : coordFn A v k = c := by
  unfold coordFn
  obtain ⟨l1, l2, hsplit⟩ := List.append_of_mem h
  rw [hsplit] at hnd ⊢
  have hk1 : k ∉ l1.map Prod.fst := by
    intro hmem
    rw [List.map_append] at hnd
    have := (List.nodup_append.1 hnd).2.2
    rw [List.disjoint_left] at this
    exact this hmem (by simp)
  have hk2 : k ∉ l2.map Prod.fst := by
    rw [List.map_append, List.map_cons] at hnd
    have h2 := (List.nodup_append.1 hnd).2.1
    exact (List.nodup_cons.1 h2).1
  rw [List.map_append, List.sum_append, List.map_cons, List.sum_cons]
  have hz1 : (l1.map (fun p => if p.1 = k then p.2 else 0)).sum = 0 := by
    apply List.sum_eq_zero
    intro x hx
    obtain ⟨q, hq, rfl⟩ := List.mem_map.1 hx
    have : ¬ q.1 = k := fun h2 => hk1 (h2 ▸ List.mem_map_of_mem Prod.fst hq)
    simp [this]
  have hz2 : (l2.map (fun p => if p.1 = k then p.2 else 0)).sum = 0 := by
    apply List.sum_eq_zero
    intro x hx
    obtain ⟨q, hq, rfl⟩ := List.mem_map.1 hx
    have : ¬ q.1 = k := fun h2 => hk2 (h2 ▸ List.mem_map_of_mem Prod.fst hq)
    simp [this]
  simp [hz1, hz2]

theorem TkF_apply_ge {κ : Type} {keys : List κ} {f : κ → ℚ} {j : ℕ}
    (h : keys.length ≤ j) : TkF keys f j = 0 := by
  unfold TkF
  rw [dif_neg (by omega)]

theorem rowOfPairs_correct {V κ : Type} [DecidableEq κ] {A : Ambient V κ} {v : V}
    {keys2 : List κ} (hnd2 : keys2.Nodup)
    (hitems : ((A.items v).map Prod.fst).Nodup)
    (hin : ∀ p ∈ A.items v, p.1 ∈ keys2) :
    toFun (rowOfPairs ((A.items v).map (fun p => (idxOfKey keys2 p.1, p.2)))
        keys2.length)
      = TkF keys2 (coordFn A v) := by
  have hmemk : ∀ k ∈ (A.items v).map Prod.fst, k ∈ keys2 := by
    intro k hk
    obtain ⟨p, hp, rfl⟩ := List.mem_map.1 hk
    exact hin p hp
  funext j
  by_cases hj : j < keys2.length
  · rw [toFun_rowOfPairs_lt hj]
    have hndidx : (((A.items v).map (fun p => (idxOfKey keys2 p.1, p.2))).map Prod.fst).Nodup := by
      rw [List.map_map]
      rw [show (Prod.fst ∘ fun p : κ × ℚ => (idxOfKey keys2 p.1, p.2)) =
          ((fun k => idxOfKey keys2 k) ∘ Prod.fst) from rfl]
      rw [← List.map_map]
      apply List.Nodup.map_on ?_ hitems
      intro x hx y hy hxy
      have h1 : keys2.getD (idxOfKey keys2 x) x = x := idxOfKey_getD (hmemk x hx) x
      have h2 : keys2.getD (idxOfKey keys2 y) y = y := idxOfKey_getD (hmemk y hy) y
      have h3 : keys2.getD (idxOfKey keys2 x) x = keys2.getD (idxOfKey keys2 y) x := by
        rw [hxy]
      rw [List.getD_eq_getElem _ _ (idxOfKey_lt (hmemk x hx))] at h1 h3
      rw [List.getD_eq_getElem _ _ (idxOfKey_lt (hmemk y hy))] at h2 h3
      rw [h1] at h3
      rw [← h2, h3]
    rw [dictGet_eq_sum hndidx j]
    rw [List.map_map]
    unfold TkF
    rw [dif_pos hj]
    unfold coordFn
    congr 1
    apply List.map_congr_left
    intro p hp
    have hiff : (idxOfKey keys2 p.1 = j) ↔ (p.1 = keys2.get ⟨j, hj⟩) := by
      constructor
      · intro hidx
        have h1 : keys2.getD (idxOfKey keys2 p.1) p.1 = p.1 := idxOfKey_getD (hin p hp) p.1
        rw [hidx] at h1
        rw [List.getD_eq_getElem _ _ hj] at h1
        rw [← h1]
        simp [List.get_eq_getElem]
      · intro hkey
        have h1 : idxOfKey keys2 (keys2.getD j p.1) = j := idxOfKey_of_getD hnd2 hj p.1
        rw [List.getD_eq_getElem _ _ hj] at h1
        rw [hkey]
        rw [show keys2.get ⟨j, hj⟩ = keys2[j] from rfl]
        exact h1
    simp only [Function.comp_apply]
    by_cases hcond : idxOfKey keys2 p.1 = j
    · rw [if_pos hcond, if_pos (hiff.1 hcond)]
    · rw [if_neg hcond, if_neg (fun h => hcond (hiff.2 h))]
  · rw [TkF_apply_ge (by omega)]
    apply toFun_eq_zero_of_ge
    rw [length_rowOfPairs]
    omega

/-- Master specification of `plain_vector` on an ambient member: the ranker
grows by an extension, the returned dense row reads as the transported
coordinate function of the vector, and every key carrying a nonzero
coefficient is ranked afterwards. -/
theorem plain_vector_spec {V κ : Type} [DecidableEq κ] {A : Ambient V κ} (hA : AmbWF A)
    {keys : List κ} (hnd : keys.Nodup) {v : V} (hv : A.isParentOf v = true) :
    ∃ row ext, plain_vector A keys v = .ok (row, keys ++ ext) ∧
      (keys ++ ext).Nodup ∧
      row.length = (keys ++ ext).length ∧
      toFun row = TkF (keys ++ ext) (coordFn A v) ∧
      (∀ k, coordFn A v k ≠ 0 → k ∈ keys ++ ext) ∧
      (∀ k ∈ ext, ∃ c, (k, c) ∈ A.items v) := by
  obtain ⟨hitems, hcoeffs⟩ := hA v hv
  obtain ⟨ext, h1, h2, h3, h4, h5⟩ := rankItems_spec (A.items v) keys hnd
  refine ⟨rowOfPairs (rankItems keys (A.items v)).1 (rankItems keys (A.items v)).2.length,
    ext, ?_, h2, ?_, ?_, ?_, h3⟩
  · unfold plain_vector
    rw [if_neg (by rw [hv]; exact fun h => Bool.noConfusion h)]
    show Except.ok (rowOfPairs (rankItems keys (A.items v)).1
        (rankItems keys (A.items v)).2.length, (rankItems keys (A.items v)).2) = _
    rw [h1]
  · rw [length_rowOfPairs, h1]
  · rw [h5, h1]
    exact rowOfPairs_correct h2 hitems (fun p hp => h1 ▸ h4 p hp)
  · intro k hk
    have := coordFn_supp A v k hk
    obtain ⟨p, hp, rfl⟩ := List.mem_map.1 this
    exact h4 p hp

/-- Transport is stable under extending the key list, for functions
supported in the original keys. -/
theorem TkF_ext_stable {κ : Type} {keys ext : List κ} (hnd : (keys ++ ext).Nodup)
    {f : κ → ℚ} (hsupp : ∀ k, f k ≠ 0 → k ∈ keys) :
    TkF (keys ++ ext) f = TkF keys f := by
  funext j
  unfold TkF
  by_cases hj : j < keys.length
  · rw [dif_pos hj, dif_pos (by simp; omega)]
    congr 1
    simp [List.get_eq_getElem, List.getElem_append_left hj]
  · rw [dif_neg hj]
    by_cases hj2 : j < (keys ++ ext).length
    · rw [dif_pos hj2]
      by_contra hne
      have hmem : (keys ++ ext).get ⟨j, hj2⟩ ∈ keys := hsupp _ hne
      have hj3 : j - keys.length < ext.length := by
        rw [List.length_append] at hj2
        omega
      have hget : (keys ++ ext).get ⟨j, hj2⟩ = ext.get ⟨j - keys.length, hj3⟩ := by
        simp only [List.get_eq_getElem]
        rw [List.getElem_append_right (by omega)]
      have hmemext : (keys ++ ext).get ⟨j, hj2⟩ ∈ ext := by
        rw [hget]
        exact List.get_mem ext (j - keys.length) hj3
      have hdisj := (List.nodup_append.1 hnd).2.2
      rw [List.disjoint_left] at hdisj
      exact hdisj hmem hmemext
    · rw [dif_neg hj2]

/-- Transport along a duplicate-free key list is injective on functions
supported in the keys. -/
theorem TkF_zero_of_supp {κ : Type} {keys : List κ} {f : κ → ℚ}
    (hsupp : ∀ k, f k ≠ 0 → k ∈ keys) (h : TkF keys f = 0) : f = 0 := by
  funext k
  by_contra hne
  have hmem := hsupp k hne
  obtain ⟨n, hn⟩ := List.mem_iff_get.1 hmem
  have := congrFun h n
  unfold TkF at this
  rw [dif_pos n.2] at this
  rw [show (⟨n, n.2⟩ : Fin keys.length) = n from rfl, hn] at this
  exact hne this

theorem ambSpan_le_suppIn {V κ : Type} [DecidableEq κ] {A : Ambient V κ} {bs : List V}
    {keys : List κ} (hsupp : ∀ v ∈ bs, ∀ k, coordFn A v k ≠ 0 → k ∈ keys) :
    ambSpan A bs ≤ suppIn keys := by
  unfold ambSpan
  apply Submodule.span_le.2
  rintro f ⟨v, hv, rfl⟩
  exact fun k hk => hsupp v hv k hk

theorem map_TkL_ambSpan_ext {V κ : Type} [DecidableEq κ] {A : Ambient V κ} {bs : List V}
    {keys ext : List κ} (hnd : (keys ++ ext).Nodup)
    (hsupp : ∀ v ∈ bs, ∀ k, coordFn A v k ≠ 0 → k ∈ keys) :
    Submodule.map (TkL (keys ++ ext)) (ambSpan A bs)
      = Submodule.map (TkL keys) (ambSpan A bs) := by
  unfold ambSpan
  rw [Submodule.map_span, Submodule.map_span]
  congr 1
  ext g
  constructor
  · rintro ⟨f, ⟨v, hv, rfl⟩, rfl⟩
    refine ⟨coordFn A v, ⟨v, hv, rfl⟩, ?_⟩
    exact (TkF_ext_stable hnd (hsupp v hv)).symm
  · rintro ⟨f, ⟨v, hv, rfl⟩, rfl⟩
    refine ⟨coordFn A v, ⟨v, hv, rfl⟩, ?_⟩
    exact TkF_ext_stable hnd (hsupp v hv)

/-- Transport preserves the dimension of spans of supported functions. -/
theorem finrank_map_TkL {κ : Type} {keys : List κ} {p : Submodule ℚ (κ → ℚ)}
    (hp : p ≤ suppIn keys) :
    Module.finrank ℚ (Submodule.map (TkL keys) p) = Module.finrank ℚ p := by
  let φ : p →ₗ[ℚ] Submodule.map (TkL keys) p :=
    LinearMap.codRestrict _ ((TkL keys).domRestrict p)
      (fun c => Submodule.mem_map_of_mem c.2)
  have hinj : Function.Injective φ := by
    intro x y hxy
    have h1 : TkF keys (x.1 - y.1) = 0 := by
      have h2 : (TkL keys) x.1 = (TkL keys) y.1 := congrArg Subtype.val hxy
      have h3 := map_sub (TkL keys) x.1 y.1
      rw [h2, sub_self] at h3
      exact h3
    have hsub : (x.1 - y.1) ∈ p := Submodule.sub_mem p x.2 y.2
    have h4 : x.1 - y.1 = 0 := TkF_zero_of_supp (fun k hk => hp hsub k hk) h1
    exact Subtype.ext (by rw [← sub_eq_zero]; exact h4)
  have hsurj : Function.Surjective φ := by
    rintro ⟨y, hy⟩
    obtain ⟨x, hx, rfl⟩ := Submodule.mem_map.1 hy
    exact ⟨⟨x, hx⟩, rfl⟩
  exact (LinearEquiv.ofBijective φ ⟨hinj, hsurj⟩).finrank_eq.symm

theorem famOf_getD {M : List (List ℚ)} (i : Fin M.length) :
    famOf M i = toFun (M.getD i []) := by
  unfold famOf
  rw [List.getD_eq_getElem _ _ i.2]
  rfl

theorem famOf_eq_comp {M N : List (List ℚ)} (hlen : M.length = N.length)
    (h : ∀ i : Fin M.length, toFun (M.getD i []) = toFun (N.getD i [])) :
    famOf M = famOf N ∘ (finCongr hlen) := by
  funext i
  rw [famOf_getD]
  have h2 : famOf N (finCongr hlen i) = toFun (N.getD i []) := by
    rw [famOf_getD]
    rfl
  rw [Function.comp_apply, h2, h i]

theorem linIndepL_congr {M N : List (List ℚ)} (hlen : M.length = N.length)
    (h : ∀ i : Fin M.length, toFun (M.getD i []) = toFun (N.getD i [])) :
    LinIndepL M ↔ LinIndepL N := by
  unfold LinIndepL
  rw [famOf_eq_comp hlen h]
  exact linearIndependent_equiv (finCongr hlen)

theorem rowSpan_congr {M N : List (List ℚ)} (hlen : M.length = N.length)
    (h : ∀ i : Fin M.length, toFun (M.getD i []) = toFun (N.getD i [])) :
    rowSpan M = rowSpan N := by
  rw [rowSpan_eq_span_range, rowSpan_eq_span_range]
  congr 1
  rw [famOf_eq_comp hlen h]
  exact Function.Surjective.range_comp (finCongr hlen).surjective (famOf N)

theorem addVectorToMatrix_spec {mat : List (List ℚ)} {ncols : ℕ} {row : List ℚ}
    (hUW : UW ncols mat) (hle : ncols ≤ row.length) :
    ∃ M2, addVectorToMatrix mat ncols row = (M2 ++ [row], row.length) ∧
      M2.length = mat.length ∧ UW row.length M2 ∧
      (∀ i : Fin M2.length, toFun (M2.getD i []) = toFun (mat.getD i [])) := by
  by_cases hif : ncols < row.length
  · refine ⟨mat.map (padTo row.length), ?_, by simp, ?_, ?_⟩
    · unfold addVectorToMatrix
      rw [if_pos hif]
    · intro r hr
      obtain ⟨t, ht, rfl⟩ := List.mem_map.1 hr
      rw [length_padTo]
      have := hUW t ht
      omega
    · intro i
      have hi : i.1 < mat.length := by
        have := i.2
        simpa using this
      rw [List.getD_eq_getElem _ _ i.2, List.getD_eq_getElem _ _ hi]
      rw [List.getElem_map]
      rw [toFun_padTo]
  · have heq : ncols = row.length := by omega
    refine ⟨mat, ?_, rfl, ?_, fun i => rfl⟩
    · unfold addVectorToMatrix
      rw [if_neg hif, heq]
    · rw [← heq]
      exact hUW

theorem ambSpan_append_single {V κ : Type} [DecidableEq κ] (A : Ambient V κ)
    (bs : List V) (v : V) :
    ambSpan A (bs ++ [v]) = ambSpan A bs ⊔ Submodule.span ℚ {coordFn A v} := by
  unfold ambSpan
  rw [← Submodule.span_union]
  congr 1
  ext f
  constructor
  · rintro ⟨u, hu, rfl⟩
    rcases List.mem_append.1 hu with h | h
    · exact Set.mem_union_left _ ⟨u, h, rfl⟩
    · rw [List.mem_singleton.1 h]
      exact Set.mem_union_right _ rfl
  · intro hf
    rcases (Set.mem_union f _ _).1 hf with h | h
    · obtain ⟨u, hu, rfl⟩ := h
      exact ⟨u, List.mem_append_left _ hu, rfl⟩
    · rw [Set.mem_singleton_iff.1 h]
      exact ⟨v, List.mem_append_right _ (by simp), rfl⟩

theorem TkF_mem_map_iff {V κ : Type} [DecidableEq κ] {A : Ambient V κ} {bs : List V}
    {keys : List κ} (hbs : ∀ u ∈ bs, ∀ k, coordFn A u k ≠ 0 → k ∈ keys)
    {f : κ → ℚ} (hf : ∀ k, f k ≠ 0 → k ∈ keys) :
    TkF keys f ∈ Submodule.map (TkL keys) (ambSpan A bs) ↔ f ∈ ambSpan A bs := by
  constructor
  · intro hmem
    obtain ⟨x, hx, hTx⟩ := Submodule.mem_map.1 hmem
    have hxsupp : ∀ k, x k ≠ 0 → k ∈ keys := ambSpan_le_suppIn hbs hx
    have hdiff : TkF keys (x - f) = 0 := by
      have h2 := map_sub (TkL keys) x f
      have h3 : (TkL keys) f = TkF keys f := rfl
      rw [hTx, h3, sub_self] at h2
      exact h2
    have hsub : ∀ k, (x - f) k ≠ 0 → k ∈ keys := by
      intro k hk
      by_cases hxk : x k = 0
      · apply hf k
        intro hfk
        apply hk
        simp [Pi.sub_apply, hxk, hfk]
      · exact hxsupp k hxk
    have hxf : x - f = 0 := TkF_zero_of_supp hsub hdiff
    rw [sub_eq_zero] at hxf
    rw [← hxf]
    exact hx
  · intro hmem
    exact ⟨f, hmem, rfl⟩

/-- Master specification of `extend` on a well-formed echelon store and an
ambient member: the call succeeds, acceptance is equivalent to the vector
lying outside the span of the previously accepted basis, the invariant is
preserved, the ranker only grows, and the matrix, basis and cardinality are
committed on acceptance and untouched (the whole state unchanged) on
rejection. -/
theorem extend_spec {V κ : Type} [DecidableEq κ] {A : Ambient V κ} (hA : AmbWF A)
    {s : MatrixOfVectors V κ} (hWF : EchWF A s) {v : V} (hv : A.isParentOf v = true)
    (st : Stats) :
    ∃ b s2,
      extend A s v st = (.ok b, s2,
        ⟨st.add_vector, st.extend + 1,
          if b = true then st.dimension + 1 else st.dimension⟩) ∧
      (b = true ↔ coordFn A v ∉ ambSpan A s.basis) ∧
      EchWF A s2 ∧
      (∃ ext, s2.keys = s.keys ++ ext) ∧
      (∀ k, coordFn A v k ≠ 0 → k ∈ s2.keys) ∧
      s2.basis = (if b = true then s.basis ++ [v] else s.basis) ∧
      cardinality s2 = (if b = true then cardinality s + 1 else cardinality s) ∧
      ambSpan A s2.basis =
        (if b = true then ambSpan A s.basis ⊔ Submodule.span ℚ {coordFn A v}
          else ambSpan A s.basis) ∧
      (b = false → s2 = s) := by
  obtain ⟨row, ext, hpv, hnd2, hrowlen, hrowfun, hsuppv, hextitems⟩ :=
    plain_vector_spec hA hWF.keysNodup hv
  have hle : s.ncols ≤ row.length := by
    rw [hrowlen, List.length_append]
    have := hWF.ncolsLe
    omega
  obtain ⟨M2, hAVM, hM2len, hM2UW, hM2pt⟩ := addVectorToMatrix_spec hWF.matUW hle
  have hM2span : rowSpan M2 = rowSpan s.mat := rowSpan_congr hM2len hM2pt
  have hM2indep : LinIndepL M2 := (linIndepL_congr hM2len hM2pt).2 hWF.matIndep
  have hbasisSupp2 : ∀ u ∈ s.basis, ∀ k, coordFn A u k ≠ 0 → k ∈ s.keys ++ ext :=
    fun u hu k hk => List.mem_append_left _ (hWF.basisSupp u hu k hk)
  have hspan2 : rowSpan M2 = Submodule.map (TkL (s.keys ++ ext)) (ambSpan A s.basis) := by
    rw [hM2span, hWF.matSpan]
    exact (map_TkL_ambSpan_ext hnd2 hWF.basisSupp).symm
  have hacc := accept_iff_new_row (w := row.length) hM2UW rfl hM2indep
  have hiff2 : toFun row ∈ rowSpan M2 ↔ coordFn A v ∈ ambSpan A s.basis := by
    rw [hrowfun, hspan2]
    exact TkF_mem_map_iff hbasisSupp2 hsuppv
  have hech : ¬ (s.isEchelon = false) := by
    rw [hWF.ech]
    exact fun h => Bool.noConfusion h
  have hcomp : extend A s v st =
      (let mc := addVectorToMatrix s.mat s.ncols row
       let m := echelonize mc.1
       if isNZRow (lastRow m) then
         (.ok true,
           ⟨s.keys ++ ext, m, mc.2, s.basis ++ [v], s.isEchelon⟩,
           ⟨st.add_vector, st.extend + 1, st.dimension + 1⟩)
       else
         (.ok false, ⟨s.keys ++ ext, s.mat, s.ncols, s.basis, s.isEchelon⟩,
           ⟨st.add_vector, st.extend + 1, st.dimension⟩)) := by
    unfold extend
    rw [if_neg hech, hpv]
  simp only [hAVM] at hcomp
  have hUWcand : UW row.length (M2 ++ [row]) := by
    intro r hr
    rcases List.mem_append.1 hr with h | h
    · exact hM2UW r h
    · rw [List.mem_singleton.1 h]
  have hcandne : M2 ++ [row] ≠ [] := by simp
  cases hb : isNZRow (lastRow (echelonize (M2 ++ [row]))) with
  | true =>
    rw [hb, if_pos rfl] at hcomp
    have hnotin : toFun row ∉ rowSpan M2 := hacc.1 hb
    have hcoordnot : coordFn A v ∉ ambSpan A s.basis := fun h => hnotin (hiff2.2 h)
    obtain ⟨hcind, hcspan, hclen, hcUW⟩ :=
      echelonize_commit hUWcand hcandne hb
    refine ⟨true, ⟨s.keys ++ ext, echelonize (M2 ++ [row]), row.length,
      s.basis ++ [v], s.isEchelon⟩, ?_, ?_, ?_, ⟨ext, rfl⟩, hsuppv, ?_, ?_, ?_, ?_⟩
    · rw [hcomp, if_pos rfl]
    · exact ⟨fun _ => hcoordnot, fun _ => rfl⟩
    · refine ⟨hnd2, ?_, ?_, ?_, ?_, ?_, ?_, hcind, ?_, hWF.ech⟩
      · exact hcUW
      · rw [hrowlen]
      · rw [hclen]
        simp only [List.length_append, List.length_singleton]
        rw [hM2len, hWF.matBasisLen]
      · intro u hu
        rcases List.mem_append.1 hu with h | h
        · exact hWF.basisParent u h
        · rw [List.mem_singleton.1 h]
          exact hv
      · intro u hu k hk
        rcases List.mem_append.1 hu with h | h
        · exact hbasisSupp2 u h k hk
        · rw [List.mem_singleton.1 h] at hk
          exact hsuppv k hk
      · intro u hu
        rcases List.mem_append.1 hu with h | h
        · exact hWF.basisNZ u h
        · rw [List.mem_singleton.1 h]
          intro h0
          apply hcoordnot
          rw [h0]
          exact Submodule.zero_mem _
      · rw [hcspan, rowSpan_append, rowSpan_cons, rowSpan_nil, sup_bot_eq]
        rw [hspan2, ambSpan_append_single, Submodule.map_sup]
        congr 1
        rw [Submodule.map_span, Set.image_singleton]
        rw [hrowfun]
        rfl
    · simp
    · unfold cardinality
      simp only [if_pos]
      rw [hclen]
      simp only [List.length_append, List.length_singleton]
      rw [hM2len]
    · rw [if_pos rfl, ambSpan_append_single]
    · intro h
      exact Bool.noConfusion h
  | false =>
    rw [hb, if_neg (by simp)] at hcomp
    have hin : toFun row ∈ rowSpan M2 := by
      by_contra hnot
      rw [← hacc] at hnot
      rw [hb] at hnot
      exact Bool.noConfusion hnot
    have hcoordin : coordFn A v ∈ ambSpan A s.basis := hiff2.1 hin
    have hsuppkeys : ∀ k, coordFn A v k ≠ 0 → k ∈ s.keys := by
      intro k hk
      exact ambSpan_le_suppIn hWF.basisSupp hcoordin k hk
    have hextnil : ext = [] := by
      cases hextcase : ext with
      | nil => rfl
      | cons e es =>
        exfalso
        obtain ⟨c, hc⟩ := hextitems e (by rw [hextcase]; exact List.mem_cons_self _ _)
        have hcoordval : coordFn A v e = c := coordFn_item (hA v hv).1 hc
        have hcne : c ≠ 0 := (hA v hv).2 (e, c) hc
        have hekeys : e ∈ s.keys := hsuppkeys e (by rw [hcoordval]; exact hcne)
        have hdisj := (List.nodup_append.1 hnd2).2.2
        rw [List.disjoint_left] at hdisj
        exact hdisj hekeys (by rw [hextcase]; exact List.mem_cons_self _ _)
    subst hextnil
    have hs2eq : (⟨s.keys ++ [], s.mat, s.ncols, s.basis, s.isEchelon⟩ :
        MatrixOfVectors V κ) = s := by
      rw [List.append_nil]
    refine ⟨false, ⟨s.keys ++ [], s.mat, s.ncols, s.basis, s.isEchelon⟩,
      ?_, ?_, ?_, ⟨[], rfl⟩, ?_, ?_, ?_, ?_, fun _ => hs2eq⟩
    · rw [hcomp, if_neg (fun h => Bool.noConfusion h)]
    · exact ⟨fun h => Bool.noConfusion h, fun h => absurd hcoordin h⟩
    · rw [hs2eq]
      exact hWF
    · intro k hk
      exact List.mem_append_left _ (hsuppkeys k hk)
    · simp
    · simp [cardinality]
    · simp

theorem witAmb_wf : AmbWF witAmb := by
  intro v hv
  unfold witAmb at hv
  simp only [Bool.and_eq_true, decide_eq_true_eq, List.all_eq_true] at hv
  refine ⟨hv.1, ?_⟩
  intro p hp
  have := hv.2 p hp
  simpa using this

theorem ambSpan_nil {V κ : Type} [DecidableEq κ] (A : Ambient V κ) :
    ambSpan A ([] : List V) = ⊥ := by
  unfold ambSpan
  convert Submodule.span_empty
  ext f
  simp

theorem echWF_empty {V κ : Type} [DecidableEq κ] (A : Ambient V κ) :
    EchWF A (MatrixOfVectors.empty V κ) := by
  refine ⟨List.nodup_nil, ?_, le_refl 0, rfl, ?_, ?_, ?_, linIndepL_nil, ?_, rfl⟩
  · intro r hr; exact absurd hr (List.not_mem_nil r)
  · intro u hu; exact absurd hu (List.not_mem_nil u)
  · intro u hu; exact absurd hu (List.not_mem_nil u)
  · intro u hu; exact absurd hu (List.not_mem_nil u)
  · show rowSpan [] = Submodule.map (TkL ([] : List κ)) (ambSpan A ([] : List V))
    rw [rowSpan_nil, ambSpan_nil, Submodule.map_bot]

/-- Cardinality of a well-formed store equals the dimension of the span of
the coordinate functions of its accepted basis. -/
theorem cardinality_eq_finrank {V κ : Type} [DecidableEq κ] {A : Ambient V κ}
    {s : MatrixOfVectors V κ} (hWF : EchWF A s) :
    cardinality s = Module.finrank ℚ (ambSpan A s.basis) := by
  unfold cardinality
  rw [← linIndepL_finrank hWF.matIndep, hWF.matSpan]
  exact finrank_map_TkL (ambSpan_le_suppIn hWF.basisSupp)

/-- C2: on a store whose matrix is in echelon form, `extend` accepts exactly
the vectors outside the span of the previously accepted basis; acceptance
commits the reduced matrix (the store stays well formed), appends the vector
to the accepted-basis list and raises `cardinality` by exactly one, while
rejection leaves the state unchanged, so `cardinality` is non-decreasing. -/
theorem extend_accept_iff_independent {V κ : Type} [DecidableEq κ]
    {A : Ambient V κ} (hA : AmbWF A) {s : MatrixOfVectors V κ} (hWF : EchWF A s)
    {v : V} (hv : A.isParentOf v = true) (st : Stats) :
    ∃ b s2 st2, extend A s v st = (.ok b, s2, st2) ∧
      (b = true ↔ coordFn A v ∉ ambSpan A s.basis) ∧
      (b = true → s2.basis = s.basis ++ [v] ∧ EchWF A s2 ∧
        cardinality s2 = cardinality s + 1) ∧
      (b = false → s2 = s ∧ cardinality s2 = cardinality s) ∧
      cardinality s ≤ cardinality s2 := by
  obtain ⟨b, s2, heq, hiff, hWF2, hkeys, hsupp, hbasis, hcard, hspan, hrej⟩ :=
    extend_spec hA hWF hv st
  refine ⟨b, s2, _, heq, hiff, ?_, ?_, ?_⟩
  · intro hb
    rw [hb] at hbasis hcard
    simp only [if_pos] at hbasis hcard
    exact ⟨hbasis, hWF2, hcard⟩
  · intro hb
    rw [hb] at hcard
    simp only [Bool.false_eq_true, if_neg, if_false] at hcard
    exact ⟨hrej hb, hcard⟩
  · cases b with
    | true =>
      rw [if_pos rfl] at hcard
      omega
    | false =>
      simp only [Bool.false_eq_true, if_false] at hcard
      omega

/-- C2 witness: accepting a fresh vector into the empty store. -/
theorem extend_accept_iff_independent_witness :
    AmbWF witAmb ∧
      EchWF witAmb (MatrixOfVectors.empty (List (ℕ × ℚ)) ℕ) ∧
      witAmb.isParentOf [(0, (1 : ℚ))] = true ∧
      (∃ b s2 st2,
        extend witAmb (MatrixOfVectors.empty (List (ℕ × ℚ)) ℕ) [(0, (1 : ℚ))]
          ⟨0, 0, 0⟩ = (.ok b, s2, st2) ∧
        (b = true ↔ coordFn witAmb [(0, (1 : ℚ))] ∉
          ambSpan witAmb (MatrixOfVectors.empty (List (ℕ × ℚ)) ℕ).basis) ∧
        (b = true → s2.basis = (MatrixOfVectors.empty (List (ℕ × ℚ)) ℕ).basis
            ++ [[(0, (1 : ℚ))]] ∧ EchWF witAmb s2 ∧
          cardinality s2 = cardinality (MatrixOfVectors.empty (List (ℕ × ℚ)) ℕ) + 1) ∧
        (b = false → s2 = MatrixOfVectors.empty (List (ℕ × ℚ)) ℕ ∧
          cardinality s2 = cardinality (MatrixOfVectors.empty (List (ℕ × ℚ)) ℕ)) ∧
        cardinality (MatrixOfVectors.empty (List (ℕ × ℚ)) ℕ) ≤ cardinality s2) :=
  ⟨witAmb_wf, echWF_empty witAmb, by decide,
    extend_accept_iff_independent witAmb_wf (echWF_empty witAmb) (by decide) ⟨0, 0, 0⟩⟩

theorem length_addVectorToMatrix (mat : List (List ℚ)) (ncols : ℕ) (r : List ℚ) :
    (addVectorToMatrix mat ncols r).1.length = mat.length + 1 := by
  unfold addVectorToMatrix
  by_cases h : ncols < r.length
  · rw [if_pos h]; simp
  · rw [if_neg h]; simp

theorem add_vector_out {V κ : Type} [DecidableEq κ] (A : Ambient V κ)
    (s : MatrixOfVectors V κ) (v : V) (st : Stats) :
    (add_vector A s v st).2.1.basis = s.basis ∧
    (add_vector A s v st).2.1.isEchelon = false ∧
    ((add_vector A s v st).1 = .ok () →
      (add_vector A s v st).2.1.mat.length = s.mat.length + 1) := by
  unfold add_vector
  dsimp only
  cases hpv : plain_vector A s.keys v with
  | error e =>
    refine ⟨rfl, rfl, ?_⟩
    intro h
    exact absurd h (by simp)
  | ok rk =>
    refine ⟨rfl, rfl, ?_⟩
    intro _
    exact length_addVectorToMatrix s.mat s.ncols rk.1

/-- C8: a vector outside the declared ambient space makes `plain_vector`
raise the ambient-mismatch error before ranking anything, so the enclosing
`extend` and `add_vector` calls fail with the matrix, basis and ranker
untouched (only the statistics counter and, for `add_vector`, the already
cleared echelon flag change); an ambient member never raises it. -/
theorem plain_vector_ambient_mismatch {V κ : Type} [DecidableEq κ]
    (A : Ambient V κ) (keys : List κ) (s : MatrixOfVectors V κ) (v w : V)
    (st : Stats) (hv : A.isParentOf v = false) (hw : A.isParentOf w = true)
    (hech : s.isEchelon = true) :
    plain_vector A keys v = .error .ambientMismatch ∧
    extend A s v st = (.error .ambientMismatch, s,
      ⟨st.add_vector, st.extend + 1, st.dimension⟩) ∧
    add_vector A s v st = (.error .ambientMismatch,
      { s with isEchelon := false },
      ⟨st.add_vector + 1, st.extend, st.dimension⟩) ∧
    (∃ rk, plain_vector A keys w = .ok rk) := by
  have hpv : ∀ ks : List κ, plain_vector A ks v = .error .ambientMismatch := by
    intro ks
    unfold plain_vector
    rw [if_pos hv]
  refine ⟨hpv keys, ?_, ?_, ?_⟩
  · unfold extend
    rw [if_neg (by rw [hech]; exact fun h => Bool.noConfusion h), hpv s.keys]
  · unfold add_vector
    dsimp only
    rw [hpv s.keys]
  · unfold plain_vector
    rw [if_neg (by rw [hw]; exact fun h => Bool.noConfusion h)]
    exact ⟨_, rfl⟩

/-- C8 witness: the zero-coefficient list is rejected by the concrete
ambient's membership test, a fresh singleton is accepted. -/
theorem plain_vector_ambient_mismatch_witness :
    witAmb.isParentOf [(0, (0 : ℚ))] = false ∧
    witAmb.isParentOf [(0, (1 : ℚ))] = true ∧
    (MatrixOfVectors.empty (List (ℕ × ℚ)) ℕ).isEchelon = true ∧
    (plain_vector witAmb [] [(0, (0 : ℚ))] = .error .ambientMismatch ∧
      extend witAmb (MatrixOfVectors.empty (List (ℕ × ℚ)) ℕ) [(0, (0 : ℚ))]
        ⟨0, 0, 0⟩ = (.error .ambientMismatch,
          MatrixOfVectors.empty (List (ℕ × ℚ)) ℕ, ⟨0, 1, 0⟩) ∧
      add_vector witAmb (MatrixOfVectors.empty (List (ℕ × ℚ)) ℕ) [(0, (0 : ℚ))]
        ⟨0, 0, 0⟩ = (.error .ambientMismatch,
          { MatrixOfVectors.empty (List (ℕ × ℚ)) ℕ with isEchelon := false },
          ⟨1, 0, 0⟩) ∧
      (∃ rk, plain_vector witAmb [] [(0, (1 : ℚ))] = .ok rk)) :=
  ⟨by decide, by decide, rfl,
    plain_vector_ambient_mismatch witAmb [] (MatrixOfVectors.empty _ _)
      [(0, (0 : ℚ))] [(0, (1 : ℚ))] ⟨0, 0, 0⟩ (by decide) (by decide) rfl⟩

theorem extend_notEchelon {V κ : Type} [DecidableEq κ] (A : Ambient V κ)
    (s : MatrixOfVectors V κ) (hech : s.isEchelon = false) (v : V) (st : Stats) :
    extend A s v st = (.error .notEchelon, s,
      ⟨st.add_vector, st.extend + 1, st.dimension⟩) := by
  unfold extend
  rw [if_pos hech]

theorem extend_preserves_flag {V κ : Type} [DecidableEq κ] (A : Ambient V κ)
    (s : MatrixOfVectors V κ) (v : V) (st : Stats) :
    (extend A s v st).2.1.isEchelon = s.isEchelon := by
  unfold extend
  dsimp only
  by_cases hech : s.isEchelon = false
  · rw [if_pos hech]
  · rw [if_neg hech]
    cases hpv : plain_vector A s.keys v with
    | error e => rfl
    | ok rk =>
      dsimp only
      by_cases hnz : isNZRow (lastRow (echelonize
          (addVectorToMatrix s.mat s.ncols rk.1).1)) = true
      · rw [if_pos hnz]
      · rw [if_neg hnz]

theorem mk_fold_freeze {V κ : Type} [DecidableEq κ] (A : Ambient V κ)
    (vs : List V) (e : PyErr) (s : MatrixOfVectors V κ) (st : Stats) :
    vs.foldl
      (fun acc v =>
        match acc.1 with
        | .error _ => acc
        | .ok _ => add_vector A acc.2.1 v acc.2.2)
      ((.error e : Except PyErr Unit), s, st) = (.error e, s, st) := by
  induction vs with
  | nil => rfl
  | cons v rest ih => exact ih

theorem mk_fold_spec {V κ : Type} [DecidableEq κ] (A : Ambient V κ) :
    ∀ (vs : List V) (s : MatrixOfVectors V κ) (st : Stats),
    (vs.foldl
      (fun acc v =>
        match acc.1 with
        | .error _ => acc
        | .ok _ => add_vector A acc.2.1 v acc.2.2)
      ((.ok () : Except PyErr Unit), s, st)).2.1.basis = s.basis ∧
    (vs ≠ [] →
      (vs.foldl
        (fun acc v =>
          match acc.1 with
          | .error _ => acc
          | .ok _ => add_vector A acc.2.1 v acc.2.2)
        ((.ok () : Except PyErr Unit), s, st)).2.1.isEchelon = false) ∧
    ((vs.foldl
        (fun acc v =>
          match acc.1 with
          | .error _ => acc
          | .ok _ => add_vector A acc.2.1 v acc.2.2)
        ((.ok () : Except PyErr Unit), s, st)).1 = .ok () →
      (vs.foldl
        (fun acc v =>
          match acc.1 with
          | .error _ => acc
          | .ok _ => add_vector A acc.2.1 v acc.2.2)
        ((.ok () : Except PyErr Unit), s, st)).2.1.mat.length
        = s.mat.length + vs.length) := by
  intro vs
  induction vs with
  | nil => exact fun s st => ⟨rfl, fun h => absurd rfl h, fun _ => rfl⟩
  | cons v rest ih =>
    intro s st
    obtain ⟨hb, hf, hl⟩ := add_vector_out A s v st
    cases hav : (add_vector A s v st).1 with
    | error e =>
      have hsplit : add_vector A s v st =
          (.error e, (add_vector A s v st).2.1, (add_vector A s v st).2.2) := by
        rw [← hav]
      rw [List.foldl_cons]
      rw [show (match ((.ok () : Except PyErr Unit), s, st).1 with
        | .error _ => ((.ok () : Except PyErr Unit), s, st)
        | .ok _ => add_vector A s v st) = add_vector A s v st from rfl]
      rw [hsplit]
      rw [mk_fold_freeze]
      refine ⟨hb, fun _ => hf, ?_⟩
      intro hcontra
      exact absurd hcontra (by simp)
    | ok u =>
      have hsplit : add_vector A s v st =
          (.ok u, (add_vector A s v st).2.1, (add_vector A s v st).2.2) := by
        rw [← hav]
      obtain ⟨ihb, ihf, ihl⟩ := ih (add_vector A s v st).2.1 (add_vector A s v st).2.2
      rw [List.foldl_cons]
      rw [show (match ((.ok () : Except PyErr Unit), s, st).1 with
        | .error _ => ((.ok () : Except PyErr Unit), s, st)
        | .ok _ => add_vector A s v st) = add_vector A s v st from rfl]
      rw [hsplit]
      refine ⟨by rw [ihb, hb], fun _ => ?_, ?_⟩
      · cases hrest : rest with
        | nil =>
          subst hrest
          exact hf
        | cons w ws =>
          subst hrest
          exact ihf (by simp)
      · intro hok
        rw [ihl hok, hl (by rw [hav])]
        simp [Nat.add_assoc, Nat.add_comm 1 rest.length]

/-- C9: a store constructed with a non-empty initial vector list goes
through `add_vector`, which keeps the accepted-basis list empty, stacks one
matrix row per vector without independence filtering, and clears the echelon
flag, so every subsequent `extend` fails its precondition assertion and
leaves the state unchanged; `extend` itself never changes the flag, and the
vector-free constructor starts with the flag set. -/
theorem mkMatrixOfVectors_not_echelon {V κ : Type} [DecidableEq κ]
    (A : Ambient V κ) (vs : List V) (st : Stats) (hne : vs ≠ []) :
    (mkMatrixOfVectors A vs st).2.1.isEchelon = false ∧
    (mkMatrixOfVectors A vs st).2.1.basis = [] ∧
    ((mkMatrixOfVectors A vs st).1 = .ok () →
      (mkMatrixOfVectors A vs st).2.1.mat.length = vs.length) ∧
    (∀ (v : V) (st2 : Stats),
      extend A (mkMatrixOfVectors A vs st).2.1 v st2
        = (.error .notEchelon, (mkMatrixOfVectors A vs st).2.1,
          ⟨st2.add_vector, st2.extend + 1, st2.dimension⟩)) ∧
    (∀ (s : MatrixOfVectors V κ) (v : V) (st2 : Stats),
      (extend A s v st2).2.1.isEchelon = s.isEchelon) ∧
    (MatrixOfVectors.empty V κ).isEchelon = true := by
  obtain ⟨hb, hf, hl⟩ := mk_fold_spec A vs (MatrixOfVectors.empty V κ) st
  have hflag : (mkMatrixOfVectors A vs st).2.1.isEchelon = false := hf hne
  refine ⟨hflag, hb, ?_, ?_, extend_preserves_flag A, rfl⟩
  · intro hok
    have h2 := hl hok
    rw [show (MatrixOfVectors.empty V κ).mat.length = 0 from rfl] at h2
    rw [show (0 : ℕ) + vs.length = vs.length from by omega] at h2
    exact h2
  · intro v st2
    exact extend_notEchelon A _ hflag v st2

/-- C9 witness: constructing with one initial vector breaks the precondition. -/
theorem mkMatrixOfVectors_not_echelon_witness :
    ([[(0, (1 : ℚ))]] : List (List (ℕ × ℚ))) ≠ [] ∧
    ((mkMatrixOfVectors witAmb [[(0, (1 : ℚ))]] ⟨0, 0, 0⟩).2.1.isEchelon = false ∧
      (mkMatrixOfVectors witAmb [[(0, (1 : ℚ))]] ⟨0, 0, 0⟩).2.1.basis = [] ∧
      ((mkMatrixOfVectors witAmb [[(0, (1 : ℚ))]] ⟨0, 0, 0⟩).1 = .ok () →
        (mkMatrixOfVectors witAmb [[(0, (1 : ℚ))]] ⟨0, 0, 0⟩).2.1.mat.length
          = ([[(0, (1 : ℚ))]] : List (List (ℕ × ℚ))).length) ∧
      (∀ (v : List (ℕ × ℚ)) (st2 : Stats),
        extend witAmb (mkMatrixOfVectors witAmb [[(0, (1 : ℚ))]] ⟨0, 0, 0⟩).2.1 v st2
          = (.error .notEchelon,
            (mkMatrixOfVectors witAmb [[(0, (1 : ℚ))]] ⟨0, 0, 0⟩).2.1,
            ⟨st2.add_vector, st2.extend + 1, st2.dimension⟩)) ∧
      (∀ (s : MatrixOfVectors (List (ℕ × ℚ)) ℕ) (v : List (ℕ × ℚ)) (st2 : Stats),
        (extend witAmb s v st2).2.1.isEchelon = s.isEchelon) ∧
      (MatrixOfVectors.empty (List (ℕ × ℚ)) ℕ).isEchelon = true) :=
  ⟨by simp,
    mkMatrixOfVectors_not_echelon witAmb [[(0, (1 : ℚ))]] ⟨0, 0, 0⟩ (by simp)⟩

/-- C10: a vector whose decomposition ranks a fresh key is always accepted
by `extend` on a well-formed store, and a rejected `extend` leaves the whole
store (in particular the ranker's key set and the matrix width) unchanged. -/
theorem extend_fresh_key_accepts {V κ : Type} [DecidableEq κ] {A : Ambient V κ}
    (hA : AmbWF A) {s : MatrixOfVectors V κ} (hWF : EchWF A s) {v : V}
    (hv : A.isParentOf v = true) (st : Stats) :
    ((∃ p ∈ A.items v, p.1 ∉ s.keys) →
      ∃ s2 st2, extend A s v st = (.ok true, s2, st2)) ∧
    (∀ s2 st2, extend A s v st = (.ok false, s2, st2) →
      s2 = s ∧ s2.keys = s.keys ∧ s2.ncols = s.ncols) := by
  obtain ⟨b, s2, heq, hiff, hWF2, hkeys, hsupp, hbasis, hcard, hspan, hrej⟩ :=
    extend_spec hA hWF hv st
  constructor
  · rintro ⟨p, hp, hpnot⟩
    have hcoordval : coordFn A v p.1 = p.2 := coordFn_item (hA v hv).1 (by
      rw [show (p.1, p.2) = p from rfl]; exact hp)
    have hcne : coordFn A v p.1 ≠ 0 := by
      rw [hcoordval]
      exact (hA v hv).2 p hp
    have hnotin : coordFn A v ∉ ambSpan A s.basis := by
      intro hmem
      exact hpnot (ambSpan_le_suppIn hWF.basisSupp hmem p.1 hcne)
    have hb : b = true := hiff.2 hnotin
    subst hb
    exact ⟨s2, _, heq⟩
  · intro s2b st2b heq2
    rw [heq] at heq2
    have hb : b = false := by
      have h1 := congrArg Prod.fst heq2
      simp only at h1
      cases b with
      | true => exact absurd h1 (by simp)
      | false => rfl
    have hs : s2 = s2b := by
      have h2 := congrArg (fun x => x.2.1) heq2
      simpa using h2
    rw [← hs, hrej hb]
    exact ⟨rfl, rfl, rfl⟩

/-- C10 witness: a fresh key is accepted into the empty store. -/
theorem extend_fresh_key_accepts_witness :
    AmbWF witAmb ∧ EchWF witAmb (MatrixOfVectors.empty (List (ℕ × ℚ)) ℕ) ∧
    witAmb.isParentOf [(0, (1 : ℚ))] = true ∧
    (((∃ p ∈ witAmb.items [(0, (1 : ℚ))],
        p.1 ∉ (MatrixOfVectors.empty (List (ℕ × ℚ)) ℕ).keys) →
      ∃ s2 st2, extend witAmb (MatrixOfVectors.empty (List (ℕ × ℚ)) ℕ)
        [(0, (1 : ℚ))] ⟨0, 0, 0⟩ = (.ok true, s2, st2)) ∧
    (∀ s2 st2, extend witAmb (MatrixOfVectors.empty (List (ℕ × ℚ)) ℕ)
        [(0, (1 : ℚ))] ⟨0, 0, 0⟩ = (.ok false, s2, st2) →
      s2 = MatrixOfVectors.empty (List (ℕ × ℚ)) ℕ ∧
      s2.keys = (MatrixOfVectors.empty (List (ℕ × ℚ)) ℕ).keys ∧
      s2.ncols = (MatrixOfVectors.empty (List (ℕ × ℚ)) ℕ).ncols)) :=
  ⟨witAmb_wf, echWF_empty witAmb, by decide,
    extend_fresh_key_accepts witAmb_wf (echWF_empty witAmb) (by decide) ⟨0, 0, 0⟩⟩

theorem ambSpan_cons {V κ : Type} [DecidableEq κ] (A : Ambient V κ) (v : V)
    (bs : List V) :
    ambSpan A (v :: bs) = Submodule.span ℚ {coordFn A v} ⊔ ambSpan A bs := by
  unfold ambSpan
  rw [← Submodule.span_union]
  congr 1
  ext f
  constructor
  · rintro ⟨u, hu, rfl⟩
    rcases List.mem_cons.1 hu with h | h
    · subst h; exact Set.mem_union_left _ rfl
    · exact Set.mem_union_right _ ⟨u, h, rfl⟩
  · intro hf
    rcases (Set.mem_union f _ _).1 hf with h | h
    · rw [Set.mem_singleton_iff.1 h]
      exact ⟨v, List.mem_cons_self _ _, rfl⟩
    · obtain ⟨u, hu, rfl⟩ := h
      exact ⟨u, List.mem_cons_of_mem _ hu, rfl⟩

theorem ambSpan_perm {V κ : Type} [DecidableEq κ] (A : Ambient V κ)
    {vs vs2 : List V} (h : vs.Perm vs2) : ambSpan A vs = ambSpan A vs2 := by
  unfold ambSpan
  congr 1
  ext f
  constructor
  · rintro ⟨u, hu, rfl⟩
    exact ⟨u, h.mem_iff.1 hu, rfl⟩
  · rintro ⟨u, hu, rfl⟩
    exact ⟨u, h.mem_iff.2 hu, rfl⟩

/-- Feeding a vector list through `extend` on a well-formed store succeeds,
preserves the invariant, appends exactly the accepted sublist to the basis,
and grows the basis span by the span of the whole fed list. -/
theorem extendList_spec {V κ : Type} [DecidableEq κ] {A : Ambient V κ}
    (hA : AmbWF A) :
    ∀ (vs : List V) (s : MatrixOfVectors V κ) (st : Stats), EchWF A s →
      (∀ v ∈ vs, A.isParentOf v = true) →
      ∃ res s2 st2, extendList A s vs st = (.ok res, s2, st2) ∧
        EchWF A s2 ∧
        s2.basis = s.basis ++ res ∧
        (∀ v ∈ res, v ∈ vs) ∧
        (∃ ext, s2.keys = s.keys ++ ext) ∧
        ambSpan A s2.basis = ambSpan A s.basis ⊔ ambSpan A vs := by
  intro vs
  induction vs with
  | nil =>
    intro s st hWF hall
    refine ⟨[], s, st, rfl, hWF, by simp, by simp, ⟨[], by simp⟩, ?_⟩
    rw [ambSpan_nil, sup_bot_eq]
  | cons v rest ih =>
    intro s st hWF hall
    obtain ⟨b, s2, heq, hiff, hWF2, hkeys, hsupp, hbasis, hcard, hspan, hrej⟩ :=
      extend_spec hA hWF (hall v (List.mem_cons_self _ _)) st
    obtain ⟨res2, s3, st3, heq2, hWF3, hbasis3, hmem3, hkeys3, hspan3⟩ :=
      ih s2 _ hWF2 (fun u hu => hall u (List.mem_cons_of_mem _ hu))
    have hstep : extendList A s (v :: rest) st =
        (.ok (if b then v :: res2 else res2), s3, st3) := by
      unfold extendList
      rw [heq]
      dsimp only
      rw [heq2]
    obtain ⟨ext1, hk1⟩ := hkeys
    obtain ⟨ext2, hk2⟩ := hkeys3
    refine ⟨if b then v :: res2 else res2, s3, st3, hstep, hWF3, ?_, ?_,
      ⟨ext1 ++ ext2, by rw [hk2, hk1, List.append_assoc]⟩, ?_⟩
    · rw [hbasis3, hbasis]
      cases b with
      | true => simp
      | false => simp
    · intro u hu
      cases b with
      | true =>
        simp only [if_pos] at hu
        rcases List.mem_cons.1 hu with h | h
        · subst h; exact List.mem_cons_self _ _
        · exact List.mem_cons_of_mem _ (hmem3 u h)
      | false =>
        simp only [Bool.false_eq_true, if_false] at hu
        exact List.mem_cons_of_mem _ (hmem3 u hu)
    · rw [hspan3, hspan, ambSpan_cons]
      cases b with
      | true =>
        rw [if_pos rfl]
        rw [sup_assoc]
      | false =>
        simp only [Bool.false_eq_true, if_false]
        have hvin : Submodule.span ℚ {coordFn A v} ≤ ambSpan A s.basis := by
          rw [Submodule.span_singleton_le_iff_mem]
          by_contra hnot
          have := hiff.2 hnot
          simp at this
        rw [← sup_assoc, sup_eq_left.2 hvin]

/-- C4: feeding a finite vector list through `extend` into an initially
empty echelon store yields `cardinality` equal to the dimension of the span
of the list, and the cardinality agrees for any permutation of the list. -/
theorem extendList_cardinality_perm {V κ : Type} [DecidableEq κ]
    {A : Ambient V κ} (hA : AmbWF A) (vs vs2 : List V) (hperm : vs.Perm vs2)
    (hall : ∀ v ∈ vs, A.isParentOf v = true) (st st2 : Stats) :
    ∃ res s2 st3, extendList A (MatrixOfVectors.empty V κ) vs st
        = (.ok res, s2, st3) ∧
      cardinality s2 = Module.finrank ℚ (ambSpan A vs) ∧
      ∃ res2 s3 st4, extendList A (MatrixOfVectors.empty V κ) vs2 st2
          = (.ok res2, s3, st4) ∧
        cardinality s3 = cardinality s2 := by
  obtain ⟨res, s2, st3, heq, hWF2, hbasis, hmem, hkeys, hspan⟩ :=
    extendList_spec hA vs (MatrixOfVectors.empty V κ) st (echWF_empty A) hall
  obtain ⟨res2, s3, st4, heq2, hWF3, hbasis2, hmem2, hkeys2, hspan2⟩ :=
    extendList_spec hA vs2 (MatrixOfVectors.empty V κ) st2 (echWF_empty A)
      (fun v hv => hall v (hperm.mem_iff.2 hv))
  have hcard2 : cardinality s2 = Module.finrank ℚ (ambSpan A vs) := by
    rw [cardinality_eq_finrank hWF2, hspan]
    rw [show (MatrixOfVectors.empty V κ).basis = ([] : List V) from rfl]
    rw [ambSpan_nil, bot_sup_eq]
  refine ⟨res, s2, st3, heq, hcard2, res2, s3, st4, heq2, ?_⟩
  rw [cardinality_eq_finrank hWF3, hspan2]
  rw [show (MatrixOfVectors.empty V κ).basis = ([] : List V) from rfl]
  rw [ambSpan_nil, bot_sup_eq, ← ambSpan_perm A hperm, hcard2]

/-- C4 witness: three vectors in two insertion orders, two of them parallel. -/
theorem extendList_cardinality_perm_witness :
    ([[(0, (1 : ℚ))], [(0, (2 : ℚ))], [(1, (1 : ℚ))]] :
        List (List (ℕ × ℚ))).Perm
      [[(1, (1 : ℚ))], [(0, (2 : ℚ))], [(0, (1 : ℚ))]] ∧
    (∀ v ∈ ([[(0, (1 : ℚ))], [(0, (2 : ℚ))], [(1, (1 : ℚ))]] :
        List (List (ℕ × ℚ))), witAmb.isParentOf v = true) ∧
    (∃ res s2 st3, extendList witAmb (MatrixOfVectors.empty (List (ℕ × ℚ)) ℕ)
        [[(0, (1 : ℚ))], [(0, (2 : ℚ))], [(1, (1 : ℚ))]] ⟨0, 0, 0⟩
        = (.ok res, s2, st3) ∧
      cardinality s2 = Module.finrank ℚ
        (ambSpan witAmb [[(0, (1 : ℚ))], [(0, (2 : ℚ))], [(1, (1 : ℚ))]]) ∧
      ∃ res2 s3 st4, extendList witAmb (MatrixOfVectors.empty (List (ℕ × ℚ)) ℕ)
          [[(1, (1 : ℚ))], [(0, (2 : ℚ))], [(0, (1 : ℚ))]] ⟨0, 0, 1⟩
          = (.ok res2, s3, st4) ∧
        cardinality s3 = cardinality s2) :=
  ⟨by decide, by decide,
    extendList_cardinality_perm witAmb_wf _ _ (by decide) (by decide)
      ⟨0, 0, 0⟩ ⟨0, 0, 1⟩⟩

/-! Facts about the degree-keyed dictionaries and the worklist. -/

theorem lookupD_mem {D β : Type} [DecidableEq D] {l : List (D × β)} {d : D} {b : β}
    (h : lookupD l d = some b) : (d, b) ∈ l := by
  induction l with
  | nil => exact absurd h (by simp [lookupD])
  | cons p t ih =>
    by_cases hpd : p.1 = d
    · rw [show lookupD (p :: t) d = some p.2 from by simp [lookupD, hpd]] at h
      have hb : p.2 = b := by simpa using h
      have : p = (d, b) := by
        cases p
        simp only at hpd hb
        rw [hpd, hb]
      rw [← this]
      exact List.mem_cons_self _ _
    · rw [show lookupD (p :: t) d = lookupD t d from by simp [lookupD, hpd]] at h
      exact List.mem_cons_of_mem _ (ih h)

theorem lookupD_of_mem {D β : Type} [DecidableEq D] {l : List (D × β)}
    (hnd : (l.map Prod.fst).Nodup) {p : D × β} (hp : p ∈ l) :
    lookupD l p.1 = some p.2 := by
  induction l with
  | nil => simp at hp
  | cons q t ih =>
    rcases List.mem_cons.1 hp with h | h
    · subst h
      simp [lookupD]
    · have hqp : q.1 ≠ p.1 := by
        intro hcontra
        have := (List.nodup_cons.1 hnd).1
        apply this
        rw [hcontra]
        exact List.mem_map_of_mem Prod.fst h
      rw [show lookupD (q :: t) p.1 = lookupD t p.1 from by simp [lookupD, hqp]]
      exact ih (List.nodup_cons.1 hnd).2 h

theorem lookupD_none_iff {D β : Type} [DecidableEq D] {l : List (D × β)} {d : D} :
    lookupD l d = none ↔ d ∉ l.map Prod.fst := by
  induction l with
  | nil => simp [lookupD]
  | cons p t ih =>
    by_cases hpd : p.1 = d
    · rw [show lookupD (p :: t) d = some p.2 from by simp [lookupD, hpd]]
      simp [hpd]
    · rw [show lookupD (p :: t) d = lookupD t d from by simp [lookupD, hpd]]
      rw [ih]
      simp only [List.map_cons, List.mem_cons]
      constructor
      · intro hn hc
        rcases hc with hc | hc
        · exact hpd hc.symm
        · exact hn hc
      · intro hn hc
        exact hn (Or.inr hc)

theorem lookupD_append_left {D β : Type} [DecidableEq D] {l t : List (D × β)}
    {d : D} {b : β} (h : lookupD l d = some b) :
    lookupD (l ++ t) d = some b := by
  induction l with
  | nil => exact absurd h (by simp [lookupD])
  | cons p r ih =>
    by_cases hpd : p.1 = d
    · rw [show lookupD (p :: r) d = some p.2 from by simp [lookupD, hpd]] at h
      rw [List.cons_append]
      rw [show lookupD (p :: (r ++ t)) d = some p.2 from by simp [lookupD, hpd]]
      exact h
    · rw [show lookupD (p :: r) d = lookupD r d from by simp [lookupD, hpd]] at h
      rw [List.cons_append]
      rw [show lookupD (p :: (r ++ t)) d = lookupD (r ++ t) d from by
        simp [lookupD, hpd]]
      exact ih h

theorem lookupD_append_right {D β : Type} [DecidableEq D] {l t : List (D × β)}
    {d : D} (h : d ∉ l.map Prod.fst) :
    lookupD (l ++ t) d = lookupD t d := by
  induction l with
  | nil => rfl
  | cons p r ih =>
    have hpd : p.1 ≠ d := by
      intro hcontra
      exact h (by rw [← hcontra]; exact List.mem_map_of_mem Prod.fst (List.mem_cons_self _ _))
    rw [List.cons_append]
    rw [show lookupD (p :: (r ++ t)) d = lookupD (r ++ t) d from by simp [lookupD, hpd]]
    exact ih (fun hmem => h (by
      obtain ⟨q, hq, hq2⟩ := List.mem_map.1 hmem
      exact List.mem_map.2 ⟨q, List.mem_cons_of_mem _ hq, hq2⟩))

theorem updateD_lookup_self {D β : Type} [DecidableEq D] (l : List (D × β))
    (d : D) (b : β) : lookupD (updateD l d b) d = some b := by
  induction l with
  | nil => simp [updateD, lookupD]
  | cons p t ih =>
    by_cases hpd : p.1 = d
    · rw [show updateD (p :: t) d b = (d, b) :: t from by simp [updateD, hpd]]
      simp [lookupD]
    · rw [show updateD (p :: t) d b = p :: updateD t d b from by simp [updateD, hpd]]
      rw [show lookupD (p :: updateD t d b) d = lookupD (updateD t d b) d from by
        simp [lookupD, hpd]]
      exact ih

theorem updateD_lookup_other {D β : Type} [DecidableEq D] (l : List (D × β))
    (d : D) (b : β) {d2 : D} (h : d2 ≠ d) :
    lookupD (updateD l d b) d2 = lookupD l d2 := by
  induction l with
  | nil =>
    have hdd : ¬ d = d2 := fun hc => h hc.symm
    simp [updateD, lookupD, hdd]
  | cons p t ih =>
    by_cases hpd : p.1 = d
    · rw [show updateD (p :: t) d b = (d, b) :: t from by simp [updateD, hpd]]
      have hdd : ¬ d = d2 := fun hc => h hc.symm
      rw [show lookupD ((d, b) :: t) d2 = lookupD t d2 from by simp [lookupD, hdd]]
      have hpd2 : ¬ p.1 = d2 := by rw [hpd]; exact hdd
      rw [show lookupD (p :: t) d2 = lookupD t d2 from by simp [lookupD, hpd2]]
    · rw [show updateD (p :: t) d b = p :: updateD t d b from by simp [updateD, hpd]]
      by_cases hpd2 : p.1 = d2
      · rw [show lookupD (p :: updateD t d b) d2 = some p.2 from by simp [lookupD, hpd2]]
        rw [show lookupD (p :: t) d2 = some p.2 from by simp [lookupD, hpd2]]
      · rw [show lookupD (p :: updateD t d b) d2 = lookupD (updateD t d b) d2 from by
          simp [lookupD, hpd2]]
        rw [show lookupD (p :: t) d2 = lookupD t d2 from by simp [lookupD, hpd2]]
        exact ih

theorem updateD_keys_mem {D β : Type} [DecidableEq D] {l : List (D × β)} {d : D}
    (b : β) (h : d ∈ l.map Prod.fst) :
    (updateD l d b).map Prod.fst = l.map Prod.fst := by
  induction l with
  | nil => simp at h
  | cons p t ih =>
    by_cases hpd : p.1 = d
    · rw [show updateD (p :: t) d b = (d, b) :: t from by simp [updateD, hpd]]
      simp [hpd]
    · rw [show updateD (p :: t) d b = p :: updateD t d b from by simp [updateD, hpd]]
      have hdt : d ∈ t.map Prod.fst := by
        rcases List.mem_map.1 h with ⟨q, hq, hq2⟩
        rcases List.mem_cons.1 hq with h2 | h2
        · subst h2; exact absurd hq2 hpd
        · exact List.mem_map.2 ⟨q, h2, hq2⟩
      simp only [List.map_cons]
      rw [ih hdt]

theorem updateD_keys_new {D β : Type} [DecidableEq D] {l : List (D × β)} {d : D}
    (b : β) (h : d ∉ l.map Prod.fst) :
    (updateD l d b).map Prod.fst = l.map Prod.fst ++ [d] := by
  induction l with
  | nil => simp [updateD]
  | cons p t ih =>
    have hpd : p.1 ≠ d := by
      intro hcontra
      exact h (by rw [← hcontra]; exact List.mem_map_of_mem Prod.fst (List.mem_cons_self _ _))
    rw [show updateD (p :: t) d b = p :: updateD t d b from by simp [updateD, hpd]]
    simp only [List.map_cons, List.cons_append]
    rw [ih (fun hmem => h (by
      obtain ⟨q, hq, hq2⟩ := List.mem_map.1 hmem
      exact List.mem_map.2 ⟨q, List.mem_cons_of_mem _ hq, hq2⟩))]

theorem updateD_mem_of_nodup {D β : Type} [DecidableEq D] {l : List (D × β)}
    (hnd : (l.map Prod.fst).Nodup) {d : D} {b : β} {p : D × β}
    (hp : p ∈ updateD l d b) : p = (d, b) ∨ (p ∈ l ∧ p.1 ≠ d) := by
  induction l with
  | nil =>
    rw [show updateD ([] : List (D × β)) d b = [(d, b)] from rfl] at hp
    exact Or.inl (List.mem_singleton.1 hp)
  | cons q t ih =>
    by_cases hqd : q.1 = d
    · rw [show updateD (q :: t) d b = (d, b) :: t from by simp [updateD, hqd]] at hp
      rcases List.mem_cons.1 hp with h | h
      · exact Or.inl h
      · refine Or.inr ⟨List.mem_cons_of_mem _ h, ?_⟩
        intro hcontra
        have hqt := (List.nodup_cons.1 hnd).1
        apply hqt
        rw [hqd, ← hcontra]
        exact List.mem_map_of_mem Prod.fst h
    · rw [show updateD (q :: t) d b = q :: updateD t d b from by simp [updateD, hqd]] at hp
      rcases List.mem_cons.1 hp with h | h
      · subst h
        exact Or.inr ⟨List.mem_cons_self _ _, hqd⟩
      · rcases ih (List.nodup_cons.1 hnd).2 h with h2 | h2
        · exact Or.inl h2
        · exact Or.inr ⟨List.mem_cons_of_mem _ h2.1, h2.2⟩

theorem lookupD_map_keyed {D β γ : Type} [DecidableEq D] (l : List (D × β))
    (g : D × β → γ) (d : D) :
    lookupD (l.map (fun p => (p.1, g p))) d
      = Option.map (fun b => g (d, b)) (lookupD l d) := by
  induction l with
  | nil => rfl
  | cons p t ih =>
    by_cases hpd : p.1 = d
    · rw [List.map_cons]
      rw [show lookupD ((p.1, g p) :: t.map (fun p => (p.1, g p))) d
          = some (g p) from by simp [lookupD, hpd]]
      rw [show lookupD (p :: t) d = some p.2 from by simp [lookupD, hpd]]
      show some (g p) = some (g (d, p.2))
      rw [show (d, p.2) = p from by cases p; simp only at hpd; rw [hpd]]
    · rw [List.map_cons]
      rw [show lookupD ((p.1, g p) :: t.map (fun p => (p.1, g p))) d
          = lookupD (t.map (fun p => (p.1, g p))) d from by simp [lookupD, hpd]]
      rw [show lookupD (p :: t) d = lookupD t d from by simp [lookupD, hpd]]
      exact ih

theorem todoFn_eq {V D : Type} (ops : List (D × List (V → V)))
    (addDeg : D → D → Except PyErr D) (todo : List (V × D × (V → V)))
    (d1 : D) (vs : List V) :
    todoFn ops addDeg todo d1 vs = todo ++ validItems ops addDeg d1 vs := by
  unfold todoFn validItems
  induction ops generalizing todo with
  | nil => simp
  | cons p rest ih =>
    rw [List.foldl_cons, List.flatMap_cons]
    cases hd : addDeg d1 p.1 with
    | error e =>
      dsimp only
      rw [ih todo]
      simp
    | ok d3 =>
      dsimp only
      rw [ih (todo ++ vs.flatMap (fun v => p.2.map (fun op => (v, d3, op))))]
      rw [List.append_assoc]

theorem validItems_mem {V D : Type} {ops : List (D × List (V → V))}
    {addDeg : D → D → Except PyErr D} {d1 : D} {vs : List V}
    {it : V × D × (V → V)} :
    it ∈ validItems ops addDeg d1 vs ↔
      ∃ d2 opsl, (d2, opsl) ∈ ops ∧ it.2.2 ∈ opsl ∧
        addDeg d1 d2 = .ok it.2.1 ∧ it.1 ∈ vs := by
  unfold validItems
  rw [List.mem_flatMap]
  constructor
  · rintro ⟨p, hp, hit⟩
    cases hd : addDeg d1 p.1 with
    | error e =>
      rw [hd] at hit
      simp at hit
    | ok d3 =>
      rw [hd] at hit
      simp only at hit
      obtain ⟨v, hv, hit2⟩ := List.mem_flatMap.1 hit
      obtain ⟨op, hop, hit3⟩ := List.mem_map.1 hit2
      refine ⟨p.1, p.2, by rw [show (p.1, p.2) = p from rfl]; exact hp, ?_, ?_, ?_⟩
      · rw [← hit3]
        exact hop
      · rw [← hit3, hd]
      · rw [← hit3]
        exact hv
  · rintro ⟨d2, opsl, hmem, hop, hd3, hv⟩
    refine ⟨(d2, opsl), hmem, ?_⟩
    rw [show addDeg d1 (d2, opsl).1 = .ok it.2.1 from hd3]
    simp only
    refine List.mem_flatMap.2 ⟨it.1, hv, ?_⟩
    refine List.mem_map.2 ⟨it.2.2, hop, ?_⟩
    rfl

theorem extend_error_cases {V κ : Type} [DecidableEq κ] (A : Ambient V κ)
    (s : MatrixOfVectors V κ) (v : V) (st : Stats) {e : PyErr}
    (h : (extend A s v st).1 = .error e) :
    e = .ambientMismatch ∨ e = .notEchelon := by
  unfold extend at h
  dsimp only at h
  by_cases hech : s.isEchelon = false
  · rw [if_pos hech] at h
    simp only at h
    refine Or.inr ?_
    have h2 : PyErr.notEchelon = e := by simpa using h
    exact h2.symm
  · rw [if_neg hech] at h
    cases hpv : plain_vector A s.keys v with
    | error e2 =>
      rw [hpv] at h
      have he2 : e2 = .ambientMismatch := by
        unfold plain_vector at hpv
        by_cases hp : A.isParentOf v = false
        · rw [if_pos hp] at hpv
          have h4 : PyErr.ambientMismatch = e2 := by simpa using hpv
          exact h4.symm
        · rw [if_neg hp] at hpv
          simp at hpv
      simp only at h
      have he : e = e2 := by simpa using h.symm
      exact Or.inl (he.trans he2)
    | ok rk =>
      rw [hpv] at h
      dsimp only at h
      by_cases hnz : isNZRow (lastRow (echelonize
          (addVectorToMatrix s.mat s.ncols rk.1).1)) = true
      · rw [if_pos hnz] at h
        simp at h
      · rw [if_neg hnz] at h
        simp at h

theorem lookupD_isSome_of_mem_keys {D β : Type} [DecidableEq D] {l : List (D × β)}
    {d : D} (h : d ∈ l.map Prod.fst) : ∃ b, lookupD l d = some b := by
  cases hl : lookupD l d with
  | none => exact absurd (lookupD_none_iff.1 hl) (by simpa using h)
  | some b => exact ⟨b, rfl⟩

/-- Induction workhorse for `Subspace.__init__`: processing the remaining
generator table entries from a state that satisfies the invariant for the
processed prefix yields, on success, the full drain-loop invariant. -/
theorem initBuckets_spec {V κ D : Type} [DecidableEq κ] [DecidableEq D]
    {A : Ambient V κ} (hA : AmbWF A) {gens : List (D × List V)}
    {ops : List (D × List (V → V))} {addDeg : D → D → Except PyErr D}
    {Lop : (V → V) → ((κ → ℚ) →ₗ[ℚ] (κ → ℚ))} (hOps : OpsWF A ops Lop)
    (hgpar : ∀ p ∈ gens, ∀ v ∈ p.2, A.isParentOf v = true)
    (hgnd : (gens.map Prod.fst).Nodup) :
    ∀ (rem done : List (D × List V)) (st : SubState V κ D),
      done ++ rem = gens →
      st.bases.map Prod.fst = done.map Prod.fst →
      (∀ p ∈ st.bases, EchWF A p.2) →
      (∀ p ∈ done, ∀ v ∈ p.2, coordFn A v ∈ bucketSpan A st p.1) →
      (∀ p ∈ st.bases, ∀ v ∈ p.2.basis,
        Reach A gens ops addDeg Lop p.1 (coordFn A v)) →
      (∀ it ∈ st.todo, A.isParentOf it.1 = true) →
      (∀ it ∈ st.todo, ∃ d1 d2 opsl, (d2, opsl) ∈ ops ∧ it.2.2 ∈ opsl ∧
        addDeg d1 d2 = .ok it.2.1 ∧
        Reach A gens ops addDeg Lop d1 (coordFn A it.1) ∧ coordFn A it.1 ≠ 0) →
      (∀ p ∈ st.bases, ∀ v ∈ p.2.basis, ∀ q ∈ ops, ∀ op ∈ q.2, ∀ d3,
        addDeg p.1 q.1 = .ok d3 → (v, d3, op) ∈ st.todo ∨
          (∃ bk, lookupD st.bases d3 = some bk ∧
            coordFn A (op v) ∈ ambSpan A bk.basis)) →
      (initBuckets A ops addDeg rem st).1 = .ok () →
      SubInv A gens ops addDeg Lop (initBuckets A ops addDeg rem st).2 := by
  intro rem
  induction rem with
  | nil =>
    intro done st hsplit hkeys hWF hcov hsound htp htj hobl hok
    have hdone : done = gens := by simpa using hsplit
    subst hdone
    show SubInv A done ops addDeg Lop st
    refine ⟨hWF, ?_, ?_, hcov, hsound, htp, htj, hobl, ?_⟩
    · rw [hkeys]
      exact hgnd
    · intro p hp
      rw [hkeys]
      exact List.mem_map_of_mem Prod.fst hp
    · intro p hp
      refine Or.inl ?_
      rw [← hkeys]
      exact List.mem_map_of_mem Prod.fst hp
  | cons dg rest ih =>
    intro done st hsplit hkeys hWF hcov hsound htp htj hobl hok
    obtain ⟨d, gs⟩ := dg
    have hmemg : (d, gs) ∈ gens := by
      rw [← hsplit]
      exact List.mem_append_right _ (List.mem_cons_self _ _)
    have hgspar : ∀ v ∈ gs, A.isParentOf v = true := hgpar (d, gs) hmemg
    obtain ⟨accepted, basisSt, st2, heqEL, hWFb, hbasisb, hmemb, hkeysb, hspanb⟩ :=
      extendList_spec hA gs (MatrixOfVectors.empty V κ) st.stats
        (echWF_empty A) hgspar
    have hstep : initBuckets A ops addDeg ((d, gs) :: rest) st =
        initBuckets A ops addDeg rest
          { st with
            bases := st.bases ++ [(d, basisSt)]
            todo := todoFn ops addDeg st.todo d accepted
            stats := st2 } := by
      show (match extendList A (MatrixOfVectors.empty V κ) gs st.stats with
        | (Except.error e, _, st2) => (Except.error e, { st with stats := st2 })
        | (Except.ok accepted, basis, st2) =>
          initBuckets A ops addDeg rest
            { st with
              bases := st.bases ++ [(d, basis)]
              todo := todoFn ops addDeg st.todo d accepted
              stats := st2 }) = _
      rw [heqEL]
    rw [hstep] at hok ⊢
    set stN : SubState V κ D :=
      { st with
        bases := st.bases ++ [(d, basisSt)]
        todo := todoFn ops addDeg st.todo d accepted
        stats := st2 } with hstN
    have hgkeys : gens.map Prod.fst = done.map Prod.fst ++ d :: rest.map Prod.fst := by
      rw [← hsplit]
      simp
    have hdnotdone : d ∉ done.map Prod.fst := by
      rw [hgkeys] at hgnd
      rw [List.nodup_append] at hgnd
      have hdisj := hgnd.2.2
      rw [List.disjoint_left] at hdisj
      intro hmem
      exact hdisj hmem (List.mem_cons_self _ _)
    have hdnotbases : d ∉ st.bases.map Prod.fst := by
      rw [hkeys]
      exact hdnotdone
    have hbasisb2 : basisSt.basis = accepted := by
      rw [hbasisb]
      rfl
    have hspangs : ambSpan A basisSt.basis = ambSpan A gs := by
      rw [hspanb]
      rw [show (MatrixOfVectors.empty V κ).basis = ([] : List V) from rfl]
      rw [ambSpan_nil, bot_sup_eq]
    have hlookupN : lookupD stN.bases d = some basisSt := by
      rw [hstN]
      rw [show ({ st with
        bases := st.bases ++ [(d, basisSt)]
        todo := todoFn ops addDeg st.todo d accepted
        stats := st2 } : SubState V κ D).bases = st.bases ++ [(d, basisSt)] from rfl]
      rw [lookupD_append_right hdnotbases]
      simp [lookupD]
    have htodoN : stN.todo = st.todo ++ validItems ops addDeg d accepted := by
      rw [hstN]
      exact todoFn_eq ops addDeg st.todo d accepted
    refine ih (done ++ [(d, gs)]) stN ?_ ?_ ?_ ?_ ?_ ?_ ?_ ?_ hok
    · rw [List.append_assoc]
      simpa using hsplit
    · rw [hstN]
      show (st.bases ++ [(d, basisSt)]).map Prod.fst = (done ++ [(d, gs)]).map Prod.fst
      simp only [List.map_append]
      rw [hkeys]
      rfl
    · intro p hp
      rcases List.mem_append.1 hp with h | h
      · exact hWF p h
      · rw [List.mem_singleton.1 h]
        exact hWFb
    · intro p hp v hv
      rcases List.mem_append.1 hp with h | h
      · have hold := hcov p h v hv
        have hpin : p.1 ∈ st.bases.map Prod.fst := by
          rw [hkeys]
          exact List.mem_map_of_mem Prod.fst h
        obtain ⟨bk, hbk⟩ := lookupD_isSome_of_mem_keys hpin
        have hbk2 : lookupD stN.bases p.1 = some bk := by
          rw [hstN]
          exact lookupD_append_left hbk
        unfold bucketSpan at hold ⊢
        rw [hbk] at hold
        rw [hbk2]
        exact hold
      · rw [List.mem_singleton.1 h] at hv ⊢
        show coordFn A v ∈ bucketSpan A stN d
        unfold bucketSpan
        rw [hlookupN]
        show coordFn A v ∈ ambSpan A basisSt.basis
        rw [hspangs]
        exact Submodule.subset_span ⟨v, hv, rfl⟩
    · intro p hp v hv
      rcases List.mem_append.1 hp with h | h
      · exact hsound p h v hv
      · rw [List.mem_singleton.1 h] at hv
        simp only at hv
        rw [hbasisb2] at hv
        have : v ∈ gs := hmemb v hv
        rw [List.mem_singleton.1 h]
        exact Reach.gen hmemg this
    · intro it hit
      rw [htodoN] at hit
      rcases List.mem_append.1 hit with h | h
      · exact htp it h
      · obtain ⟨d2, opsl, hmem2, hop2, hd32, hv2⟩ := validItems_mem.1 h
        exact hgspar it.1 (hmemb it.1 (by rw [← hbasisb2]; exact (by rw [hbasisb2]; exact hv2)))
    · intro it hit
      rw [htodoN] at hit
      rcases List.mem_append.1 hit with h | h
      · exact htj it h
      · obtain ⟨d2, opsl, hmem2, hop2, hd32, hv2⟩ := validItems_mem.1 h
        refine ⟨d, d2, opsl, hmem2, hop2, hd32, ?_, ?_⟩
        · exact Reach.gen hmemg (hmemb it.1 hv2)
        · exact hWFb.basisNZ it.1 (by rw [hbasisb2]; exact hv2)
    · intro p hp v hv q hq op hop d3 hd3
      rcases List.mem_append.1 hp with h | h
      · rcases hobl p h v hv q hq op hop d3 hd3 with h2 | h2
        · refine Or.inl ?_
          rw [htodoN]
          exact List.mem_append_left _ h2
        · obtain ⟨bk, hbk, hmem3⟩ := h2
          refine Or.inr ⟨bk, ?_, hmem3⟩
          rw [hstN]
          exact lookupD_append_left hbk
      · rw [List.mem_singleton.1 h] at hv
        simp only at hv
        rw [hbasisb2] at hv
        refine Or.inl ?_
        rw [htodoN]
        refine List.mem_append_right _ ?_
        refine validItems_mem.2 ⟨q.1, q.2, ?_, hop, ?_, hv⟩
        · rw [show (q.1, q.2) = q from rfl]
          exact hq
        · rw [List.mem_singleton.1 h] at hd3
          exact hd3

/-- Dropping an index keeps membership. -/
theorem eraseIdx_sub {α : Type _} : ∀ (l : List α) (i : ℕ), ∀ x ∈ l.eraseIdx i, x ∈ l
  | [], _, _, hx => by simp [List.eraseIdx] at hx
  | a :: _, 0, _, hx => List.mem_cons_of_mem a hx
  | a :: t, i + 1, x, hx => by
    rw [List.eraseIdx_cons_succ] at hx
    rcases List.mem_cons.1 hx with h | h
    · exact h ▸ List.mem_cons_self a t
    · exact List.mem_cons_of_mem a (eraseIdx_sub t i x h)

/-- Updating a dict entry preserves the presence of every key. -/
theorem updateD_keys_sub {D β : Type} [DecidableEq D] (l : List (D × β)) (d : D)
    (b : β) {d2 : D} (h : d2 ∈ l.map Prod.fst) :
    d2 ∈ (updateD l d b).map Prod.fst := by
  by_cases hd : d ∈ l.map Prod.fst
  · rw [updateD_keys_mem b hd]
    exact h
  · rw [updateD_keys_new b hd]
    exact List.mem_append_left _ h

/-- The drain loop of `finalize` preserves the invariant under every pick
policy, and a normal completion empties the worklist and leaves the
memoization flag untouched. -/
theorem drainWith_inv {V κ D : Type} [DecidableEq κ] [DecidableEq D]
    {A : Ambient V κ} (hA : AmbWF A) {gens : List (D × List V)}
    {ops : List (D × List (V → V))} {addDeg : D → D → Except PyErr D}
    {Lop : (V → V) → ((κ → ℚ) →ₗ[ℚ] (κ → ℚ))} (hOps : OpsWF A ops Lop)
    (pick : List (V × D × (V → V)) → ℕ) :
    ∀ (fuel : ℕ) (st st1 : SubState V κ D),
      SubInv A gens ops addDeg Lop st →
      drainWith A ops addDeg pick fuel st = DrainRes.ok st1 →
      SubInv A gens ops addDeg Lop st1 ∧ st1.todo = [] ∧
        st1.finalized = st.finalized := by
  intro fuel
  induction fuel with
  | zero =>
    intro st st1 hinv hrun
    have hzero : drainWith A ops addDeg pick 0 st
        = if st.todo.isEmpty then DrainRes.ok st else DrainRes.noFuel st := by
      conv_lhs => rw [drainWith]
    rw [hzero] at hrun
    by_cases hemp : st.todo.isEmpty
    · rw [if_pos hemp] at hrun
      injection hrun with h
      subst h
      refine ⟨hinv, ?_, rfl⟩
      cases h2 : st.todo with
      | nil => rfl
      | cons a l =>
        rw [h2] at hemp
        exact absurd hemp (by simp)
    · rw [if_neg hemp] at hrun
      exact DrainRes.noConfusion hrun
  | succ fuel ih =>
    intro st st1 hinv hrun
    cases htodo : st.todo with
    | nil =>
      have hstep : drainWith A ops addDeg pick (fuel + 1) st = DrainRes.ok st := by
        conv_lhs => rw [drainWith]
        rw [htodo]
      rw [hstep] at hrun
      injection hrun with h
      subst h
      exact ⟨hinv, htodo, rfl⟩
    | cons x xs =>
      set i := min (pick (x :: xs)) xs.length with hidef
      have hilt : i < (x :: xs).length := by
        rw [hidef]
        simp only [List.length_cons]
        omega
      set item := (x :: xs).getD i x with hitemdef
      set rest := (x :: xs).eraseIdx i with hrestdef
      set w := item.2.2 item.1 with hwdef
      have hitem_mem : item ∈ st.todo := by
        rw [htodo, hitemdef]
        exact getD_mem hilt x
      have hrest_sub : ∀ y ∈ rest, y ∈ st.todo := by
        intro y hy
        rw [htodo]
        rw [hrestdef] at hy
        exact eraseIdx_sub _ _ y hy
      have hsplit_todo : ∀ y ∈ st.todo, y = item ∨ y ∈ rest := by
        intro y hy
        rw [htodo] at hy
        exact mem_cons_getD_eraseIdx hilt x y hy
      obtain ⟨d1j, d2j, opslj, hopsj, hopj, hd3j, hreachj, hnzj⟩ :=
        hinv.todoJustified item hitem_mem
      have hvpar : A.isParentOf item.1 = true := hinv.todoParent item hitem_mem
      have hwpar : A.isParentOf w = true := by
        rw [hwdef]
        exact (hOps (d2j, opslj) hopsj item.2.2 hopj item.1 hvpar).1
      have hwcoord : coordFn A w = Lop item.2.2 (coordFn A item.1) := by
        rw [hwdef]
        exact (hOps (d2j, opslj) hopsj item.2.2 hopj item.1 hvpar).2
      have hreachw : Reach A gens ops addDeg Lop item.2.1 (coordFn A w) := by
        rw [hwcoord]
        exact Reach.step hreachj hopsj hopj hd3j
      set bucket := (match lookupD st.bases item.2.1 with
        | some bk => bk
        | none => MatrixOfVectors.empty V κ) with hbucketdef
      have hWFbucket : EchWF A bucket := by
        rw [hbucketdef]
        cases hlk : lookupD st.bases item.2.1 with
        | none => exact echWF_empty A
        | some bk => exact hinv.basesWF (item.2.1, bk) (lookupD_mem hlk)
      have hlkbucket : ∀ {bk' : MatrixOfVectors V κ},
          lookupD st.bases item.2.1 = some bk' → bk' = bucket := by
        intro bk' h
        rw [hbucketdef, h]
      have hbsound : ∀ u ∈ bucket.basis,
          Reach A gens ops addDeg Lop item.2.1 (coordFn A u) := by
        rw [hbucketdef]
        cases hlk : lookupD st.bases item.2.1 with
        | none => intro u hu; exact absurd hu (List.not_mem_nil u)
        | some bk =>
          intro u hu
          exact hinv.basesSound (item.2.1, bk) (lookupD_mem hlk) u hu
      have hbobl : ∀ v ∈ bucket.basis, ∀ q ∈ ops, ∀ op ∈ q.2, ∀ d3,
          addDeg item.2.1 q.1 = Except.ok d3 →
          (v, d3, op) ∈ st.todo ∨
            ∃ bk', lookupD st.bases d3 = some bk' ∧
              coordFn A (op v) ∈ ambSpan A bk'.basis := by
        rw [hbucketdef]
        cases hlk : lookupD st.bases item.2.1 with
        | none => intro u hu; exact absurd hu (List.not_mem_nil u)
        | some bk =>
          intro u hu q hq op hop d3 hd3
          exact hinv.obligations (item.2.1, bk) (lookupD_mem hlk) u hu q hq op hop d3 hd3
      have hbjust : item.2.1 ∈ st.bases.map Prod.fst →
          (item.2.1 ∈ gens.map Prod.fst ∨
            ∃ d1 d2 opsl, (d2, opsl) ∈ ops ∧ opsl ≠ [] ∧
              addDeg d1 d2 = Except.ok item.2.1 ∧
              gradedClosure A gens ops addDeg Lop d1 ≠ ⊥) := by
        intro hmem
        obtain ⟨bk, hbk⟩ := lookupD_isSome_of_mem_keys hmem
        exact hinv.bucketJust (item.2.1, bk) (lookupD_mem hbk)
      obtain ⟨b, bk2, hext, hiff, hWF2, hkeysext, hsuppk, hbasis2, hcard2, hspan2, hrej⟩ :=
        extend_spec hA hWFbucket hwpar st.stats
      set stats2 := (⟨st.stats.add_vector, st.stats.extend + 1,
        if b = true then st.stats.dimension + 1 else st.stats.dimension⟩ : Stats)
        with hstats2def
      have hspanle : ambSpan A bucket.basis ≤ ambSpan A bk2.basis := by
        rw [hspan2]
        by_cases hb2 : b = true
        · rw [if_pos hb2]
          exact le_sup_left
        · rw [if_neg hb2]
      have hwin : coordFn A w ∈ ambSpan A bk2.basis := by
        rw [hspan2]
        by_cases hb2 : b = true
        · rw [if_pos hb2]
          exact Submodule.mem_sup_right (Submodule.mem_span_singleton_self _)
        · rw [if_neg hb2]
          by_contra hcon
          exact hb2 (hiff.2 hcon)
      have hnzw : b = true → coordFn A w ≠ 0 := by
        intro hb2 h0
        exact (hiff.1 hb2) (h0 ▸ Submodule.zero_mem _)
      set extra := (if b = true then validItems ops addDeg item.2.1 [w] else [])
        with hextradef
      set stN : SubState V κ D :=
        { bases := updateD st.bases item.2.1 bk2
          todo := rest ++ extra
          finalized := st.finalized
          stats := stats2 } with hstNdef
      have hstNbases : stN.bases = updateD st.bases item.2.1 bk2 := rfl
      have hstNtodo : stN.todo = rest ++ extra := rfl
      have hlookN : lookupD stN.bases item.2.1 = some bk2 := updateD_lookup_self _ _ _
      have hlookNo : ∀ d' : D, d' ≠ item.2.1 →
          lookupD stN.bases d' = lookupD st.bases d' := by
        intro d' hdd
        exact updateD_lookup_other _ _ _ hdd
      have hlift : ∀ (d3 : D) (bk' : MatrixOfVectors V κ) (y : κ → ℚ),
          lookupD st.bases d3 = some bk' → y ∈ ambSpan A bk'.basis →
          ∃ bk'', lookupD stN.bases d3 = some bk'' ∧ y ∈ ambSpan A bk''.basis := by
        intro d3 bk' y hlk hy
        by_cases hdd : d3 = item.2.1
        · subst hdd
          refine ⟨bk2, hlookN, ?_⟩
          have hbkeq : bk' = bucket := hlkbucket hlk
          rw [hbkeq] at hy
          exact hspanle hy
        · exact ⟨bk', by rw [hlookNo d3 hdd]; exact hlk, hy⟩
      have hbspSt : bucketSpan A st item.2.1 = ambSpan A bucket.basis := by
        unfold bucketSpan
        rw [hbucketdef]
        cases hlk : lookupD st.bases item.2.1 with
        | none => exact (ambSpan_nil A).symm
        | some bk => rfl
      have hbspN : bucketSpan A stN item.2.1 = ambSpan A bk2.basis := by
        unfold bucketSpan
        rw [hlookN]
      have hmono : ∀ d' : D, bucketSpan A st d' ≤ bucketSpan A stN d' := by
        intro d'
        by_cases hdd : d' = item.2.1
        · subst hdd
          rw [hbspSt, hbspN]
          exact hspanle
        · unfold bucketSpan
          rw [hlookNo d' hdd]
      have hinvN : SubInv A gens ops addDeg Lop stN := by
        refine ⟨?_, ?_, ?_, ?_, ?_, ?_, ?_, ?_, ?_⟩
        · intro p hp
          rw [hstNbases] at hp
          rcases updateD_mem_of_nodup hinv.basesNodup hp with hpe | ⟨hmem, hne⟩
          · rw [hpe]
            exact hWF2
          · exact hinv.basesWF p hmem
        · rw [hstNbases]
          by_cases hdv : item.2.1 ∈ st.bases.map Prod.fst
          · rw [updateD_keys_mem bk2 hdv]
            exact hinv.basesNodup
          · rw [updateD_keys_new bk2 hdv]
            rw [List.nodup_append]
            refine ⟨hinv.basesNodup, List.nodup_singleton _, ?_⟩
            intro a ha hb3
            exact hdv ((List.mem_singleton.1 hb3) ▸ ha)
        · intro p hp
          rw [hstNbases]
          exact updateD_keys_sub st.bases item.2.1 bk2 (hinv.gensBuckets p hp)
        · intro p hp v hv
          exact hmono p.1 (hinv.gensCovered p hp v hv)
        · intro p hp v hv
          rw [hstNbases] at hp
          rcases updateD_mem_of_nodup hinv.basesNodup hp with hpe | ⟨hmem, hne⟩
          · rw [hpe] at hv ⊢
            have hv2 : v ∈ bk2.basis := hv
            rw [hbasis2] at hv2
            show Reach A gens ops addDeg Lop item.2.1 (coordFn A v)
            by_cases hb2 : b = true
            · rw [if_pos hb2] at hv2
              rcases List.mem_append.1 hv2 with h2 | h2
              · exact hbsound v h2
              · rw [List.mem_singleton.1 h2]
                exact hreachw
            · rw [if_neg hb2] at hv2
              exact hbsound v hv2
          · exact hinv.basesSound p hmem v hv
        · intro it hit
          rw [hstNtodo] at hit
          rcases List.mem_append.1 hit with h | h
          · exact hinv.todoParent it (hrest_sub it h)
          · rw [hextradef] at h
            by_cases hb2 : b = true
            · rw [if_pos hb2] at h
              obtain ⟨d2f, opslf, hopsf, hopf, hd3f, hv1⟩ := validItems_mem.1 h
              rw [List.mem_singleton.1 hv1]
              exact hwpar
            · rw [if_neg hb2] at h
              exact absurd h (List.not_mem_nil it)
        · intro it hit
          rw [hstNtodo] at hit
          rcases List.mem_append.1 hit with h | h
          · exact hinv.todoJustified it (hrest_sub it h)
          · rw [hextradef] at h
            by_cases hb2 : b = true
            · rw [if_pos hb2] at h
              obtain ⟨d2f, opslf, hopsf, hopf, hd3f, hv1⟩ := validItems_mem.1 h
              have hit1 : it.1 = w := List.mem_singleton.1 hv1
              refine ⟨item.2.1, d2f, opslf, hopsf, hopf, hd3f, ?_, ?_⟩
              · rw [hit1]
                exact hreachw
              · rw [hit1]
                exact hnzw hb2
            · rw [if_neg hb2] at h
              exact absurd h (List.not_mem_nil it)
        · intro p hp v hv q hq op hop d3 hd3
          rw [hstNbases] at hp
          have hliftOld : ((v, d3, op) ∈ st.todo ∨
              (∃ bk', lookupD st.bases d3 = some bk' ∧
                coordFn A (op v) ∈ ambSpan A bk'.basis)) →
              ((v, d3, op) ∈ stN.todo ∨
              (∃ bk'', lookupD stN.bases d3 = some bk'' ∧
                coordFn A (op v) ∈ ambSpan A bk''.basis)) := by
            intro hold
            rcases hold with h2 | ⟨bk', hlk', hmem'⟩
            · rcases hsplit_todo _ h2 with heq | hr
              · have hd3i : d3 = item.2.1 := by rw [← heq]
                have hw2 : w = op v := by rw [hwdef, ← heq]
                refine Or.inr ⟨bk2, ?_, ?_⟩
                · rw [hd3i]
                  exact hlookN
                · rw [← hw2]
                  exact hwin
              · refine Or.inl ?_
                rw [hstNtodo]
                exact List.mem_append_left _ hr
            · exact Or.inr (hlift d3 bk' _ hlk' hmem')
          rcases updateD_mem_of_nodup hinv.basesNodup hp with hpe | ⟨hmem, hne⟩
          · have hv2 : v ∈ bk2.basis := by
              rw [hpe] at hv
              exact hv
            have hd3b : addDeg item.2.1 q.1 = Except.ok d3 := by
              rw [hpe] at hd3
              exact hd3
            rw [hbasis2] at hv2
            by_cases hb2 : b = true
            · rw [if_pos hb2] at hv2
              rcases List.mem_append.1 hv2 with h2 | h2
              · exact hliftOld (hbobl v h2 q hq op hop d3 hd3b)
              · refine Or.inl ?_
                rw [hstNtodo, hextradef]
                refine List.mem_append_right _ ?_
                rw [if_pos hb2]
                refine validItems_mem.2 ⟨q.1, q.2, ?_, hop, hd3b, h2⟩
                rw [show (q.1, q.2) = q from rfl]
                exact hq
            · rw [if_neg hb2] at hv2
              exact hliftOld (hbobl v hv2 q hq op hop d3 hd3b)
          · exact hliftOld (hinv.obligations p hmem v hv q hq op hop d3 hd3)
        · intro p hp
          rw [hstNbases] at hp
          rcases updateD_mem_of_nodup hinv.basesNodup hp with hpe | ⟨hmem, hne⟩
          · rw [hpe]
            by_cases hdv : item.2.1 ∈ st.bases.map Prod.fst
            · exact hbjust hdv
            · refine Or.inr ⟨d1j, d2j, opslj, hopsj, List.ne_nil_of_mem hopj, hd3j, ?_⟩
              intro hbot
              apply hnzj
              have hmem0 : coordFn A item.1 ∈ gradedClosure A gens ops addDeg Lop d1j :=
                Submodule.subset_span hreachj
              rw [hbot] at hmem0
              simpa using hmem0
          · exact hinv.bucketJust p hmem
      have hstep : drainWith A ops addDeg pick (fuel + 1) st
          = drainWith A ops addDeg pick fuel
              (if b = true then
                { st with
                  bases := updateD st.bases item.2.1 bk2
                  todo := todoFn ops addDeg rest item.2.1 [w]
                  stats := stats2 }
                else
                { st with
                  bases := updateD st.bases item.2.1 bk2
                  todo := rest
                  stats := stats2 }) := by
        conv_lhs => rw [drainWith]
        rw [htodo]
        show (match extend A bucket w st.stats with
          | (Except.error e, bk2e, st2e) =>
            DrainRes.err e { st with
              bases := updateD st.bases item.2.1 bk2e
              todo := rest
              stats := st2e }
          | (Except.ok bb, bk2e, st2e) =>
            drainWith A ops addDeg pick fuel
              (if bb then
                { st with
                  bases := updateD st.bases item.2.1 bk2e
                  todo := todoFn ops addDeg rest item.2.1 [w]
                  stats := st2e }
                else
                { st with
                  bases := updateD st.bases item.2.1 bk2e
                  todo := rest
                  stats := st2e })) = _
        rw [hext]
      rw [hstep] at hrun
      by_cases hb : b = true
      · rw [if_pos hb] at hrun
        have htf : todoFn ops addDeg rest item.2.1 [w] = rest ++ extra := by
          rw [todoFn_eq, hextradef, if_pos hb]
        rw [htf] at hrun
        obtain ⟨h1, h2, h3⟩ := ih _ st1 hinvN hrun
        exact ⟨h1, h2, h3⟩
      · rw [if_neg hb] at hrun
        have htf : rest = rest ++ extra := by
          rw [hextradef, if_neg hb, List.append_nil]
        rw [htf] at hrun
        obtain ⟨h1, h2, h3⟩ := ih _ st1 hinvN hrun
        exact ⟨h1, h2, h3⟩

/-- With an empty worklist the invariant pins the engine down: every bucket
spans exactly the graded-closure component at its degree (absent degrees
have zero closure), and a bucket is present exactly at the target degrees. -/
theorem drain_complete {V κ D : Type} [DecidableEq κ] [DecidableEq D]
    {A : Ambient V κ} {gens : List (D × List V)}
    {ops : List (D × List (V → V))} {addDeg : D → D → Except PyErr D}
    {Lop : (V → V) → ((κ → ℚ) →ₗ[ℚ] (κ → ℚ))} (hOps : OpsWF A ops Lop)
    {st : SubState V κ D} (hinv : SubInv A gens ops addDeg Lop st)
    (htodo : st.todo = []) :
    (∀ d, bucketSpan A st d = gradedClosure A gens ops addDeg Lop d) ∧
    (∀ d, d ∈ st.bases.map Prod.fst ↔ TargetDeg A gens ops addDeg Lop d) := by
  have hcomp : ∀ (d : D) (x : κ → ℚ), Reach A gens ops addDeg Lop d x →
      x ∈ bucketSpan A st d := by
    intro d x hx
    induction hx with
    | @gen d0 gs v hd hv => exact hinv.gensCovered (d0, gs) hd v hv
    | @step d1 x1 d2 opsl op d3 hx1 hops hop hd3 ih2 =>
      cases hlk : lookupD st.bases d1 with
      | none =>
        have hx0 : x1 = 0 := by
          have h2 := ih2
          unfold bucketSpan at h2
          rw [hlk] at h2
          simpa using h2
        rw [hx0, map_zero]
        exact Submodule.zero_mem _
      | some bk =>
        have hx1m : x1 ∈ ambSpan A bk.basis := by
          have h2 := ih2
          unfold bucketSpan at h2
          rw [hlk] at h2
          exact h2
        have hmembk : (d1, bk) ∈ st.bases := lookupD_mem hlk
        have hmap : Submodule.map (Lop op) (ambSpan A bk.basis)
            ≤ bucketSpan A st d3 := by
          unfold ambSpan
          rw [Submodule.map_span]
          refine Submodule.span_le.2 ?_
          rintro y ⟨z, ⟨u, hu, rfl⟩, rfl⟩
          have hupar : A.isParentOf u = true :=
            (hinv.basesWF (d1, bk) hmembk).basisParent u hu
          have hcoord : coordFn A (op u) = Lop op (coordFn A u) :=
            (hOps (d2, opsl) hops op hop u hupar).2
          have hobl := hinv.obligations (d1, bk) hmembk u hu (d2, opsl) hops
            op hop d3 hd3
          rcases hobl with h2 | ⟨bk3, hlk3, hm3⟩
          · rw [htodo] at h2
            exact absurd h2 (List.not_mem_nil _)
          · rw [← hcoord]
            show coordFn A (op u) ∈ bucketSpan A st d3
            unfold bucketSpan
            rw [hlk3]
            exact hm3
        exact hmap ⟨x1, hx1m, rfl⟩
  have hsound : ∀ d : D,
      bucketSpan A st d ≤ gradedClosure A gens ops addDeg Lop d := by
    intro d
    cases hlk : lookupD st.bases d with
    | none =>
      have hbot : bucketSpan A st d = ⊥ := by
        unfold bucketSpan
        rw [hlk]
      rw [hbot]
      exact bot_le
    | some bk =>
      have hsp : bucketSpan A st d = ambSpan A bk.basis := by
        unfold bucketSpan
        rw [hlk]
      rw [hsp]
      unfold ambSpan gradedClosure
      refine Submodule.span_le.2 ?_
      rintro y ⟨u, hu, rfl⟩
      exact Submodule.subset_span (hinv.basesSound (d, bk) (lookupD_mem hlk) u hu)
  have hspan_eq : ∀ d, bucketSpan A st d = gradedClosure A gens ops addDeg Lop d := by
    intro d
    refine le_antisymm (hsound d) ?_
    unfold gradedClosure
    refine Submodule.span_le.2 ?_
    intro x hx
    exact hcomp d x hx
  refine ⟨hspan_eq, ?_⟩
  intro d
  constructor
  · intro hd
    obtain ⟨bk, hbk⟩ := lookupD_isSome_of_mem_keys hd
    exact hinv.bucketJust (d, bk) (lookupD_mem hbk)
  · intro htgt
    have htgt2 : d ∈ gens.map Prod.fst ∨
        ∃ d1 d2 opsl, (d2, opsl) ∈ ops ∧ opsl ≠ [] ∧ addDeg d1 d2 = Except.ok d ∧
          gradedClosure A gens ops addDeg Lop d1 ≠ ⊥ := htgt
    rcases htgt2 with hgen | ⟨d1, d2, opsl, hops, hne, hd3, hnbot⟩
    · obtain ⟨p, hp, hp1⟩ := List.mem_map.1 hgen
      rw [← hp1]
      exact hinv.gensBuckets p hp
    · have hbs1 : bucketSpan A st d1 ≠ ⊥ := by
        rw [hspan_eq d1]
        exact hnbot
      cases hlk : lookupD st.bases d1 with
      | none =>
        exfalso
        apply hbs1
        unfold bucketSpan
        rw [hlk]
      | some bk =>
        have hspanbk : ambSpan A bk.basis ≠ ⊥ := by
          intro hc
          apply hbs1
          unfold bucketSpan
          rw [hlk]
          exact hc
        cases hbasis : bk.basis with
        | nil =>
          exfalso
          apply hspanbk
          rw [hbasis]
          exact ambSpan_nil A
        | cons v vs =>
          have hvmem : v ∈ bk.basis := by
            rw [hbasis]
            exact List.mem_cons_self v vs
          obtain ⟨op, hopmem⟩ : ∃ op, op ∈ opsl := by
            cases opsl with
            | nil => exact absurd rfl hne
            | cons o t => exact ⟨o, List.mem_cons_self o t⟩
          have hobl := hinv.obligations (d1, bk) (lookupD_mem hlk) v hvmem
            (d2, opsl) hops op hopmem d hd3
          rcases hobl with h2 | ⟨bk3, hlk3, hm3⟩
          · rw [htodo] at h2
            exact absurd h2 (List.not_mem_nil _)
          · exact List.mem_map.2 ⟨(d, bk3), lookupD_mem hlk3, rfl⟩

/-- Initialization never touches the memoization flag. -/
theorem initBuckets_finalized {V κ D : Type} [DecidableEq κ] [DecidableEq D]
    (A : Ambient V κ) (ops : List (D × List (V → V)))
    (addDeg : D → D → Except PyErr D) :
    ∀ (rem : List (D × List V)) (st : SubState V κ D),
      ((initBuckets A ops addDeg rem st).2).finalized = st.finalized := by
  intro rem
  induction rem with
  | nil => intro st; rfl
  | cons dg rest ih =>
    intro st
    obtain ⟨d, gs⟩ := dg
    have hstep : initBuckets A ops addDeg ((d, gs) :: rest) st
        = (match extendList A (MatrixOfVectors.empty V κ) gs st.stats with
          | (Except.error e, _, st2) => (Except.error e, { st with stats := st2 })
          | (Except.ok accepted, basis, st2) =>
            initBuckets A ops addDeg rest
              { st with
                bases := st.bases ++ [(d, basis)]
                todo := todoFn ops addDeg st.todo d accepted
                stats := st2 }) := by
      conv_lhs => rw [initBuckets]
    rw [hstep]
    rcases hE : extendList A (MatrixOfVectors.empty V κ) gs st.stats with ⟨r, bas, st2⟩
    cases r with
    | error e => rfl
    | ok accepted =>
      show ((initBuckets A ops addDeg rest
        { st with
          bases := st.bases ++ [(d, bas)]
          todo := todoFn ops addDeg st.todo d accepted
          stats := st2 }).2).finalized = st.finalized
      rw [ih]

/-- A successful initialization establishes the drain invariant, with the
memoization flag still unset. -/
theorem subspaceInit_inv {V κ D : Type} [DecidableEq κ] [DecidableEq D]
    {A : Ambient V κ} (hA : AmbWF A) {gens : List (D × List V)}
    {ops : List (D × List (V → V))} {addDeg : D → D → Except PyErr D}
    {Lop : (V → V) → ((κ → ℚ) →ₗ[ℚ] (κ → ℚ))} (hOps : OpsWF A ops Lop)
    (hgpar : ∀ p ∈ gens, ∀ v ∈ p.2, A.isParentOf v = true)
    (hgnd : (gens.map Prod.fst).Nodup)
    {st0 : SubState V κ D}
    (hinit : subspaceInit A gens ops addDeg = (Except.ok (), st0)) :
    SubInv A gens ops addDeg Lop st0 ∧ st0.finalized = false := by
  have hinit2 : (initBuckets A ops addDeg gens
      ⟨[], [], false, ⟨0, 0, 0⟩⟩ : Except PyErr Unit × SubState V κ D).2 = st0 := by
    rw [show (initBuckets A ops addDeg gens ⟨[], [], false, ⟨0, 0, 0⟩⟩ :
      Except PyErr Unit × SubState V κ D) = (Except.ok (), st0) from hinit]
  have hinit1 : (initBuckets A ops addDeg gens
      ⟨[], [], false, ⟨0, 0, 0⟩⟩ : Except PyErr Unit × SubState V κ D).1
        = Except.ok () := by
    rw [show (initBuckets A ops addDeg gens ⟨[], [], false, ⟨0, 0, 0⟩⟩ :
      Except PyErr Unit × SubState V κ D) = (Except.ok (), st0) from hinit]
  constructor
  · have h := initBuckets_spec hA hOps hgpar hgnd gens []
      ⟨[], [], false, ⟨0, 0, 0⟩⟩ rfl rfl
      (fun p hp => absurd hp (List.not_mem_nil p))
      (fun p hp => absurd hp (List.not_mem_nil p))
      (fun p hp => absurd hp (List.not_mem_nil p))
      (fun it hit => absurd hit (List.not_mem_nil it))
      (fun it hit => absurd hit (List.not_mem_nil it))
      (fun p hp => absurd hp (List.not_mem_nil p))
      hinit1
    rw [hinit2] at h
    exact h
  · rw [← hinit2]
    exact initBuckets_finalized A ops addDeg gens ⟨[], [], false, ⟨0, 0, 0⟩⟩

/-- An exception escaping the drain loop comes from `extend`, hence is an
ambient mismatch or an echelon-precondition failure, never an invalid
degree. -/
theorem drainWith_err_cases {V κ D : Type} [DecidableEq κ] [DecidableEq D]
    (A : Ambient V κ) (ops : List (D × List (V → V)))
    (addDeg : D → D → Except PyErr D) (pick : List (V × D × (V → V)) → ℕ) :
    ∀ (fuel : ℕ) (st : SubState V κ D) (e : PyErr) (st' : SubState V κ D),
      drainWith A ops addDeg pick fuel st = DrainRes.err e st' →
      e = PyErr.ambientMismatch ∨ e = PyErr.notEchelon := by
  intro fuel
  induction fuel with
  | zero =>
    intro st e st' hrun
    have hzero : drainWith A ops addDeg pick 0 st
        = if st.todo.isEmpty then DrainRes.ok st else DrainRes.noFuel st := by
      conv_lhs => rw [drainWith]
    rw [hzero] at hrun
    by_cases hemp : st.todo.isEmpty
    · rw [if_pos hemp] at hrun
      exact DrainRes.noConfusion hrun
    · rw [if_neg hemp] at hrun
      exact DrainRes.noConfusion hrun
  | succ fuel ih =>
    intro st e st' hrun
    cases htodo : st.todo with
    | nil =>
      have hstep : drainWith A ops addDeg pick (fuel + 1) st = DrainRes.ok st := by
        conv_lhs => rw [drainWith]
        rw [htodo]
      rw [hstep] at hrun
      exact DrainRes.noConfusion hrun
    | cons x xs =>
      set i := min (pick (x :: xs)) xs.length with hidef
      set item := (x :: xs).getD i x with hitemdef
      set rest := (x :: xs).eraseIdx i with hrestdef
      set w := item.2.2 item.1 with hwdef
      set bucket := (match lookupD st.bases item.2.1 with
        | some bk => bk
        | none => MatrixOfVectors.empty V κ) with hbucketdef
      have hstep : drainWith A ops addDeg pick (fuel + 1) st
          = (match extend A bucket w st.stats with
            | (Except.error e2, bk2e, st2e) =>
              DrainRes.err e2 { st with
                bases := updateD st.bases item.2.1 bk2e
                todo := rest
                stats := st2e }
            | (Except.ok bb, bk2e, st2e) =>
              drainWith A ops addDeg pick fuel
                (if bb then
                  { st with
                    bases := updateD st.bases item.2.1 bk2e
                    todo := todoFn ops addDeg rest item.2.1 [w]
                    stats := st2e }
                  else
                  { st with
                    bases := updateD st.bases item.2.1 bk2e
                    todo := rest
                    stats := st2e })) := by
        conv_lhs => rw [drainWith]
        rw [htodo]
      rw [hstep] at hrun
      rcases hE : extend A bucket w st.stats with ⟨r, bk2, st2⟩
      rw [hE] at hrun
      cases r with
      | error e2 =>
        have h2 : DrainRes.err e2 { st with
            bases := updateD st.bases item.2.1 bk2
            todo := rest
            stats := st2 } = DrainRes.err e st' := hrun
        injection h2 with h3 h4
        rw [← h3]
        exact extend_error_cases A bucket w st.stats (by rw [hE])
      | ok b =>
        exact ih _ e st' hrun

/-- An exception escaping `finalize` comes from the drain loop. -/
theorem finalize_err_cases {V κ D : Type} [DecidableEq κ] [DecidableEq D]
    (A : Ambient V κ) (ops : List (D × List (V → V)))
    (addDeg : D → D → Except PyErr D) (fuel : ℕ) (st : SubState V κ D)
    {e : PyErr} {st' : SubState V κ D}
    (h : finalize A ops addDeg fuel st = DrainRes.err e st') :
    e = PyErr.ambientMismatch ∨ e = PyErr.notEchelon := by
  unfold finalize at h
  by_cases hfz : st.finalized
  · rw [if_pos hfz] at h
    exact DrainRes.noConfusion h
  · rw [if_neg hfz] at h
    cases hd : drainWith A ops addDeg lifoPick fuel st with
    | ok st3 =>
      rw [hd] at h
      exact DrainRes.noConfusion (show DrainRes.ok { st3 with finalized := true }
        = DrainRes.err e st' from h)
    | err e3 st3 =>
      rw [hd] at h
      have h6 : DrainRes.err e3 st3 = DrainRes.err e st' := h
      injection h6 with h7 h8
      rw [← h7]
      exact drainWith_err_cases A ops addDeg lifoPick fuel st e3 st3 hd
    | noFuel st3 =>
      rw [hd] at h
      exact DrainRes.noConfusion (show DrainRes.noFuel st3
        = DrainRes.err e st' from h)

/-- A finalized result carries the memoization flag. -/
theorem finalize_ok_flag {V κ D : Type} [DecidableEq κ] [DecidableEq D]
    (A : Ambient V κ) (ops : List (D × List (V → V)))
    (addDeg : D → D → Except PyErr D) (fuel : ℕ) {st st1 : SubState V κ D}
    (h : finalize A ops addDeg fuel st = DrainRes.ok st1) :
    st1.finalized = true := by
  unfold finalize at h
  by_cases hfz : st.finalized
  · rw [if_pos hfz] at h
    injection h with h2
    rw [← h2]
    exact hfz
  · rw [if_neg hfz] at h
    cases hd : drainWith A ops addDeg lifoPick fuel st with
    | ok st2 =>
      rw [hd] at h
      have h2 : DrainRes.ok { st2 with finalized := true } = DrainRes.ok st1 := h
      injection h2 with h3
      rw [← h3]
    | err e st2 =>
      rw [hd] at h
      exact DrainRes.noConfusion (show DrainRes.err e st2 = DrainRes.ok st1 from h)
    | noFuel st2 =>
      rw [hd] at h
      exact DrainRes.noConfusion (show DrainRes.noFuel st2 = DrainRes.ok st1 from h)

/-- On an unfinalized state, a successful `finalize` is exactly a successful
LIFO drain followed by setting the memoization flag. -/
theorem finalize_ok_drain {V κ D : Type} [DecidableEq κ] [DecidableEq D]
    (A : Ambient V κ) (ops : List (D × List (V → V)))
    (addDeg : D → D → Except PyErr D) (fuel : ℕ) {st st1 : SubState V κ D}
    (hfz : st.finalized = false)
    (h : finalize A ops addDeg fuel st = DrainRes.ok st1) :
    ∃ st2, drainWith A ops addDeg lifoPick fuel st = DrainRes.ok st2 ∧
      st1 = { st2 with finalized := true } := by
  unfold finalize at h
  rw [if_neg (by rw [hfz]; exact fun hc => Bool.noConfusion hc)] at h
  cases hd : drainWith A ops addDeg lifoPick fuel st with
  | ok st2 =>
    rw [hd] at h
    have h2 : DrainRes.ok { st2 with finalized := true } = DrainRes.ok st1 := h
    injection h2 with h3
    exact ⟨st2, rfl, h3.symm⟩
  | err e st2 =>
    rw [hd] at h
    exact DrainRes.noConfusion (show DrainRes.err e st2 = DrainRes.ok st1 from h)
  | noFuel st2 =>
    rw [hd] at h
    exact DrainRes.noConfusion (show DrainRes.noFuel st2 = DrainRes.ok st1 from h)

/-- A successful `dimension` call is a successful `finalize` whose resulting
state is returned along with the summed bucket cardinalities. -/
theorem dimension_ok_elim {V κ D : Type} [DecidableEq κ] [DecidableEq D]
    (A : Ambient V κ) (ops : List (D × List (V → V)))
    (addDeg : D → D → Except PyErr D) (fuel : ℕ) {st st1 : SubState V κ D}
    {n : ℕ}
    (hdim : dimension A ops addDeg fuel st = some (Except.ok n, st1)) :
    finalize A ops addDeg fuel st = DrainRes.ok st1 ∧
      n = (st1.bases.map (fun p => cardinality p.2)).sum := by
  unfold dimension at hdim
  cases hF : finalize A ops addDeg fuel st with
  | ok st2 =>
    rw [hF] at hdim
    have h2 : (some (Except.ok ((st2.bases.map (fun p => cardinality p.2)).sum), st2) :
        Option (Except PyErr ℕ × SubState V κ D)) = some (Except.ok n, st1) := hdim
    injection h2 with h3
    have h5 : st2 = st1 := congrArg Prod.snd h3
    have h4 : (Except.ok ((st2.bases.map (fun p => cardinality p.2)).sum) :
        Except PyErr ℕ) = Except.ok n := congrArg Prod.fst h3
    have h6 : (st2.bases.map (fun p => cardinality p.2)).sum = n := by
      injection h4
    rw [h5] at h6 ⊢
    exact ⟨rfl, h6.symm⟩
  | err e st2 =>
    rw [hF] at hdim
    have h2 : (some ((Except.error e : Except PyErr ℕ), st2) :
        Option (Except PyErr ℕ × SubState V κ D)) = some (Except.ok n, st1) := hdim
    injection h2 with h3
    exact absurd (congrArg Prod.fst h3) (by simp)
  | noFuel st2 =>
    rw [hF] at hdim
    exact Option.noConfusion (show (none : Option (Except PyErr ℕ × SubState V κ D))
      = some (Except.ok n, st1) from hdim)

/-- C1: when initialization succeeds and `finalize` terminates (`dimension`
returns a value), the per-degree buckets jointly span exactly the graded
closure — the smallest degree-indexed family of subspaces that contains the
generators and is stable under every operator along the valid degree
shifts — `dimension()` returns the sum of the bucket cardinalities, which is
the total dimension of that closure (whose components vanish away from the
buckets), and `dimensions()` returns the degree-to-cardinality mapping, each
cardinality being the dimension of the closure component at that degree. -/
theorem subspace_dimension_correct {V κ D : Type} [DecidableEq κ] [DecidableEq D]
    {A : Ambient V κ} (hA : AmbWF A) {gens : List (D × List V)}
    {ops : List (D × List (V → V))} {addDeg : D → D → Except PyErr D}
    {Lop : (V → V) → ((κ → ℚ) →ₗ[ℚ] (κ → ℚ))} (hOps : OpsWF A ops Lop)
    (hgpar : ∀ p ∈ gens, ∀ v ∈ p.2, A.isParentOf v = true)
    (hgnd : (gens.map Prod.fst).Nodup)
    {st0 : SubState V κ D}
    (hinit : subspaceInit A gens ops addDeg = (Except.ok (), st0))
    {fuel : ℕ} {n : ℕ} {st1 : SubState V κ D}
    (hdim : dimension A ops addDeg fuel st0 = some (Except.ok n, st1)) :
    (∀ d, bucketSpan A st1 d = gradedClosure A gens ops addDeg Lop d) ∧
    (∀ F : D → Submodule ℚ (κ → ℚ),
      (∀ p ∈ gens, ∀ v ∈ p.2, coordFn A v ∈ F p.1) →
      (∀ d1, ∀ q ∈ ops, ∀ op ∈ q.2, ∀ d3, addDeg d1 q.1 = Except.ok d3 →
        Submodule.map (Lop op) (F d1) ≤ F d3) →
      ∀ d, gradedClosure A gens ops addDeg Lop d ≤ F d) ∧
    n = (st1.bases.map (fun p =>
      Module.finrank ℚ (gradedClosure A gens ops addDeg Lop p.1))).sum ∧
    (∀ p ∈ st1.bases, cardinality p.2 =
      Module.finrank ℚ (gradedClosure A gens ops addDeg Lop p.1)) ∧
    (∀ d, d ∉ st1.bases.map Prod.fst →
      gradedClosure A gens ops addDeg Lop d = ⊥) ∧
    dimensions A ops addDeg fuel st0 = some (Except.ok
      (st1.bases.map (fun p => (p.1, cardinality p.2))), st1) := by
  obtain ⟨hinv0, hfz0⟩ := subspaceInit_inv hA hOps hgpar hgnd hinit
  obtain ⟨hfin, hn0⟩ := dimension_ok_elim A ops addDeg fuel hdim
  obtain ⟨st2, hdr, hst1⟩ := finalize_ok_drain A ops addDeg fuel hfz0 hfin
  obtain ⟨hinv2, htodo2, _⟩ := drainWith_inv hA hOps lifoPick fuel st0 st2 hinv0 hdr
  have hinv1 : SubInv A gens ops addDeg Lop st1 := by
    rw [hst1]
    exact ⟨hinv2.basesWF, hinv2.basesNodup, hinv2.gensBuckets, hinv2.gensCovered,
      hinv2.basesSound, hinv2.todoParent, hinv2.todoJustified, hinv2.obligations,
      hinv2.bucketJust⟩
  have htodo1 : st1.todo = [] := by
    rw [hst1]
    exact htodo2
  obtain ⟨hspan, hpres⟩ := drain_complete hOps hinv1 htodo1
  have hcard : ∀ p ∈ st1.bases, cardinality p.2 =
      Module.finrank ℚ (gradedClosure A gens ops addDeg Lop p.1) := by
    intro p hp
    have hWFbk : EchWF A p.2 := hinv1.basesWF p hp
    have hamb : ambSpan A p.2.basis = gradedClosure A gens ops addDeg Lop p.1 := by
      rw [← hspan p.1]
      unfold bucketSpan
      rw [lookupD_of_mem hinv1.basesNodup hp]
    rw [cardinality_eq_finrank hWFbk, hamb]
  have hmin : ∀ F : D → Submodule ℚ (κ → ℚ),
      (∀ p ∈ gens, ∀ v ∈ p.2, coordFn A v ∈ F p.1) →
      (∀ d1, ∀ q ∈ ops, ∀ op ∈ q.2, ∀ d3, addDeg d1 q.1 = Except.ok d3 →
        Submodule.map (Lop op) (F d1) ≤ F d3) →
      ∀ d, gradedClosure A gens ops addDeg Lop d ≤ F d := by
    intro F hFgen hFstab d
    unfold gradedClosure
    refine Submodule.span_le.2 ?_
    intro x hx
    have hx2 : Reach A gens ops addDeg Lop d x := hx
    clear hx
    induction hx2 with
    | @gen d0 gs v hd hv => exact hFgen (d0, gs) hd v hv
    | @step d1 x1 d2 opsl op d3 hx1 hops hop hd3 ih2 =>
      exact hFstab d1 (d2, opsl) hops op hop d3 hd3 ⟨x1, ih2, rfl⟩
  refine ⟨hspan, hmin, ?_, hcard, ?_, ?_⟩
  · rw [hn0]
    congr 1
    refine List.map_congr_left ?_
    intro p hp
    exact hcard p hp
  · intro d hd
    rw [← hspan d]
    unfold bucketSpan
    rw [lookupD_none_iff.2 hd]
  · unfold dimensions
    rw [hfin]

theorem subspace_dimension_correct_witness :
    AmbWF witAmb ∧
    (∀ p ∈ ([(0, [[(0, (1 : ℚ))]])] : List (ℕ × List (List (ℕ × ℚ)))),
      ∀ v ∈ p.2, witAmb.isParentOf v = true) ∧
    (([(0, [[(0, (1 : ℚ))]])] : List (ℕ × List (List (ℕ × ℚ)))).map
      Prod.fst).Nodup ∧
    subspaceInit witAmb [(0, [[(0, (1 : ℚ))]])] [] (fun a b => Except.ok (a + b))
      = (Except.ok (), ⟨[(0, ⟨[0], [[1]], 1, [[(0, (1 : ℚ))]], true⟩)], [],
          false, ⟨0, 1, 1⟩⟩) ∧
    dimension witAmb [] (fun a b => Except.ok (a + b)) 0
        ⟨[(0, ⟨[0], [[1]], 1, [[(0, (1 : ℚ))]], true⟩)], [], false, ⟨0, 1, 1⟩⟩
      = some (Except.ok 1, ⟨[(0, ⟨[0], [[1]], 1, [[(0, (1 : ℚ))]], true⟩)], [],
          true, ⟨0, 1, 1⟩⟩) ∧
    1 = ((⟨[(0, ⟨[0], [[1]], 1, [[(0, (1 : ℚ))]], true⟩)], [], true, ⟨0, 1, 1⟩⟩ :
        SubState (List (ℕ × ℚ)) ℕ ℕ).bases.map (fun p =>
      Module.finrank ℚ (gradedClosure witAmb [(0, [[(0, (1 : ℚ))]])] []
        (fun a b => Except.ok (a + b)) (fun _ => LinearMap.id) p.1))).sum :=
  ⟨witAmb_wf, by decide, by decide, by with_unfolding_all rfl,
    by with_unfolding_all rfl,
    (@subspace_dimension_correct (List (ℕ × ℚ)) ℕ ℕ _ _ witAmb witAmb_wf
      [(0, [[(0, (1 : ℚ))]])] [] (fun a b => Except.ok (a + b))
      (fun _ => LinearMap.id)
      (fun p hp => absurd hp (List.not_mem_nil p))
      (by decide) (by decide)
      ⟨[(0, ⟨[0], [[1]], 1, [[(0, (1 : ℚ))]], true⟩)], [], false, ⟨0, 1, 1⟩⟩
      (by with_unfolding_all rfl)
      0 1 ⟨[(0, ⟨[0], [[1]], 1, [[(0, (1 : ℚ))]], true⟩)], [], true, ⟨0, 1, 1⟩⟩
      (by with_unfolding_all rfl)).2.2.1⟩

/-- C3: the final per-degree dimensions are independent of the drain order:
two completed drains of the same initialized `Subspace` state under any two
pick policies (for instance the source's LIFO `todo.pop()` and a FIFO
queue) produce bucket tables that agree as degree-to-cardinality
dictionaries, and their total dimensions agree. -/
theorem drain_order_invariant {V κ D : Type} [DecidableEq κ] [DecidableEq D]
    {A : Ambient V κ} (hA : AmbWF A) {gens : List (D × List V)}
    {ops : List (D × List (V → V))} {addDeg : D → D → Except PyErr D}
    {Lop : (V → V) → ((κ → ℚ) →ₗ[ℚ] (κ → ℚ))} (hOps : OpsWF A ops Lop)
    (hgpar : ∀ p ∈ gens, ∀ v ∈ p.2, A.isParentOf v = true)
    (hgnd : (gens.map Prod.fst).Nodup)
    {st0 : SubState V κ D}
    (hinit : subspaceInit A gens ops addDeg = (Except.ok (), st0))
    (pick1 pick2 : List (V × D × (V → V)) → ℕ) {fuel1 fuel2 : ℕ}
    {st1 st2 : SubState V κ D}
    (h1 : drainWith A ops addDeg pick1 fuel1 st0 = DrainRes.ok st1)
    (h2 : drainWith A ops addDeg pick2 fuel2 st0 = DrainRes.ok st2) :
    (∀ d, lookupD (st1.bases.map (fun p => (p.1, cardinality p.2))) d
        = lookupD (st2.bases.map (fun p => (p.1, cardinality p.2))) d) ∧
    (st1.bases.map (fun p => cardinality p.2)).sum
      = (st2.bases.map (fun p => cardinality p.2)).sum := by
  obtain ⟨hinv0, _⟩ := subspaceInit_inv hA hOps hgpar hgnd hinit
  obtain ⟨hinvA, htodoA, _⟩ := drainWith_inv hA hOps pick1 fuel1 st0 st1 hinv0 h1
  obtain ⟨hinvB, htodoB, _⟩ := drainWith_inv hA hOps pick2 fuel2 st0 st2 hinv0 h2
  obtain ⟨hspanA, hpresA⟩ := drain_complete hOps hinvA htodoA
  obtain ⟨hspanB, hpresB⟩ := drain_complete hOps hinvB htodoB
  have hkey : ∀ (st' : SubState V κ D), SubInv A gens ops addDeg Lop st' →
      (∀ d, bucketSpan A st' d = gradedClosure A gens ops addDeg Lop d) →
      ∀ (d : D) (bk : MatrixOfVectors V κ), lookupD st'.bases d = some bk →
      cardinality bk
        = Module.finrank ℚ (gradedClosure A gens ops addDeg Lop d) := by
    intro st' hinv' hspan' d bk hlk
    have hWFbk : EchWF A bk := hinv'.basesWF (d, bk) (lookupD_mem hlk)
    have hamb : ambSpan A bk.basis = gradedClosure A gens ops addDeg Lop d := by
      rw [← hspan' d]
      unfold bucketSpan
      rw [hlk]
    rw [cardinality_eq_finrank hWFbk, hamb]
  constructor
  · intro d
    rw [lookupD_map_keyed st1.bases (fun p => cardinality p.2) d,
        lookupD_map_keyed st2.bases (fun p => cardinality p.2) d]
    by_cases htd : TargetDeg A gens ops addDeg Lop d
    · obtain ⟨bk1, hbk1⟩ := lookupD_isSome_of_mem_keys ((hpresA d).2 htd)
      obtain ⟨bk2, hbk2⟩ := lookupD_isSome_of_mem_keys ((hpresB d).2 htd)
      rw [hbk1, hbk2]
      show some (cardinality bk1) = some (cardinality bk2)
      rw [hkey st1 hinvA hspanA d bk1 hbk1, hkey st2 hinvB hspanB d bk2 hbk2]
    · rw [lookupD_none_iff.2 (fun hmem => htd ((hpresA d).1 hmem)),
          lookupD_none_iff.2 (fun hmem => htd ((hpresB d).1 hmem))]
  · have hsum : ∀ (st' : SubState V κ D), SubInv A gens ops addDeg Lop st' →
        (∀ d, bucketSpan A st' d = gradedClosure A gens ops addDeg Lop d) →
        (st'.bases.map (fun p => cardinality p.2)).sum
          = ((st'.bases.map Prod.fst).map (fun d =>
              Module.finrank ℚ (gradedClosure A gens ops addDeg Lop d))).sum := by
      intro st' hinv' hspan'
      rw [List.map_map]
      congr 1
      refine List.map_congr_left ?_
      intro p hp
      show cardinality p.2
        = Module.finrank ℚ (gradedClosure A gens ops addDeg Lop p.1)
      exact hkey st' hinv' hspan' p.1 p.2 (lookupD_of_mem hinv'.basesNodup hp)
    have hperm : (st1.bases.map Prod.fst).Perm (st2.bases.map Prod.fst) := by
      refine (List.perm_ext_iff_of_nodup hinvA.basesNodup hinvB.basesNodup).2 ?_
      intro a
      rw [hpresA a, hpresB a]
    rw [hsum st1 hinvA hspanA, hsum st2 hinvB hspanB]
    exact List.Perm.sum_eq (hperm.map (fun d =>
      Module.finrank ℚ (gradedClosure A gens ops addDeg Lop d)))

theorem drain_order_invariant_witness :
    AmbWF witAmb ∧
    (∀ p ∈ ([(0, [[(0, (1 : ℚ))]])] : List (ℕ × List (List (ℕ × ℚ)))),
      ∀ v ∈ p.2, witAmb.isParentOf v = true) ∧
    subspaceInit witAmb [(0, [[(0, (1 : ℚ))]])] [] (fun a b => Except.ok (a + b))
      = (Except.ok (), ⟨[(0, ⟨[0], [[1]], 1, [[(0, (1 : ℚ))]], true⟩)], [],
          false, ⟨0, 1, 1⟩⟩) ∧
    drainWith witAmb [] (fun a b => Except.ok (a + b)) lifoPick 0
        ⟨[(0, ⟨[0], [[1]], 1, [[(0, (1 : ℚ))]], true⟩)], [], false, ⟨0, 1, 1⟩⟩
      = DrainRes.ok ⟨[(0, ⟨[0], [[1]], 1, [[(0, (1 : ℚ))]], true⟩)], [],
          false, ⟨0, 1, 1⟩⟩ ∧
    drainWith witAmb [] (fun a b => Except.ok (a + b)) fifoPick 0
        ⟨[(0, ⟨[0], [[1]], 1, [[(0, (1 : ℚ))]], true⟩)], [], false, ⟨0, 1, 1⟩⟩
      = DrainRes.ok ⟨[(0, ⟨[0], [[1]], 1, [[(0, (1 : ℚ))]], true⟩)], [],
          false, ⟨0, 1, 1⟩⟩ ∧
    ((∀ d, lookupD ((⟨[(0, ⟨[0], [[1]], 1, [[(0, (1 : ℚ))]], true⟩)], [],
          false, ⟨0, 1, 1⟩⟩ : SubState (List (ℕ × ℚ)) ℕ ℕ).bases.map
            (fun p => (p.1, cardinality p.2))) d
        = lookupD ((⟨[(0, ⟨[0], [[1]], 1, [[(0, (1 : ℚ))]], true⟩)], [],
          false, ⟨0, 1, 1⟩⟩ : SubState (List (ℕ × ℚ)) ℕ ℕ).bases.map
            (fun p => (p.1, cardinality p.2))) d) ∧
      ((⟨[(0, ⟨[0], [[1]], 1, [[(0, (1 : ℚ))]], true⟩)], [],
          false, ⟨0, 1, 1⟩⟩ : SubState (List (ℕ × ℚ)) ℕ ℕ).bases.map
            (fun p => cardinality p.2)).sum
        = ((⟨[(0, ⟨[0], [[1]], 1, [[(0, (1 : ℚ))]], true⟩)], [],
          false, ⟨0, 1, 1⟩⟩ : SubState (List (ℕ × ℚ)) ℕ ℕ).bases.map
            (fun p => cardinality p.2)).sum) :=
  ⟨witAmb_wf, by decide, by with_unfolding_all rfl, rfl, rfl,
    @drain_order_invariant (List (ℕ × ℚ)) ℕ ℕ _ _ witAmb witAmb_wf
      [(0, [[(0, (1 : ℚ))]])] [] (fun a b => Except.ok (a + b))
      (fun _ => LinearMap.id)
      (fun p hp => absurd hp (List.not_mem_nil p))
      (by decide) (by decide)
      ⟨[(0, ⟨[0], [[1]], 1, [[(0, (1 : ℚ))]], true⟩)], [], false, ⟨0, 1, 1⟩⟩
      (by with_unfolding_all rfl)
      lifoPick fifoPick 0 0
      ⟨[(0, ⟨[0], [[1]], 1, [[(0, (1 : ℚ))]], true⟩)], [], false, ⟨0, 1, 1⟩⟩
      ⟨[(0, ⟨[0], [[1]], 1, [[(0, (1 : ℚ))]], true⟩)], [], false, ⟨0, 1, 1⟩⟩
      rfl rfl⟩

/-- C6: an invalid degree shift is purely a local pruning decision: every
worklist item that `todo` adds beyond the ones already pending corresponds
to a shift that `add_degrees` accepted (an operator-table entry whose
degree combination raises is skipped wholesale, so no item — and hence no
bucket vector — is ever produced through it), and the invalid-degree error
never propagates to a caller of `dimension` or `dimensions`: any error they
return originates in `extend` and is not `invalidDegree`. -/
theorem invalid_degree_pruned {V κ D : Type} [DecidableEq κ] [DecidableEq D]
    (A : Ambient V κ) (ops : List (D × List (V → V)))
    (addDeg : D → D → Except PyErr D) :
    (∀ (todo : List (V × D × (V → V))) (d1 : D) (vs : List V)
      (it : V × D × (V → V)), it ∈ todoFn ops addDeg todo d1 vs →
      it ∈ todo ∨ ∃ d2 opsl, (d2, opsl) ∈ ops ∧ it.2.2 ∈ opsl ∧
        addDeg d1 d2 = Except.ok it.2.1 ∧ it.1 ∈ vs) ∧
    (∀ (fuel : ℕ) (st st' : SubState V κ D) (e : PyErr),
      dimension A ops addDeg fuel st = some (Except.error e, st') →
      e ≠ PyErr.invalidDegree) ∧
    (∀ (fuel : ℕ) (st st' : SubState V κ D) (e : PyErr),
      dimensions A ops addDeg fuel st = some (Except.error e, st') →
      e ≠ PyErr.invalidDegree) := by
  refine ⟨?_, ?_, ?_⟩
  · intro todo d1 vs it hit
    rw [todoFn_eq] at hit
    rcases List.mem_append.1 hit with h | h
    · exact Or.inl h
    · exact Or.inr (validItems_mem.1 h)
  · intro fuel st st' e h
    unfold dimension at h
    cases hF : finalize A ops addDeg fuel st with
    | ok st2 =>
      rw [hF] at h
      have h2 : (some (Except.ok ((st2.bases.map (fun p => cardinality p.2)).sum),
          st2) : Option (Except PyErr ℕ × SubState V κ D))
          = some (Except.error e, st') := h
      injection h2 with h3
      exact absurd (congrArg Prod.fst h3) (by simp)
    | err e2 st2 =>
      rw [hF] at h
      have h2 : (some ((Except.error e2 : Except PyErr ℕ), st2) :
          Option (Except PyErr ℕ × SubState V κ D))
          = some (Except.error e, st') := h
      injection h2 with h3
      have h4 : (Except.error e2 : Except PyErr ℕ) = Except.error e :=
        congrArg Prod.fst h3
      have h5 : e2 = e := by injection h4
      rw [← h5]
      rcases finalize_err_cases A ops addDeg fuel st hF with hc | hc
      · rw [hc]
        decide
      · rw [hc]
        decide
    | noFuel st2 =>
      rw [hF] at h
      exact Option.noConfusion (show (none : Option (Except PyErr ℕ ×
        SubState V κ D)) = some (Except.error e, st') from h)
  · intro fuel st st' e h
    unfold dimensions at h
    cases hF : finalize A ops addDeg fuel st with
    | ok st2 =>
      rw [hF] at h
      have h2 : (some (Except.ok (st2.bases.map (fun p => (p.1, cardinality p.2))),
          st2) : Option (Except PyErr (List (D × ℕ)) × SubState V κ D))
          = some (Except.error e, st') := h
      injection h2 with h3
      exact absurd (congrArg Prod.fst h3) (by simp)
    | err e2 st2 =>
      rw [hF] at h
      have h2 : (some ((Except.error e2 : Except PyErr (List (D × ℕ))), st2) :
          Option (Except PyErr (List (D × ℕ)) × SubState V κ D))
          = some (Except.error e, st') := h
      injection h2 with h3
      have h4 : (Except.error e2 : Except PyErr (List (D × ℕ)))
          = Except.error e := congrArg Prod.fst h3
      have h5 : e2 = e := by injection h4
      rw [← h5]
      rcases finalize_err_cases A ops addDeg fuel st hF with hc | hc
      · rw [hc]
        decide
      · rw [hc]
        decide
    | noFuel st2 =>
      rw [hF] at h
      exact Option.noConfusion (show (none : Option (Except PyErr (List (D × ℕ)) ×
        SubState V κ D)) = some (Except.error e, st') from h)

theorem invalid_degree_pruned_witness :
    (((([(0, (1 : ℚ))] : List (ℕ × ℚ)), 7, fun x => x) ∈
      todoFn [(5, [fun x => x])] (fun a b => Except.ok (a + b))
        ([] : List (List (ℕ × ℚ) × ℕ × (List (ℕ × ℚ) → List (ℕ × ℚ)))) 2
        [[(0, (1 : ℚ))]]) ∧
    (((([(0, (1 : ℚ))] : List (ℕ × ℚ)), 7, fun x => x) ∈
        ([] : List (List (ℕ × ℚ) × ℕ × (List (ℕ × ℚ) → List (ℕ × ℚ))))) ∨
      ∃ d2 opsl, (d2, opsl) ∈ [((5 : ℕ), [fun (x : List (ℕ × ℚ)) => x])] ∧
        (fun (x : List (ℕ × ℚ)) => x) ∈ opsl ∧
        (Except.ok (2 + d2) : Except PyErr ℕ) = Except.ok 7 ∧
        ([(0, (1 : ℚ))] : List (ℕ × ℚ)) ∈ [[(0, (1 : ℚ))]])) :=
  have hmem : ((([(0, (1 : ℚ))] : List (ℕ × ℚ)), 7, fun x => x) ∈
      todoFn [(5, [fun x => x])] (fun a b => Except.ok (a + b))
        ([] : List (List (ℕ × ℚ) × ℕ × (List (ℕ × ℚ) → List (ℕ × ℚ)))) 2
        [[(0, (1 : ℚ))]]) := by
    show (([(0, (1 : ℚ))] : List (ℕ × ℚ)), 7, fun x => x) ∈
      [((([(0, (1 : ℚ))] : List (ℕ × ℚ)), 7, fun (x : List (ℕ × ℚ)) => x))]
    exact List.mem_singleton.2 rfl
  ⟨hmem, (invalid_degree_pruned witAmb [(5, [fun x => x])]
    (fun a b => Except.ok (a + b))).1 [] 2 [[(0, (1 : ℚ))]]
    (([(0, (1 : ℚ))] : List (ℕ × ℚ)), 7, fun x => x) hmem⟩

/-- C7: `finalize` is memoized and idempotent: after a successful call the
flag is set, so a second call with any fuel returns the same state at once
(no drain step, no `extend` call, no statistics change), and `dimension` and
`dimensions` computed after the second call coincide with their values after
the first. -/
theorem finalize_idempotent {V κ D : Type} [DecidableEq κ] [DecidableEq D]
    (A : Ambient V κ) (ops : List (D × List (V → V)))
    (addDeg : D → D → Except PyErr D) (fuel fuel2 : ℕ)
    {st st1 : SubState V κ D}
    (h : finalize A ops addDeg fuel st = DrainRes.ok st1) :
    finalize A ops addDeg fuel2 st1 = DrainRes.ok st1 ∧
    dimension A ops addDeg fuel2 st1 = some (Except.ok
      ((st1.bases.map (fun p => cardinality p.2)).sum), st1) ∧
    dimensions A ops addDeg fuel2 st1 = some (Except.ok
      (st1.bases.map (fun p => (p.1, cardinality p.2))), st1) ∧
    dimension A ops addDeg fuel st = dimension A ops addDeg fuel2 st1 ∧
    dimensions A ops addDeg fuel st = dimensions A ops addDeg fuel2 st1 := by
  have hflag : st1.finalized = true := finalize_ok_flag A ops addDeg fuel h
  have hsecond : finalize A ops addDeg fuel2 st1 = DrainRes.ok st1 := by
    unfold finalize
    rw [if_pos hflag]
  have hdimA : dimension A ops addDeg fuel st = some (Except.ok
      ((st1.bases.map (fun p => cardinality p.2)).sum), st1) := by
    unfold dimension
    rw [h]
  have hdimB : dimension A ops addDeg fuel2 st1 = some (Except.ok
      ((st1.bases.map (fun p => cardinality p.2)).sum), st1) := by
    unfold dimension
    rw [hsecond]
  have hdimsA : dimensions A ops addDeg fuel st = some (Except.ok
      (st1.bases.map (fun p => (p.1, cardinality p.2))), st1) := by
    unfold dimensions
    rw [h]
  have hdimsB : dimensions A ops addDeg fuel2 st1 = some (Except.ok
      (st1.bases.map (fun p => (p.1, cardinality p.2))), st1) := by
    unfold dimensions
    rw [hsecond]
  exact ⟨hsecond, hdimB, hdimsB, by rw [hdimA, hdimB], by rw [hdimsA, hdimsB]⟩

theorem finalize_idempotent_witness :
    finalize witAmb [] (fun a b => Except.ok (a + b)) 0
        (⟨[], [], false, ⟨0, 0, 0⟩⟩ : SubState (List (ℕ × ℚ)) ℕ ℕ)
      = DrainRes.ok ⟨[], [], true, ⟨0, 0, 0⟩⟩ ∧
    (finalize witAmb [] (fun a b => Except.ok (a + b)) 3
        (⟨[], [], true, ⟨0, 0, 0⟩⟩ : SubState (List (ℕ × ℚ)) ℕ ℕ)
      = DrainRes.ok ⟨[], [], true, ⟨0, 0, 0⟩⟩ ∧
    dimension witAmb [] (fun a b => Except.ok (a + b)) 3
        (⟨[], [], true, ⟨0, 0, 0⟩⟩ : SubState (List (ℕ × ℚ)) ℕ ℕ)
      = some (Except.ok 0, ⟨[], [], true, ⟨0, 0, 0⟩⟩) ∧
    dimensions witAmb [] (fun a b => Except.ok (a + b)) 3
        (⟨[], [], true, ⟨0, 0, 0⟩⟩ : SubState (List (ℕ × ℚ)) ℕ ℕ)
      = some (Except.ok [], ⟨[], [], true, ⟨0, 0, 0⟩⟩) ∧
    dimension witAmb [] (fun a b => Except.ok (a + b)) 0
        (⟨[], [], false, ⟨0, 0, 0⟩⟩ : SubState (List (ℕ × ℚ)) ℕ ℕ)
      = dimension witAmb [] (fun a b => Except.ok (a + b)) 3
        ⟨[], [], true, ⟨0, 0, 0⟩⟩ ∧
    dimensions witAmb [] (fun a b => Except.ok (a + b)) 0
        (⟨[], [], false, ⟨0, 0, 0⟩⟩ : SubState (List (ℕ × ℚ)) ℕ ℕ)
      = dimensions witAmb [] (fun a b => Except.ok (a + b)) 3
        ⟨[], [], true, ⟨0, 0, 0⟩⟩) :=
  ⟨rfl, finalize_idempotent witAmb [] (fun a b => Except.ok (a + b)) 0 3 rfl⟩

/-! Facts about the left-kernel computation of `annihilator_basis`. -/

theorem length_unitRow {n i : ℕ} (h : i < n) : (unitRow n i).length = n := by
  unfold unitRow
  simp
  omega

theorem toFun_unitRow {n i : ℕ} (h : i < n) (j : ℕ) :
    toFun (unitRow n i) j = if j = i then 1 else 0 := by
  unfold unitRow
  rw [toFun_getD_eq]
  rcases Nat.lt_trichotomy j i with hj | hj | hj
  · rw [if_neg (by omega)]
    rw [List.getD_append _ _ _ _ (by simp; omega)]
    rw [List.getD_eq_getElem _ _ (by simp; omega)]
    simp
  · subst hj
    rw [if_pos rfl]
    rw [List.getD_append_right _ _ _ _ (by simp)]
    simp
  · rw [if_neg (by omega)]
    by_cases hlen : j < i + 1 + (n - i - 1)
    · rw [List.getD_append_right _ _ _ _ (by simp; omega)]
      rw [show j - (List.replicate i (0 : ℚ)).length = (j - i - 1) + 1 from by
        simp; omega]
      rw [List.getD_cons_succ]
      simp [List.getD]
    · rw [List.getD_eq_default _ _ (by simp; omega)]

theorem toFun_take (w : ℕ) (r : List ℚ) (j : ℕ) :
    toFun (r.take w) j = if j < w then toFun r j else 0 := by
  induction r generalizing w j with
  | nil =>
    rw [List.take_nil]
    by_cases h : j < w <;> simp [h, toFun]
  | cons a t ih =>
    cases w with
    | zero => simp [toFun]
    | succ w =>
      rw [List.take_cons_succ]
      cases j with
      | zero => simp [toFun_cons_zero]
      | succ j =>
        rw [toFun_cons_succ, toFun_cons_succ, ih]
        by_cases h : j < w
        · rw [if_pos h, if_pos (by omega)]
        · rw [if_neg h, if_neg (by omega)]

theorem toFun_drop (w : ℕ) (r : List ℚ) (j : ℕ) :
    toFun (r.drop w) j = toFun r (w + j) := by
  induction r generalizing w with
  | nil => simp [toFun]
  | cons a t ih =>
    cases w with
    | zero => rw [List.drop_zero, Nat.zero_add]
    | succ w =>
      rw [List.drop_succ_cons, ih]
      rw [show w + 1 + j = (w + j) + 1 from by omega, toFun_cons_succ]

theorem toFun_take_eq_truncL (w : ℕ) (r : List ℚ) :
    toFun (r.take w) = truncL w (toFun r) := by
  funext j
  rw [toFun_take]
  rfl

theorem toFun_drop_eq_shiftL (w : ℕ) (r : List ℚ) :
    toFun (r.drop w) = shiftL w (toFun r) := by
  funext j
  rw [toFun_drop]
  rfl

theorem leftZero_iff {w : ℕ} {r : List ℚ} :
    leftZero w r = true ↔ ∀ j, j < w → toFun r j = 0 := by
  unfold leftZero
  rw [List.all_eq_true]
  constructor
  · intro h j hj
    have h2 : toFun (r.take w) = 0 := by
      apply toFun_eq_zero_iff.2
      intro x hx
      exact of_decide_eq_true (h x hx)
    have h3 := congrFun h2 j
    rw [toFun_take, if_pos hj] at h3
    exact h3
  · intro h x hx
    apply decide_eq_true
    have h2 : toFun (r.take w) = 0 := by
      funext j
      rw [toFun_take]
      by_cases hj : j < w
      · rw [if_pos hj]
        exact h j hj
      · rw [if_neg hj]
        rfl
    exact toFun_eq_zero_iff.1 h2 x hx

theorem truncL_eq_zero {w : ℕ} {f : ℕ → ℚ} (h : ∀ j, j < w → f j = 0) :
    truncL w f = 0 := by
  funext j
  show (if j < w then f j else 0) = 0
  by_cases hj : j < w
  · rw [if_pos hj]
    exact h j hj
  · rw [if_neg hj]

theorem linIndepL_append_right {G F : List (List ℚ)}
    (h : LinIndepL (G ++ F)) : LinIndepL F := by
  induction G with
  | nil => exact h
  | cons a t ih => exact ih (linIndepL_cons_iff.1 h).1

theorem rowSpan_le_vanishLt {l : List (List ℚ)} {w : ℕ}
    (h : ∀ r ∈ l, leftZero w r = true) : rowSpan l ≤ vanishLt w := by
  refine rowSpan_le_of_forall_mem ?_
  intro r hr
  exact fun j hj => leftZero_iff.1 (h r hr) j hj

theorem rowSpan_le_ker_shiftL {l : List (List ℚ)} {n : ℕ}
    (h : ∀ r ∈ l, r.length ≤ n) : rowSpan l ≤ LinearMap.ker (shiftL n) := by
  refine rowSpan_le_of_forall_mem ?_
  intro r hr
  rw [LinearMap.mem_ker]
  funext j
  show toFun r (n + j) = 0
  exact toFun_eq_zero_of_ge (by have := h r hr; omega)

/-- Mapping a list of rows through a linear column operation preserves
independence when the operation is injective on their span. -/
theorem linIndepL_map {F : List (List ℚ)} {g : List ℚ → List ℚ}
    {L : (ℕ → ℚ) →ₗ[ℚ] (ℕ → ℚ)}
    (hg : ∀ r ∈ F, toFun (g r) = L (toFun r))
    (hind : LinIndepL F)
    (hdisj : Disjoint (rowSpan F) (LinearMap.ker L)) :
    LinIndepL (F.map g) := by
  have hlen : (F.map g).length = F.length := by simp
  have hcomp : famOf (F.map g) = (⇑L ∘ famOf F) ∘ (finCongr hlen) := by
    funext i
    have hi2 : i.1 < F.length := hlen ▸ i.2
    show toFun ((F.map g).get i) = L (famOf F (finCongr hlen i))
    have hget : (F.map g).get i = g (F.get ⟨i.1, hi2⟩) := by
      simp [List.get_eq_getElem]
    rw [hget, hg _ (List.get_mem F i.1 hi2)]
    rfl
  unfold LinIndepL
  rw [hcomp]
  refine LinearIndependent.comp ?_ _ (finCongr hlen).injective
  refine hind.map ?_
  rw [← rowSpan_eq_span_range]
  exact hdisj

/-- Split of an echelon-shaped matrix along the first `w` columns: the rows
whose matrix part survived come first and their truncations are independent
and span the truncated row space; the rows whose matrix part was eliminated
form the tail. -/
theorem gOut_left_split {w : ℕ} {e : List (List ℚ)} (hG : GOut e) :
    ∃ G F, e = G ++ F ∧ (∀ r ∈ G, leftZero w r = false) ∧
      (∀ r ∈ F, leftZero w r = true) ∧
      LinIndepL (G.map (List.take w)) ∧
      rowSpan (G.map (List.take w)) = Submodule.map (truncL w) (rowSpan e) := by
  induction hG with
  | @zeros rows hz =>
    refine ⟨[], rows, rfl, fun r hr => absurd hr (List.not_mem_nil r), ?_,
      linIndepL_nil, ?_⟩
    · intro r hr
      refine leftZero_iff.2 ?_
      intro j hj
      exact congrFun (hz r hr) j
    · rw [show ([] : List (List ℚ)).map (List.take w) = [] from rfl, rowSpan_nil]
      rw [rowSpan_zero_rows hz, Submodule.map_bot]
  | @step r p rows hp hz ht ih =>
    obtain ⟨G2, F2, hsplit, hGf, hFt, hGind, hGspan⟩ := ih
    by_cases hpw : p < w
    · refine ⟨r :: G2, F2, by rw [hsplit, List.cons_append], ?_, hFt, ?_, ?_⟩
      · intro s hs
        rcases List.mem_cons.1 hs with hh | hh
        · subst hh
          rw [Bool.eq_false_iff]
          intro hc
          exact (pivotP_eq_some_iff.1 hp).1 (leftZero_iff.1 hc p hpw)
        · exact hGf s hh
      · rw [List.map_cons]
        refine linIndepL_cons hGind ?_
        rw [hGspan]
        intro hmem
        obtain ⟨y, hy, hyx⟩ := Submodule.mem_map.1 hmem
        have hyp : y p = 0 :=
          mem_vanishUpTo.1 (rowSpan_le_vanishUpTo hz hy) p le_rfl
        have h2 := congrFun hyx p
        have h4 : (truncL w y) p = y p := by
          show (if p < w then y p else 0) = y p
          rw [if_pos hpw]
        rw [h4, hyp] at h2
        have h5 : toFun (r.take w) p = toFun r p := by
          rw [toFun_take, if_pos hpw]
        rw [← h2] at h5
        exact (pivotP_eq_some_iff.1 hp).1 h5.symm
      · rw [List.map_cons, rowSpan_cons, toFun_take_eq_truncL, hGspan,
            rowSpan_cons, Submodule.map_sup, Submodule.map_span,
            Set.image_singleton]
    · refine ⟨[], r :: rows, rfl, fun s hs => absurd hs (List.not_mem_nil s),
        ?_, linIndepL_nil, ?_⟩
      · intro s hs
        rcases List.mem_cons.1 hs with hh | hh
        · subst hh
          refine leftZero_iff.2 ?_
          intro j hj
          exact (pivotP_eq_some_iff.1 hp).2 j (by omega)
        · refine leftZero_iff.2 ?_
          intro j hj
          exact hz s hh j (by omega)
      · rw [show ([] : List (List ℚ)).map (List.take w) = [] from rfl, rowSpan_nil]
        symm
        have hle : Submodule.map (truncL w) (rowSpan (r :: rows)) ≤ ⊥ := by
          rw [show rowSpan (r :: rows)
            = Submodule.span ℚ (rowSet (r :: rows)) from rfl]
          rw [Submodule.map_span]
          refine Submodule.span_le.2 ?_
          rintro y ⟨x, hx, rfl⟩
          obtain ⟨s, hs, rfl⟩ := hx
          have hzero : truncL w (toFun s) = 0 := by
            refine truncL_eq_zero ?_
            intro j hj
            rcases List.mem_cons.1 hs with hh | hh
            · subst hh
              exact (pivotP_eq_some_iff.1 hp).2 j (by omega)
            · exact hz s hh j (by omega)
          rw [hzero]
          exact Submodule.zero_mem ⊥
        exact le_bot_iff.1 hle

/-- Correctness of the left-kernel basis: every returned coefficient row has
one entry per input row, combines the input rows to zero, the returned rows
are linearly independent, and their number is the row count minus the rank
of the input matrix. -/
theorem leftKernelBasis_spec {w : ℕ} {m : List (List ℚ)} (hUW : UW w m) :
    (∀ c ∈ leftKernelBasis w m, c.length = m.length) ∧
    (∀ c ∈ leftKernelBasis w m,
      (∑ i in Finset.range m.length, toFun c i • toFun (m.getD i [])) = 0) ∧
    LinIndepL (leftKernelBasis w m) ∧
    (leftKernelBasis w m).length + Module.finrank ℚ (rowSpan m) = m.length := by
  set n := m.length with hn
  set aug := (List.range n).map
    (fun i => padTo w (m.getD i []) ++ unitRow n i) with haug
  have haug_len : aug.length = n := by
    rw [haug]
    simp
  have haug_get : ∀ i, i < n →
      aug.getD i [] = padTo w (m.getD i []) ++ unitRow n i := by
    intro i hi
    rw [haug]
    rw [List.getD_eq_getElem _ _ (by simpa using hi)]
    rw [List.getElem_map, List.getElem_range]
  have hm_len : ∀ i, i < n → (m.getD i []).length = w := by
    intro i hi
    exact hUW _ (getD_mem hi [])
  have hUWaug : UW (w + n) aug := by
    intro r hr
    rw [haug] at hr
    obtain ⟨i, hi, rfl⟩ := List.mem_map.1 hr
    have hi2 : i < n := List.mem_range.1 hi
    rw [List.length_append, length_unitRow hi2, length_padTo]
    have := hm_len i hi2
    omega
  have hraw_lt : ∀ i, i < n → ∀ j, j < w →
      toFun (padTo w (m.getD i []) ++ unitRow n i) j = toFun (m.getD i []) j := by
    intro i hi j hj
    rw [toFun_append]
    rw [if_pos (by rw [length_padTo]; have := hm_len i hi; omega)]
    rw [toFun_padTo]
  have hraw_ge : ∀ i, i < n → ∀ j,
      toFun (padTo w (m.getD i []) ++ unitRow n i) (w + j)
        = if j = i then 1 else 0 := by
    intro i hi j
    have hlenp : (padTo w (m.getD i [])).length = w := by
      rw [length_padTo]
      have := hm_len i hi
      omega
    rw [toFun_append, hlenp]
    rw [if_neg (by omega)]
    rw [show w + j - w = j from by omega]
    exact toFun_unitRow hi j
  have hrow_ge : ∀ i, i < n → ∀ j,
      toFun (aug.getD i []) (w + j) = if j = i then 1 else 0 := by
    intro i hi j
    rw [haug_get i hi]
    exact hraw_ge i hi j
  have hindaug : LinIndepL aug := by
    unfold LinIndepL
    rw [Fintype.linearIndependent_iff]
    intro g hg i
    have h1 := congrFun hg (w + i.1)
    rw [Finset.sum_apply] at h1
    have h2 : ∀ k : Fin aug.length,
        (g k • famOf aug k) (w + i.1) = if i.1 = k.1 then g k else 0 := by
      intro k
      have hk2 : k.1 < n := haug_len ▸ k.2
      rw [Pi.smul_apply, smul_eq_mul, famOf_getD]
      rw [hrow_ge k.1 hk2 i.1]
      by_cases hik : i.1 = k.1
      · rw [if_pos hik, if_pos hik, mul_one]
      · rw [if_neg hik, if_neg hik, mul_zero]
    rw [Finset.sum_congr rfl (fun k _ => h2 k)] at h1
    have h3 : ∀ k : Fin aug.length,
        (if i.1 = k.1 then g k else 0) = (if i = k then g k else 0) := by
      intro k
      by_cases hik : i = k
      · rw [if_pos (by rw [hik]), if_pos hik]
      · rw [if_neg (fun hc => hik (Fin.ext hc)), if_neg hik]
    rw [Finset.sum_congr rfl (fun k _ => h3 k)] at h1
    rw [Finset.sum_ite_eq] at h1
    rw [if_pos (Finset.mem_univ i)] at h1
    exact h1
  have hee : echelonize aug = gaussF aug.length aug := rfl
  obtain ⟨helen, heUW, hespan, heGOut⟩ :=
    gaussF_master aug.length aug hUWaug le_rfl
  rw [← hee] at helen heUW hespan heGOut
  have helen2 : (echelonize aug).length = n := by rw [helen, haug_len]
  have hinde : LinIndepL (echelonize aug) := by
    obtain ⟨P, Z, hPZ, hZ0, hPnz, hPind, hPspan⟩ := gOut_split heGOut
    have hfrP : Module.finrank ℚ (rowSpan P) = n := by
      rw [hPspan, hespan, linIndepL_finrank hindaug, haug_len]
    have hPge : n ≤ P.length := by
      have := finrank_rowSpan_le P
      omega
    have h1 := congrArg List.length hPZ
    rw [List.length_append, helen2] at h1
    have hZnil : Z = [] := List.length_eq_zero.1 (by omega)
    rw [hPZ, hZnil, List.append_nil]
    exact hPind
  obtain ⟨G, F, hGF, hGfalse, hFtrue, hGind, hGspan⟩ :=
    gOut_left_split (w := w) heGOut
  have hfilter : (echelonize aug).filter (fun r => leftZero w r) = F := by
    rw [hGF, List.filter_append]
    have h1 : G.filter (fun r => leftZero w r) = [] := by
      rw [List.filter_eq_nil]
      intro a ha hc
      rw [hGfalse a ha] at hc
      exact Bool.noConfusion hc
    have h2 : F.filter (fun r => leftZero w r) = F := by
      rw [List.filter_eq_self]
      intro a ha
      exact hFtrue a ha
    rw [h1, h2, List.nil_append]
  have hKdef : leftKernelBasis w m = F.map (fun r => r.drop w) := by
    show ((echelonize aug).filter (fun r => leftZero w r)).map (fun r => r.drop w)
      = F.map (fun r => r.drop w)
    rw [hfilter]
  have hFe : ∀ r ∈ F, r ∈ echelonize aug := by
    intro r hr
    rw [hGF]
    exact List.mem_append_right G hr
  have hFlen : ∀ r ∈ F, r.length = w + n := fun r hr => heUW r (hFe r hr)
  have hc1 : ∀ c ∈ leftKernelBasis w m, c.length = n := by
    intro c hc
    rw [hKdef] at hc
    obtain ⟨r, hr, rfl⟩ := List.mem_map.1 hc
    rw [List.length_drop, hFlen r hr]
    omega
  have hker : rowSpan aug ≤ LinearMap.ker ((truncL w) - ∑ i in Finset.range n,
      (LinearMap.proj (w + i) : (ℕ → ℚ) →ₗ[ℚ] ℚ).smulRight
        (toFun (m.getD i []))) := by
    refine rowSpan_le_of_forall_mem ?_
    intro r hr
    rw [haug] at hr
    obtain ⟨i0, hi0, rfl⟩ := List.mem_map.1 hr
    have hi02 : i0 < n := List.mem_range.1 hi0
    rw [LinearMap.mem_ker, LinearMap.sub_apply, sub_eq_zero]
    funext k
    rw [LinearMap.sum_apply, Finset.sum_apply]
    have hterm : ∀ i ∈ Finset.range n,
        (((LinearMap.proj (w + i) : (ℕ → ℚ) →ₗ[ℚ] ℚ).smulRight
            (toFun (m.getD i [])))
          (toFun (padTo w (m.getD i0 []) ++ unitRow n i0))) k
        = (if i = i0 then 1 else 0) * toFun (m.getD i []) k := by
      intro i hi
      rw [LinearMap.smulRight_apply, Pi.smul_apply, smul_eq_mul]
      congr 1
      exact hraw_ge i0 hi02 i
    rw [Finset.sum_congr rfl hterm]
    rw [Finset.sum_eq_single i0
      (fun b hb hbne => by rw [if_neg hbne, zero_mul])
      (fun hc => absurd (Finset.mem_range.2 hi02) hc)]
    rw [if_pos rfl, one_mul]
    show (if k < w then toFun (padTo w (m.getD i0 []) ++ unitRow n i0) k else 0)
      = toFun (m.getD i0 []) k
    by_cases hk : k < w
    · rw [if_pos hk]
      exact hraw_lt i0 hi02 k hk
    · rw [if_neg hk]
      symm
      exact toFun_eq_zero_of_ge (by rw [hm_len i0 hi02]; omega)
  have hc2 : ∀ c ∈ leftKernelBasis w m,
      (∑ i in Finset.range n, toFun c i • toFun (m.getD i [])) = 0 := by
    intro c hc
    rw [hKdef] at hc
    obtain ⟨f, hf, rfl⟩ := List.mem_map.1 hc
    have hfspan : toFun f ∈ rowSpan aug := by
      rw [← hespan]
      exact mem_rowSpan_of_mem (hFe f hf)
    have h0 := hker hfspan
    rw [LinearMap.mem_ker, LinearMap.sub_apply, sub_eq_zero] at h0
    have hleft : truncL w (toFun f) = 0 :=
      truncL_eq_zero (fun j hj => leftZero_iff.1 (hFtrue f hf) j hj)
    rw [hleft] at h0
    rw [LinearMap.sum_apply] at h0
    have hterm2 : ∀ i ∈ Finset.range n,
        ((LinearMap.proj (w + i) : (ℕ → ℚ) →ₗ[ℚ] ℚ).smulRight
          (toFun (m.getD i []))) (toFun f)
        = toFun (f.drop w) i • toFun (m.getD i []) := by
      intro i hi
      rw [LinearMap.smulRight_apply]
      congr 1
      rw [toFun_drop]
      rfl
    rw [Finset.sum_congr rfl hterm2] at h0
    exact h0.symm
  have hindF : LinIndepL F := by
    have h1 := hinde
    rw [hGF] at h1
    exact linIndepL_append_right h1
  have hc3 : LinIndepL (leftKernelBasis w m) := by
    rw [hKdef]
    refine linIndepL_map (L := shiftL w) ?_ hindF ?_
    · intro r hr
      exact toFun_drop_eq_shiftL w r
    · rw [Submodule.disjoint_def]
      intro x hxF hxker
      have hvan : ∀ j, j < w → x j = 0 := rowSpan_le_vanishLt hFtrue hxF
      have hshift : ∀ j, x (w + j) = 0 := by
        rw [LinearMap.mem_ker] at hxker
        intro j
        exact congrFun hxker j
      funext j
      by_cases hj : j < w
      · exact hvan j hj
      · have h2 : x (w + (j - w)) = 0 := hshift (j - w)
        rw [show w + (j - w) = j from by omega] at h2
        exact h2
  have htrunc_aug : ∀ i, i < n →
      truncL w (toFun (padTo w (m.getD i []) ++ unitRow n i))
        = toFun (m.getD i []) := by
    intro i hi
    funext k
    show (if k < w then toFun (padTo w (m.getD i []) ++ unitRow n i) k else 0)
      = toFun (m.getD i []) k
    by_cases hk : k < w
    · rw [if_pos hk]
      exact hraw_lt i hi k hk
    · rw [if_neg hk]
      symm
      exact toFun_eq_zero_of_ge (by rw [hm_len i hi]; omega)
  have hc4 : (leftKernelBasis w m).length + Module.finrank ℚ (rowSpan m) = n := by
    have hKlen : (leftKernelBasis w m).length = F.length := by
      rw [hKdef, List.length_map]
    have hspanm : rowSpan m = rowSpan (G.map (List.take w)) := by
      rw [hGspan, hespan]
      rw [show rowSpan aug = Submodule.span ℚ (rowSet aug) from rfl]
      rw [Submodule.map_span]
      rw [show rowSpan m = Submodule.span ℚ (rowSet m) from rfl]
      congr 1
      ext y
      constructor
      · rintro ⟨r, hr, rfl⟩
        obtain ⟨i, hi⟩ := List.mem_iff_get.1 hr
        refine ⟨toFun (padTo w (m.getD i.1 []) ++ unitRow n i.1), ?_, ?_⟩
        · refine ⟨padTo w (m.getD i.1 []) ++ unitRow n i.1, ?_, rfl⟩
          rw [haug]
          exact List.mem_map.2 ⟨i.1, List.mem_range.2 i.2, rfl⟩
        · rw [htrunc_aug i.1 i.2]
          rw [show m.getD i.1 [] = m.get i from by
            rw [List.getD_eq_getElem _ _ i.2]; rfl]
          rw [hi]
      · rintro ⟨x, ⟨r, hr, rfl⟩, rfl⟩
        rw [haug] at hr
        obtain ⟨i, hi, rfl⟩ := List.mem_map.1 hr
        have hi2 : i < n := List.mem_range.1 hi
        exact ⟨m.getD i [], getD_mem hi2 [], (htrunc_aug i hi2).symm⟩
    have hGlen : Module.finrank ℚ (rowSpan m) = G.length := by
      rw [hspanm, linIndepL_finrank hGind, List.length_map]
    have h1 := congrArg List.length hGF
    rw [List.length_append, helen2] at h1
    rw [hKlen, hGlen]
    omega
  exact ⟨hc1, hc2, hc3, hc4⟩

theorem rawWF_empty {V κ : Type} [DecidableEq κ] (A : Ambient V κ) :
    RawWF A (MatrixOfVectors.empty V κ) [] := by
  refine ⟨List.nodup_nil, rfl, ?_, Nat.le_refl 0, ?_, ?_⟩
  · intro r hr
    exact absurd hr (List.not_mem_nil r)
  · intro i
    exact absurd i.2 (Nat.not_lt_zero i.1)
  · intro v hv
    exact absurd hv (List.not_mem_nil v)

theorem add_vector_raw {V κ : Type} [DecidableEq κ] {A : Ambient V κ} (hA : AmbWF A)
    {s : MatrixOfVectors V κ} {vs : List V} (hWF : RawWF A s vs)
    {v : V} (hv : A.isParentOf v = true) (st : Stats) :
    ∃ s2 st2, add_vector A s v st = (.ok (), s2, st2) ∧ RawWF A s2 (vs ++ [v]) := by
  obtain ⟨row, ext, hpv, hnd, hrl, hsem, hsupp2, hext⟩ :=
    plain_vector_spec hA hWF.keysNodup hv
  obtain ⟨M2, hadd, hM2len, hM2UW, hM2sem⟩ :=
    addVectorToMatrix_spec hWF.matUW
      (by rw [hrl, List.length_append]; have := hWF.ncolsLe; omega)
  refine ⟨{ s with
      keys := s.keys ++ ext
      mat := M2 ++ [row]
      ncols := row.length
      isEchelon := false },
    { st with add_vector := st.add_vector + 1 }, ?_, ?_⟩
  · unfold add_vector
    dsimp only
    rw [hpv]
    dsimp only
    rw [hadd]
  · refine ⟨hnd, ?_, ?_, le_of_eq hrl, ?_, ?_⟩
    · show (M2 ++ [row]).length = (vs ++ [v]).length
      simp [hM2len, hWF.matLen]
    · show UW row.length (M2 ++ [row])
      intro r hr
      rcases List.mem_append.1 hr with h | h
      · exact hM2UW r h
      · rw [List.mem_singleton.1 h]
    · intro i
      show toFun ((M2 ++ [row]).getD i.1 [])
        = TkF (s.keys ++ ext) (coordFn A ((vs ++ [v]).get i))
      have hi : i.1 < vs.length + 1 := lt_of_lt_of_eq i.2 (by simp)
      by_cases hlt : i.1 < vs.length
      · have hM2i : i.1 < M2.length := by rw [hM2len, hWF.matLen]; exact hlt
        have h1 : toFun ((M2 ++ [row]).getD i.1 []) = toFun (M2.getD i.1 []) := by
          rw [List.getD_eq_getElem _ _ (show i.1 < (M2 ++ [row]).length from by
            have h5 : (M2 ++ [row]).length = M2.length + 1 := by simp
            omega)]
          rw [List.getD_eq_getElem _ _ hM2i]
          rw [List.getElem_append_left hM2i]
        have h4 : (vs ++ [v]).get i = vs.get ⟨i.1, hlt⟩ := by
          simp only [List.get_eq_getElem]
          exact List.getElem_append_left hlt
        calc toFun ((M2 ++ [row]).getD i.1 [])
            = toFun (M2.getD i.1 []) := h1
          _ = toFun (s.mat.getD i.1 []) := hM2sem ⟨i.1, hM2i⟩
          _ = TkF s.keys (coordFn A (vs.get ⟨i.1, hlt⟩)) := hWF.rowsSem ⟨i.1, hlt⟩
          _ = TkF (s.keys ++ ext) (coordFn A (vs.get ⟨i.1, hlt⟩)) :=
              (TkF_ext_stable hnd (hWF.vsSupp _ (List.get_mem vs i.1 hlt))).symm
          _ = TkF (s.keys ++ ext) (coordFn A ((vs ++ [v]).get i)) := by rw [h4]
      · have hieq : i.1 = vs.length := by
          have := List.length_append vs [v]
          omega
        have h1 : (M2 ++ [row]).getD i.1 [] = row := by
          have hge : M2.length ≤ i.1 := by rw [hM2len, hWF.matLen]; omega
          rw [List.getD_eq_getElem _ _ (show i.1 < (M2 ++ [row]).length from by
            have h5 : (M2 ++ [row]).length = M2.length + 1 := by simp
            have h6 := hWF.matLen
            omega)]
          rw [List.getElem_append_right hge]
          simp
        have h2 : (vs ++ [v]).get i = v := by
          simp only [List.get_eq_getElem]
          rw [List.getElem_append_right (by omega)]
          simp
        rw [h1, h2]
        exact hsem
    · intro u hu k hk
      rcases List.mem_append.1 hu with h | h
      · exact List.mem_append_left ext (hWF.vsSupp u h k hk)
      · rw [List.mem_singleton.1 h] at hk
        exact hsupp2 k hk

theorem foldl_add_vector_raw {V κ : Type} [DecidableEq κ] {A : Ambient V κ}
    (hA : AmbWF A) :
    ∀ (vs pre : List V) (s : MatrixOfVectors V κ) (st : Stats),
      (∀ v ∈ vs, A.isParentOf v = true) → RawWF A s pre →
      ∃ s2 st2,
        vs.foldl
          (fun (acc : Except PyErr Unit × MatrixOfVectors V κ × Stats) v =>
            match acc.1 with
            | .error _ => acc
            | .ok _ => add_vector A acc.2.1 v acc.2.2)
          (Except.ok (), s, st) = (Except.ok (), s2, st2) ∧
        RawWF A s2 (pre ++ vs)
  | [], pre, s, st, _, hWF => by
    refine ⟨s, st, rfl, ?_⟩
    rw [List.append_nil]
    exact hWF
  | v :: rest, pre, s, st, hpar, hWF => by
    obtain ⟨s1, st1, heq, hWF1⟩ :=
      add_vector_raw hA hWF (hpar v (List.mem_cons_self v rest)) st
    rw [List.foldl_cons]
    show ∃ s2 st2,
      List.foldl
        (fun (acc : Except PyErr Unit × MatrixOfVectors V κ × Stats) v =>
          match acc.1 with
          | .error _ => acc
          | .ok _ => add_vector A acc.2.1 v acc.2.2)
        (add_vector A s v st) rest = (Except.ok (), s2, st2) ∧
      RawWF A s2 (pre ++ v :: rest)
    rw [heq]
    obtain ⟨s2, st2, heq2, hWF2⟩ := foldl_add_vector_raw hA rest (pre ++ [v]) s1 st1
      (fun u hu => hpar u (List.mem_cons_of_mem v hu)) hWF1
    refine ⟨s2, st2, heq2, ?_⟩
    rw [List.append_cons]
    exact hWF2

theorem mkMatrixOfVectors_raw {V κ : Type} [DecidableEq κ] {A : Ambient V κ}
    (hA : AmbWF A) (vs : List V) (hpar : ∀ v ∈ vs, A.isParentOf v = true)
    (st : Stats) :
    ∃ s2 st2, mkMatrixOfVectors A vs st = (.ok (), s2, st2) ∧ RawWF A s2 vs := by
  obtain ⟨s2, st2, heq, hWF⟩ :=
    foldl_add_vector_raw hA vs [] (MatrixOfVectors.empty V κ) st hpar (rawWF_empty A)
  refine ⟨s2, st2, ?_, ?_⟩
  · unfold mkMatrixOfVectors
    exact heq
  · rw [List.nil_append] at hWF
    exact hWF

theorem blocksStep_ok {V κ α : Type} [DecidableEq κ] {A : Ambient V κ} {B : List V}
    {action : α → V → V} {s : α} {M : MatrixOfVectors V κ} {stM : Stats}
    (hmk : mkMatrixOfVectors A (B.map (action s)) ⟨0, 0, 0⟩ = (.ok (), M, stM))
    (rows0 : List (List ℚ)) (w0 : ℕ) :
    blocksStep A B action (.ok (rows0, w0)) s
      = .ok (List.zipWith (fun r b => r ++ padTo M.ncols b) rows0 M.mat,
          w0 + M.ncols) := by
  unfold blocksStep
  rw [hmk]

theorem getD_zipWith_append {rows blocks : List (List ℚ)} {nc : ℕ} {i : ℕ}
    (hi : i < rows.length) (hi2 : i < blocks.length) :
    (List.zipWith (fun r b => r ++ padTo nc b) rows blocks).getD i []
      = rows.getD i [] ++ padTo nc (blocks.getD i []) := by
  rw [List.getD_eq_getElem _ _ (by rw [List.length_zipWith]; omega)]
  rw [List.getElem_zipWith]
  rw [List.getD_eq_getElem _ _ hi, List.getD_eq_getElem _ _ hi2]

theorem annihilator_blocks_fold {V κ α : Type} [DecidableEq κ] {A : Ambient V κ}
    (hA : AmbWF A) (B : List V) (action : α → V → V) :
    ∀ (S : List α) (rows0 : List (List ℚ)) (w0 : ℕ),
      (∀ s ∈ S, ∀ b ∈ B, A.isParentOf (action s b) = true) →
      rows0.length = B.length → UW w0 rows0 →
      ∃ rows w,
        S.foldl (blocksStep A B action) (.ok (rows0, w0)) = .ok (rows, w) ∧
        rows.length = B.length ∧ UW w rows ∧
        ∀ c : List ℚ,
          (∑ i : Fin B.length, toFun c i.1 • toFun (rows.getD i.1 [])) = 0 →
          (∑ i : Fin B.length, toFun c i.1 • toFun (rows0.getD i.1 [])) = 0 ∧
          ∀ s ∈ S, (∑ i : Fin B.length,
            toFun c i.1 • coordFn A (action s (B.get i))) = 0
  | [], rows0, w0, _, hlen0, hUW0 =>
    ⟨rows0, w0, rfl, hlen0, hUW0,
      fun _ hc => ⟨hc, fun s hs => absurd hs (List.not_mem_nil s)⟩⟩
  | s :: rest, rows0, w0, hact, hlen0, hUW0 => by
    obtain ⟨M, stM, hmk, hRWF⟩ := mkMatrixOfVectors_raw hA (B.map (action s))
      (by
        intro u hu
        obtain ⟨b, hb, rfl⟩ := List.mem_map.1 hu
        exact hact s (List.mem_cons_self s rest) b hb) ⟨0, 0, 0⟩
    have hMlen : M.mat.length = B.length := by
      have h1 := hRWF.matLen
      rw [List.length_map] at h1
      exact h1
    set rows1 := List.zipWith (fun r b => r ++ padTo M.ncols b) rows0 M.mat
      with hrows1
    have hlen1 : rows1.length = B.length := by
      rw [hrows1, List.length_zipWith, hlen0, hMlen]
      exact Nat.min_self _
    have hrow1 : ∀ i, i < B.length →
        rows1.getD i [] = rows0.getD i [] ++ padTo M.ncols (M.mat.getD i []) :=
      fun i hi => getD_zipWith_append (by rw [hlen0]; exact hi)
        (by rw [hMlen]; exact hi)
    have hUW1 : UW (w0 + M.ncols) rows1 := by
      intro r hr
      obtain ⟨i, hig⟩ := List.mem_iff_get.1 hr
      have hi2 : i.1 < B.length := by rw [← hlen1]; exact i.2
      have hgd : rows1.getD i.1 [] = r := by
        rw [List.getD_eq_getElem _ _ i.2]
        rw [← hig]
        rfl
      rw [← hgd, hrow1 i.1 hi2]
      rw [List.length_append, length_padTo]
      have h1 : (rows0.getD i.1 []).length = w0 :=
        hUW0 _ (getD_mem (by rw [hlen0]; exact hi2) [])
      have h2 : (M.mat.getD i.1 []).length = M.ncols :=
        hRWF.matUW _ (getD_mem (by rw [hMlen]; exact hi2) [])
      omega
    have hsem_i : ∀ i : Fin B.length,
        toFun (M.mat.getD i.1 []) = TkF M.keys (coordFn A (action s (B.get i))) := by
      intro i
      have hilt : i.1 < (B.map (action s)).length := by
        rw [List.length_map]
        exact i.2
      have h1 := hRWF.rowsSem ⟨i.1, hilt⟩
      have h2 : (B.map (action s)).get ⟨i.1, hilt⟩ = action s (B.get i) := by
        simp only [List.get_eq_getElem, List.getElem_map]
      rw [h2] at h1
      exact h1
    have htake : ∀ i : Fin B.length,
        truncL w0 (toFun (rows1.getD i.1 [])) = toFun (rows0.getD i.1 []) := by
      intro i
      rw [← toFun_take_eq_truncL]
      rw [hrow1 i.1 i.2]
      rw [List.take_left' (hUW0 _ (getD_mem (by rw [hlen0]; exact i.2) []))]
    have hdrop : ∀ i : Fin B.length,
        shiftL w0 (toFun (rows1.getD i.1 [])) = toFun (M.mat.getD i.1 []) := by
      intro i
      rw [← toFun_drop_eq_shiftL]
      rw [hrow1 i.1 i.2]
      rw [List.drop_left' (hUW0 _ (getD_mem (by rw [hlen0]; exact i.2) []))]
      rw [toFun_padTo]
    have htrans : ∀ c : List ℚ,
        (∑ i : Fin B.length, toFun c i.1 • toFun (rows1.getD i.1 [])) = 0 →
        (∑ i : Fin B.length, toFun c i.1 • toFun (rows0.getD i.1 [])) = 0 ∧
        (∑ i : Fin B.length, toFun c i.1 • coordFn A (action s (B.get i))) = 0 := by
      intro c hc
      constructor
      · have h1 : truncL w0 (∑ i : Fin B.length,
            toFun c i.1 • toFun (rows1.getD i.1 [])) = 0 := by
          rw [hc, map_zero]
        rw [map_sum] at h1
        have hterm : ∀ i : Fin B.length,
            truncL w0 (toFun c i.1 • toFun (rows1.getD i.1 []))
              = toFun c i.1 • toFun (rows0.getD i.1 []) := by
          intro i
          rw [map_smul, htake i]
        rw [Finset.sum_congr rfl (fun i _ => hterm i)] at h1
        exact h1
      · have h2 : shiftL w0 (∑ i : Fin B.length,
            toFun c i.1 • toFun (rows1.getD i.1 [])) = 0 := by
          rw [hc, map_zero]
        rw [map_sum] at h2
        have hterm2 : ∀ i : Fin B.length,
            shiftL w0 (toFun c i.1 • toFun (rows1.getD i.1 []))
              = toFun c i.1 • TkF M.keys (coordFn A (action s (B.get i))) := by
          intro i
          rw [map_smul, hdrop i, hsem_i i]
        rw [Finset.sum_congr rfl (fun i _ => hterm2 i)] at h2
        have h3 : TkF M.keys (∑ i : Fin B.length,
            toFun c i.1 • coordFn A (action s (B.get i))) = 0 := by
          funext j
          show TkF M.keys _ j = 0
          unfold TkF
          by_cases hj : j < M.keys.length
          · rw [dif_pos hj]
            rw [Finset.sum_apply]
            have h4 := congrFun h2 j
            rw [Finset.sum_apply] at h4
            have h5 : ∀ i : Fin B.length,
                (toFun c i.1 • TkF M.keys (coordFn A (action s (B.get i)))) j
                  = (toFun c i.1 • coordFn A (action s (B.get i)))
                      (M.keys.get ⟨j, hj⟩) := by
              intro i
              rw [Pi.smul_apply, Pi.smul_apply]
              congr 1
              show TkF M.keys (coordFn A (action s (B.get i))) j = _
              unfold TkF
              rw [dif_pos hj]
            rw [Finset.sum_congr rfl (fun i _ => h5 i)] at h4
            exact h4
          · rw [dif_neg hj]
        have hmem : (∑ i : Fin B.length,
            toFun c i.1 • coordFn A (action s (B.get i))) ∈ suppIn M.keys := by
          refine Submodule.sum_mem _ ?_
          intro i _
          refine Submodule.smul_mem _ _ ?_
          intro k hk
          exact hRWF.vsSupp _
            (List.mem_map.2 ⟨B.get i, List.get_mem B i.1 i.2, rfl⟩) k hk
        exact TkF_zero_of_supp (fun k hk => hmem k hk) h3
    obtain ⟨rows, w, heq2, hlen2, hUW2, hcond2⟩ :=
      annihilator_blocks_fold hA B action rest rows1 (w0 + M.ncols)
        (fun s2 hs2 b hb => hact s2 (List.mem_cons_of_mem s hs2) b hb) hlen1 hUW1
    refine ⟨rows, w, ?_, hlen2, hUW2, ?_⟩
    · rw [List.foldl_cons]
      rw [blocksStep_ok hmk rows0 w0]
      exact heq2
    · intro c hc
      obtain ⟨hc1, hcrest⟩ := hcond2 c hc
      obtain ⟨hc0, hcs⟩ := htrans c hc1
      refine ⟨hc0, ?_⟩
      intro s2 hs2
      rcases List.mem_cons.1 hs2 with h | h
      · rw [h]
        exact hcs
      · exact hcrest s2 h

/-- C5: for a finite family `B` that is linearly independent (read through
its coordinate functions, so `rank(B) = B.length`), a finite actor family
`S`, and an action whose images lie in the ambient space, `annihilator_basis`
succeeds and returns coefficient rows of combinations of `B` such that:
every row has one coefficient per element of `B`; the combination defined by
every returned row is sent to zero by the action of every actor in `S` (its
coordinate-wise action image vanishes); the returned rows are linearly
independent, and so are the combination vectors they define; and the number
of returned rows is the kernel dimension `rank(B) − rank(stacked
action-image matrix)`: the count plus the rank of the stacked matrix `M`
equals `B.length`, which equals `rank(B)`. -/
theorem annihilator_basis_spec {V κ α : Type} [DecidableEq κ] {A : Ambient V κ}
    (hA : AmbWF A) (B : List V) (S : List α) (action : α → V → V)
    (hact : ∀ s ∈ S, ∀ b ∈ B, A.isParentOf (action s b) = true)
    (hBind : LinearIndependent ℚ (fun i : Fin B.length => coordFn A (B.get i))) :
    ∃ M W K,
      annihilator_blocks A B S action = .ok (M, W) ∧
      annihilator_basis A B S action = .ok K ∧
      (∀ c ∈ K, c.length = B.length) ∧
      (∀ c ∈ K, ∀ s ∈ S,
        (∑ i : Fin B.length, toFun c i.1 • coordFn A (action s (B.get i))) = 0) ∧
      LinIndepL K ∧
      Module.finrank ℚ (Submodule.span ℚ
        (Set.range (fun i : Fin B.length => coordFn A (B.get i)))) = B.length ∧
      K.length + Module.finrank ℚ (rowSpan M) = B.length ∧
      LinearIndependent ℚ (fun j : Fin K.length =>
        ∑ i : Fin B.length, toFun (K.get j) i.1 • coordFn A (B.get i)) := by
  obtain ⟨M, W, hfold, hMlenB, hMUW, hcond⟩ :=
    annihilator_blocks_fold hA B action S (List.replicate B.length []) 0 hact
      (by simp)
      (by
        intro r hr
        rw [List.eq_of_mem_replicate hr]
        rfl)
  have hblocks : annihilator_blocks A B S action = .ok (M, W) := by
    unfold annihilator_blocks
    exact hfold
  have hbasis : annihilator_basis A B S action = .ok (leftKernelBasis W M) := by
    unfold annihilator_basis
    rw [hblocks]
  obtain ⟨hk1, hk2, hk3, hk4⟩ := leftKernelBasis_spec hMUW
  set K := leftKernelBasis W M with hKdef2
  have hc1B : ∀ c ∈ K, c.length = B.length := by
    intro c hc
    rw [hk1 c hc, hMlenB]
  have hannih : ∀ c ∈ K, ∀ s ∈ S,
      (∑ i : Fin B.length, toFun c i.1 • coordFn A (action s (B.get i))) = 0 := by
    intro c hc s hs
    have hfin : (∑ i : Fin B.length, toFun c i.1 • toFun (M.getD i.1 [])) = 0 := by
      rw [Fin.sum_univ_eq_sum_range
        (fun i => toFun c i • toFun (M.getD i [])) B.length]
      rw [← hMlenB]
      exact hk2 c hc
    exact (hcond c hfin).2 s hs
  have hrkB : Module.finrank ℚ (Submodule.span ℚ
      (Set.range (fun i : Fin B.length => coordFn A (B.get i)))) = B.length := by
    rw [finrank_span_eq_card hBind]
    exact Fintype.card_fin _
  have hcount : K.length + Module.finrank ℚ (rowSpan M) = B.length := by
    rw [← hMlenB]
    exact hk4
  have hKget : ∀ j : Fin K.length, K.get j = K.getD j.1 [] := by
    intro j
    rw [List.getD_eq_getElem _ _ j.2]
    rfl
  set Lc := (∑ i : Fin B.length,
    ((LinearMap.proj i.1 : (ℕ → ℚ) →ₗ[ℚ] ℚ).smulRight (coordFn A (B.get i))))
    with hLc
  have hfam2 : (fun j : Fin K.length =>
      ∑ i : Fin B.length, toFun (K.get j) i.1 • coordFn A (B.get i))
      = ⇑Lc ∘ famOf K := by
    funext j
    rw [Function.comp_apply]
    rw [hLc, LinearMap.sum_apply]
    refine Finset.sum_congr rfl ?_
    intro i _
    rw [LinearMap.smulRight_apply]
    congr 1
  have hdisj : Disjoint (Submodule.span ℚ (Set.range (famOf K)))
      (LinearMap.ker Lc) := by
    rw [← rowSpan_eq_span_range]
    rw [Submodule.disjoint_def]
    intro x hxK hxker
    have hker2 := rowSpan_le_ker_shiftL
      (fun r hr => le_of_eq (hc1B r hr)) hxK
    rw [LinearMap.mem_ker] at hxker hker2
    have hx0 : ∀ i : Fin B.length, x i.1 = 0 := by
      apply Fintype.linearIndependent_iff.1 hBind (fun i => x i.1)
      show (∑ i : Fin B.length, x i.1 • coordFn A (B.get i)) = 0
      have h6 : Lc x = ∑ i : Fin B.length, x i.1 • coordFn A (B.get i) := by
        rw [hLc, LinearMap.sum_apply]
        refine Finset.sum_congr rfl ?_
        intro i _
        rw [LinearMap.smulRight_apply]
        rfl
      rw [← h6]
      exact hxker
    funext j
    by_cases hj : j < B.length
    · exact hx0 ⟨j, hj⟩
    · have h7 : x (B.length + (j - B.length)) = 0 := congrFun hker2 (j - B.length)
      rw [show B.length + (j - B.length) = j from by omega] at h7
      exact h7
  have hcombInd : LinearIndependent ℚ (fun j : Fin K.length =>
      ∑ i : Fin B.length, toFun (K.get j) i.1 • coordFn A (B.get i)) := by
    rw [hfam2]
    exact LinearIndependent.map hk3 hdisj
  exact ⟨M, W, K, hblocks, hbasis, hc1B, hannih, hk3, hrkB, hcount, hcombInd⟩

/-- C5 witness: the one-element independent family `[(0, 1)]` under the one
actor that sends everything to the zero vector. -/
theorem annihilator_basis_spec_witness :
    AmbWF witAmb ∧
    (∀ s ∈ [()], ∀ b ∈ ([[(0, (1 : ℚ))]] : List (List (ℕ × ℚ))),
      witAmb.isParentOf
        ((fun (_ : Unit) (_ : List (ℕ × ℚ)) => ([] : List (ℕ × ℚ))) s b)
        = true) ∧
    LinearIndependent ℚ
      (fun i : Fin ([[(0, (1 : ℚ))]] : List (List (ℕ × ℚ))).length =>
        coordFn witAmb (([[(0, (1 : ℚ))]] : List (List (ℕ × ℚ))).get i)) ∧
    (∃ M W K,
      annihilator_blocks witAmb [[(0, (1 : ℚ))]] [()]
        (fun (_ : Unit) (_ : List (ℕ × ℚ)) => ([] : List (ℕ × ℚ)))
        = .ok (M, W) ∧
      annihilator_basis witAmb [[(0, (1 : ℚ))]] [()]
        (fun (_ : Unit) (_ : List (ℕ × ℚ)) => ([] : List (ℕ × ℚ)))
        = .ok K ∧
      (∀ c ∈ K, c.length = ([[(0, (1 : ℚ))]] : List (List (ℕ × ℚ))).length) ∧
      (∀ c ∈ K, ∀ s ∈ [()],
        (∑ i : Fin ([[(0, (1 : ℚ))]] : List (List (ℕ × ℚ))).length,
          toFun c i.1 • coordFn witAmb
            ((fun (_ : Unit) (_ : List (ℕ × ℚ)) => ([] : List (ℕ × ℚ))) s
              (([[(0, (1 : ℚ))]] : List (List (ℕ × ℚ))).get i))) = 0) ∧
      LinIndepL K ∧
      Module.finrank ℚ (Submodule.span ℚ (Set.range
        (fun i : Fin ([[(0, (1 : ℚ))]] : List (List (ℕ × ℚ))).length =>
          coordFn witAmb (([[(0, (1 : ℚ))]] : List (List (ℕ × ℚ))).get i))))
        = ([[(0, (1 : ℚ))]] : List (List (ℕ × ℚ))).length ∧
      K.length + Module.finrank ℚ (rowSpan M)
        = ([[(0, (1 : ℚ))]] : List (List (ℕ × ℚ))).length ∧
      LinearIndependent ℚ (fun j : Fin K.length =>
        ∑ i : Fin ([[(0, (1 : ℚ))]] : List (List (ℕ × ℚ))).length,
          toFun (K.get j) i.1 • coordFn witAmb
            (([[(0, (1 : ℚ))]] : List (List (ℕ × ℚ))).get i))) := by
  have hBind : LinearIndependent ℚ
      (fun i : Fin ([[(0, (1 : ℚ))]] : List (List (ℕ × ℚ))).length =>
        coordFn witAmb (([[(0, (1 : ℚ))]] : List (List (ℕ × ℚ))).get i)) := by
    haveI : Unique (Fin ([[(0, (1 : ℚ))]] : List (List (ℕ × ℚ))).length) :=
      show Unique (Fin 1) from inferInstance
    apply linearIndependent_unique
    intro h0
    have h2 : coordFn witAmb [(0, (1 : ℚ))] 0 = 1 := by with_unfolding_all rfl
    have h1 := congrFun h0 0
    rw [Pi.zero_apply] at h1
    rw [show (default : Fin ([[(0, (1 : ℚ))]] : List (List (ℕ × ℚ))).length)
      = ⟨0, by decide⟩ from Subsingleton.elim _ _] at h1
    rw [show ([[(0, (1 : ℚ))]] : List (List (ℕ × ℚ))).get ⟨0, by decide⟩
      = [(0, (1 : ℚ))] from rfl] at h1
    rw [h2] at h1
    exact one_ne_zero h1
  exact ⟨witAmb_wf, by decide, hBind,
    annihilator_basis_spec witAmb_wf [[(0, (1 : ℚ))]] [()]
      (fun (_ : Unit) (_ : List (ℕ × ℚ)) => ([] : List (ℕ × ℚ)))
      (by decide) hBind⟩

end Harmonic
